import Mathlib

/-!
Verification development for the bcoin blockchain core: chain entries
(median-time-past, chainwork), the compressed `Coins` UTXO serialization
with deferred decoding, the `CoinView` overlay, the chain database
connect/disconnect round trip, and the mempool admission pipeline.

Each definition is a shallow embedding of the corresponding JavaScript
function; doc comments name the source function.  Functions of the
repository that are outside the provided sources (buffer reader/writer,
script templates, compact-bits decoding) are modelled from the
specification and marked as such.
-/

namespace Bcoin

/-- Transaction hashes are abstracted as natural numbers. -/
abbrev Hash := Nat

/-! ### ChainEntry: median time past (`ChainEntry.prototype.getMedianTime`)

The source collects up to `MEDIAN_TIMESPAN` timestamps walking the
ancestor array and sorts them with JavaScript's default
`Array.prototype.sort()`, which compares the *decimal string*
representations of the numbers lexicographically. -/

/-- Constant `constants.block.MEDIAN_TIMESPAN` (11). -/
def MEDIAN_TIMESPAN : Nat := 11

/-- Lexicographic `≤` on character lists (JavaScript string comparison
restricted to ASCII digits, where code-unit order is character order). -/
def strLeB : List Char → List Char → Bool
  | [], _ => true
  | _ :: _, [] => false
  | a :: as, b :: bs => if a = b then strLeB as bs else decide (a < b)

/-- The default-sort key JavaScript uses for a number: its decimal string. -/
def jsKey (n : Nat) : List Char := (Nat.repr n).toList

/-- JavaScript default comparison of two numbers via their decimal strings. -/
def jsLe (a b : Nat) : Bool := strLeB (jsKey a) (jsKey b)

/-- Insert into a `jsLe`-sorted list. -/
def jsSortInsert (x : Nat) : List Nat → List Nat
  | [] => [x]
  | y :: ys => if jsLe x y then x :: y :: ys else y :: jsSortInsert x ys

/-- Model of JavaScript `Array.prototype.sort()` on an array of numbers:
sorted by the lexicographic order of their decimal strings.  (Elements
with equal keys are equal numbers, so every comparison sort agrees with
this insertion sort on the resulting list.) -/
def jsSort : List Nat → List Nat
  | [] => []
  | x :: xs => jsSortInsert x (jsSort xs)

/-- Loop of `getMedianTime`: after pushing `this.ts` the source reads
`ancestors[1], ancestors[2], …` while `i < MEDIAN_TIMESPAN` and the
ancestor exists (`ancestors[0]` is the entry itself and is never read). -/
def medianGo (ancestors : List Nat) : Nat → Nat → List Nat
  | 0, _ => []
  | fuel + 1, i =>
    match ancestors.get? i with
    | some t => t :: medianGo ancestors fuel (i + 1)
    | none => []

/-- Embedding of `ChainEntry.prototype.getMedianTime`: `ts` is `this.ts`,
`ancestors` the timestamps of the supplied ancestor array (index 0 being
the entry itself).  The collected timestamps are sorted with the default
JavaScript sort (`median.sort()`, i.e. decimal-string order) and the
element at index `⌊length / 2⌋` is returned. -/
def getMedianTime (ts : Nat) (ancestors : List Nat) : Nat :=
  let median := ts :: medianGo ancestors (MEDIAN_TIMESPAN - 1) 1
  let sorted := jsSort median
  sorted.getD (sorted.length / 2) 0

/-- Numeric insertion into a `≤`-sorted list (for stating the intended
behaviour of the claim: ascending numerical order). -/
def numInsert (x : Nat) : List Nat → List Nat
  | [] => [x]
  | y :: ys => if x ≤ y then x :: y :: ys else y :: numInsert x ys

/-- Ascending numerical sort, for comparison with `jsSort`. -/
def numSort : List Nat → List Nat
  | [] => []
  | x :: xs => numInsert x (numSort xs)

/-- Median of the last timestamps as the claim states it: middle element
of the timestamps sorted in ascending numerical order. -/
def getMedianTimeNumeric (ts : Nat) (ancestors : List Nat) : Nat :=
  let median := ts :: medianGo ancestors (MEDIAN_TIMESPAN - 1) 1
  let sorted := numSort median
  sorted.getD (sorted.length / 2) 0

/-! ### ChainEntry: proof and chainwork
(`ChainEntry.prototype.getProof`, `ChainEntry.prototype.getChainwork`)

`getProof` computes `target = utils.fromCompact(this.bits)`;
`fromCompact` lives outside the provided sources, so the decoded target
is taken as the argument here (the compact encoding can represent any
small positive target, e.g. bits `0x01010000` decodes to `1`). -/

/-- Constant `ChainEntry.MAX_CHAINWORK = new BN(1).ushln(256)`. -/
def MAX_CHAINWORK : Int := 2 ^ 256

/-- Embedding of `ChainEntry.prototype.getProof` as a function of the
decoded target: zero when the target is negative or zero, else
`MAX_CHAINWORK.div(target + 1)` (BN division truncates; for positive
operands this is floor division). -/
def getProof (target : Int) : Int :=
  if target < 0 ∨ target = 0 then 0 else MAX_CHAINWORK / (target + 1)

/-- Embedding of `ChainEntry.prototype.getChainwork`: the proof plus the
previous entry's chainwork, or just the proof when there is no previous
entry (genesis).  There is no clamping. -/
def getChainwork (target : Int) (prev : Option Int) : Int :=
  match prev with
  | none => getProof target
  | some w => getProof target + w

/-- Chainwork of the last entry of a chain described by its decoded
targets (genesis first), accumulated exactly as `fromOptions`/`fromBlock`
do via `getChainwork`. -/
def chainworkOfChain : List Int → Int
  | [] => 0
  | t :: ts => ts.foldl (fun w t2 => getChainwork t2 (some w)) (getChainwork t none)

/-! ### Byte-level primitives

Modelled from the spec: `BufferWriter`/`BufferReader` (not under the
provided sources) write little-endian fixed-width integers and Bitcoin
var-ints; `writeVarBytes` is a var-int length prefix followed by the
bytes. -/

/-- Little-endian byte encoding of `n` in `k` bytes. -/
def bytesLE : Nat → Nat → List Nat
  | 0, _ => []
  | k + 1, n => n % 256 :: bytesLE k (n / 256)

/-- Little-endian value of a byte list. -/
def valLE : List Nat → Nat
  | [] => 0
  | b :: r => b + 256 * valLE r

/-- Read `k` raw bytes, returning them and the remainder (`none` when the
buffer is too short, where the reader would throw). -/
def readBytesN (k : Nat) (bs : List Nat) : Option (List Nat × List Nat) :=
  if k ≤ bs.length then some (bs.take k, bs.drop k) else none

/-- Bitcoin var-int encoding (`BufferWriter.writeVarint`). -/
def writeVarint (n : Nat) : List Nat :=
  if n < 0xfd then [n]
  else if n ≤ 0xffff then 0xfd :: bytesLE 2 n
  else if n ≤ 0xffffffff then 0xfe :: bytesLE 4 n
  else 0xff :: bytesLE 8 n

/-- Bitcoin var-int decoding (`BufferReader.readVarint`), returning the
consumed bytes, the value, and the remainder. -/
def readVarint : List Nat → Option (List Nat × Nat × List Nat)
  | [] => none
  | b :: r =>
    if b = 0xff then (readBytesN 8 r).map (fun p => (b :: p.1, valLE p.1, p.2))
    else if b = 0xfe then (readBytesN 4 r).map (fun p => (b :: p.1, valLE p.1, p.2))
    else if b = 0xfd then (readBytesN 2 r).map (fun p => (b :: p.1, valLE p.1, p.2))
    else some ([b], b, r)

/-! ### Script templates

Modelled from the spec (§4.5): the serializer compresses the two
standard templates — pay-to-pubkey-hash
(`OP_DUP OP_HASH160 <20> OP_EQUALVERIFY OP_CHECKSIG`) and
pay-to-script-hash (`OP_HASH160 <20> OP_EQUAL`) — whose raw forms are
disjoint; `script.code[2].data` resp. `script.code[1].data` is the
embedded 20-byte hash. -/

/-- Raw script bytes. -/
abbrev Script := List Nat

/-- `Script.prototype.fromPubkeyhash`: the P2PKH template around a
20-byte hash. -/
def fromPubkeyhash (h : List Nat) : Script :=
  0x76 :: 0xa9 :: 0x14 :: (h ++ [0x88, 0xac])

/-- `Script.prototype.fromScripthash`: the P2SH template around a
20-byte hash. -/
def fromScripthash (h : List Nat) : Script :=
  0xa9 :: 0x14 :: (h ++ [0x87])

/-- `Script.prototype.isPubkeyhash` on the raw script. -/
def isPubkeyhash (s : Script) : Bool :=
  match s with
  | 0x76 :: 0xa9 :: 0x14 :: rest => rest.length == 22 && rest.drop 20 == [0x88, 0xac]
  | _ => false

/-- The 20-byte hash embedded in a P2PKH script (`code[2].data`). -/
def pkhData (s : Script) : List Nat := (s.drop 3).take 20

/-- `Script.prototype.isScripthash` on the raw script. -/
def isScripthash (s : Script) : Bool :=
  match s with
  | 0xa9 :: 0x14 :: rest => rest.length == 21 && rest.drop 20 == [0x87]
  | _ => false

/-- The 20-byte hash embedded in a P2SH script (`code[1].data`). -/
def shData (s : Script) : List Nat := (s.drop 2).take 20

/-! ### Coin and Coins (`coins.js`) -/

/-- A single resolved coin (`bcoin.coin`): an output together with its
transaction context. -/
structure Coin where
  version : Nat
  height : Int
  coinbase : Bool
  hash : Hash
  index : Nat
  script : Script
  value : Nat
deriving DecidableEq

/-- One slot of a `Coins` bundle: spent (`null` in the source), an
abstract `Coin`, or a `DeferredCoin` remembered as its raw slice of the
serialized bundle (the source stores `(offset, size, raw)`; the slice
`raw[offset, offset+size)` is kept directly here). -/
inductive CoinsOutput where
  | null : CoinsOutput
  | coin (c : Coin) : CoinsOutput
  | deferred (raw : List Nat) : CoinsOutput
deriving DecidableEq

/-- The `Coins` bundle: all outputs of a single transaction
(`coins.js`). -/
structure Coins where
  version : Nat
  hash : Hash
  height : Int
  coinbase : Bool
  outputs : List CoinsOutput
deriving DecidableEq

/-- Serialization of one unspent output entry inside `Coins.toRaw`:
compressed prefix 1/2 for the two standard templates, else prefix 0 with
var-bytes script; the value is a var-int. -/
def serializeEntry (c : Coin) : List Nat :=
  if isPubkeyhash c.script then 1 :: (pkhData c.script ++ writeVarint c.value)
  else if isScripthash c.script then 2 :: (shData c.script ++ writeVarint c.value)
  else 0 :: (writeVarint c.script.length ++ c.script ++ writeVarint c.value)

/-- Serialization of one output slot: `0xff` for a spent slot, the raw
slice for a `DeferredCoin` (`p.writeBytes(output.toRaw())`), else the
compressed entry. -/
def serializeOutput : CoinsOutput → List Nat
  | CoinsOutput.null => [0xff]
  | CoinsOutput.coin c => serializeEntry c
  | CoinsOutput.deferred raw => raw

/-- Embedding of `Coins.prototype.toRaw`: var-int version, the 32-bit
mask `(height << 1) | coinbase` (with `-1` stored as `0x7fffffff`), then
the output entries. -/
def Coins.toRaw (c : Coins) : List Nat :=
  let h0 : Nat := if c.height = -1 then 0x7fffffff else c.height.toNat
  let mask := 2 * h0 + (if c.coinbase then 1 else 0)
  writeVarint c.version ++ bytesLE 4 mask ++ (c.outputs.map serializeOutput).flatten

/-- Scan of one non-`0xff` output entry inside `Coins.prototype.fromRaw`
(`p.start() … p.end()`): skip the script (var-bytes for prefix 0, 20
bytes for prefixes 1 and 2), read the value var-int, and return the
consumed slice together with the remainder.  Prefix 3 hits
`assert(false, 'Bad prefix.')`. -/
def parseCoinEntry (bs : List Nat) : Option (List Nat × List Nat) :=
  match bs with
  | [] => none
  | b :: r1 =>
    if b = 0xff then none
    else if b % 4 = 0 then
      match readVarint r1 with
      | none => none
      | some (c1, len, r2) =>
        match readBytesN len r2 with
        | none => none
        | some (sc, r3) =>
          match readVarint r3 with
          | none => none
          | some (c2, _, r4) => some (b :: (c1 ++ sc ++ c2), r4)
    else if b % 4 ≤ 2 then
      match readBytesN 20 r1 with
      | none => none
      | some (h20, r2) =>
        match readVarint r2 with
        | none => none
        | some (c2, _, r3) => some (b :: (h20 ++ c2), r3)
    else none

/-- Embedding of `DeferredCoin.prototype.toCoin`: decode the coin at its
slice, taking version/height/coinbase/hash from the containing bundle
and the supplied index. -/
def toCoinDecode (cs : Coins) (index : Nat) (raw : List Nat) : Option Coin :=
  match raw with
  | [] => none
  | b :: r1 =>
    if b % 4 = 0 then
      match readVarint r1 with
      | none => none
      | some (_, len, r2) =>
        match readBytesN len r2 with
        | none => none
        | some (sc, r3) =>
          match readVarint r3 with
          | none => none
          | some (_, v, _) =>
            some ⟨cs.version, cs.height, cs.coinbase, cs.hash, index, sc, v⟩
    else if b % 4 = 1 then
      match readBytesN 20 r1 with
      | none => none
      | some (h20, r2) =>
        match readVarint r2 with
        | none => none
        | some (_, v, _) =>
          some ⟨cs.version, cs.height, cs.coinbase, cs.hash, index, fromPubkeyhash h20, v⟩
    else if b % 4 = 2 then
      match readBytesN 20 r1 with
      | none => none
      | some (h20, r2) =>
        match readVarint r2 with
        | none => none
        | some (_, v, _) =>
          some ⟨cs.version, cs.height, cs.coinbase, cs.hash, index, fromScripthash h20, v⟩
    else none

/-- Output-entry loop of `Coins.prototype.fromRaw` (no target index):
`0xff` pushes a spent slot, any other entry pushes a `DeferredCoin`
remembering its slice.  The fuel is instantiated with the buffer length
(every entry consumes at least one byte). -/
def parseOutputs : Nat → List Nat → Option (List CoinsOutput)
  | _, [] => some []
  | 0, _ :: _ => none
  | fuel + 1, b :: r =>
    if b = 0xff then (parseOutputs fuel r).map (fun os => CoinsOutput.null :: os)
    else
      match parseCoinEntry (b :: r) with
      | none => none
      | some (slice, rest) =>
        (parseOutputs fuel rest).map (fun os => CoinsOutput.deferred slice :: os)

/-- Embedding of `Coins.prototype.fromRaw` without a target index:
decode version, the height/coinbase mask (`0x7fffffff` meaning
unconfirmed, i.e. height `-1`), then all output entries. -/
def Coins.fromRaw (data : List Nat) (hash : Hash) : Option Coins :=
  match readVarint data with
  | none => none
  | some (_, version, r1) =>
    match readBytesN 4 r1 with
    | none => none
    | some (hb, r2) =>
      let hm := valLE hb
      let h0 := hm / 2
      let height : Int := if h0 = 0x7fffffff then -1 else (h0 : Int)
      (parseOutputs r2.length r2).map
        (fun os => ⟨version, hash, height, hm % 2 == 1, os⟩)

/-- Embedding of `Coins.prototype.get`: a spent slot yields nothing, a
`DeferredCoin` is decoded on demand via `toCoin`. -/
def Coins.get (c : Coins) (i : Nat) : Option Coin :=
  match c.outputs.get? i with
  | none => none
  | some CoinsOutput.null => none
  | some (CoinsOutput.coin co) => some co
  | some (CoinsOutput.deferred raw) => toCoinDecode c i raw

/-- Output-entry loop of `Coins.prototype.fromRaw` with a target index
(the `Coins.parseCoin` path): returns `some none` when the target slot
is spent (`return;` in the source), `some (some coin)` when the slice at
the target decodes (`coin.toCoin(this, i)`), and `none` when parsing
fails or the buffer ends before the target index
(`assert(index == null)`). -/
def parseCoinGo (version : Nat) (hash : Hash) (height : Int) (coinbase : Bool) :
    Nat → List Nat → Nat → Nat → Option (Option Coin)
  | _, [], _, _ => none
  | 0, _ :: _, _, _ => none
  | fuel + 1, b :: r, i, index =>
    if b = 0xff then
      if i = index then some none
      else parseCoinGo version hash height coinbase fuel r (i + 1) index
    else
      match parseCoinEntry (b :: r) with
      | none => none
      | some (slice, rest) =>
        if i = index then
          (toCoinDecode ⟨version, hash, height, coinbase, []⟩ index slice).map some
        else parseCoinGo version hash height coinbase fuel rest (i + 1) index

/-- Embedding of `Coins.parseCoin(data, hash, index)`: decode the header
and extract the single coin at `index`. -/
def Coins.parseCoin (data : List Nat) (hash : Hash) (index : Nat) :
    Option (Option Coin) :=
  match readVarint data with
  | none => none
  | some (_, version, r1) =>
    match readBytesN 4 r1 with
    | none => none
    | some (hb, r2) =>
      let hm := valLE hb
      let h0 := hm / 2
      let height : Int := if h0 = 0x7fffffff then -1 else (h0 : Int)
      parseCoinGo version hash height (hm % 2 == 1) r2.length r2 0 index

/-- Well-formedness of a single coin for serialization: value and script
length fit a var-int. -/
def wfCoin (c : Coin) : Prop := c.value < 2 ^ 64 ∧ c.script.length < 2 ^ 64

/-- Well-formedness of an output slot: a deferred slot must hold exactly
one parseable entry slice. -/
def wfOutput : CoinsOutput → Prop
  | CoinsOutput.null => True
  | CoinsOutput.coin c => wfCoin c
  | CoinsOutput.deferred raw => parseCoinEntry raw = some (raw, [])

instance : (o : CoinsOutput) → Decidable (wfOutput o)
  | CoinsOutput.null => Decidable.isTrue trivial
  | CoinsOutput.coin _ => inferInstanceAs (Decidable (_ ∧ _))
  | CoinsOutput.deferred _ => inferInstanceAs (Decidable (_ = _))

/-- Well-formedness of a `Coins` bundle: representable version and
height, and well-formed slots. -/
def wfCoins (c : Coins) : Prop :=
  c.version < 2 ^ 64 ∧
  (c.height = -1 ∨ (0 ≤ c.height ∧ c.height < 0x7fffffff)) ∧
  ∀ o ∈ c.outputs, wfOutput o

instance (c : Coins) : Decidable (wfCoins c) :=
  decidable_of_iff (c.version < 2 ^ 64 ∧
    (c.height = -1 ∨ 0 ≤ c.height ∧ c.height < 0x7fffffff) ∧
    ∀ o ∈ c.outputs, wfOutput o) Iff.rfl

/-- One slot of a bundle after deserialization: abstract coins become
deferred slices over their own serialization. -/
def deferredifyOutput : CoinsOutput → CoinsOutput
  | CoinsOutput.null => CoinsOutput.null
  | CoinsOutput.coin c => CoinsOutput.deferred (serializeEntry c)
  | CoinsOutput.deferred raw => CoinsOutput.deferred raw

/-- The bundle produced by `fromRaw (toRaw c)`: same header fields, the
hash taken from the argument, every unspent slot deferred. -/
def Coins.deferredify (c : Coins) (h : Hash) : Coins :=
  ⟨c.version, h, c.height, c.coinbase, c.outputs.map deferredifyOutput⟩

/-! ### Transactions and the CoinView overlay (`coinview.js`)

Transaction structure fields follow the spec data model (§3); predicates
on scripts and transactions that live outside the provided sources are
taken as parameters or modelled from the spec where needed. -/

/-- A transaction input: previous outpoint, script, witness stack, and
the resolved `coin` reference (populated only during verification). -/
structure TXIn where
  prevout : Hash × Nat
  script : Script
  witness : List (List Nat)
  coin : Option Coin
deriving DecidableEq

/-- A transaction output. -/
structure TXOut where
  script : Script
  value : Nat
deriving DecidableEq

/-- A transaction.  `ts` is the timestamp stamped at confirmation (0 for
an unconfirmed transaction); `height` is `-1` when unconfirmed. -/
structure TX where
  hash : Hash
  version : Nat
  inputs : List TXIn
  outputs : List TXOut
  locktime : Nat
  ts : Nat
  height : Int
deriving DecidableEq

/-- The null outpoint marking a coinbase input (hash `0…0`, index
`0xFFFFFFFF`). -/
def nullOutpoint : Hash × Nat := (0, 0xffffffff)

/-- `TX.prototype.isCoinbase`, modelled from the spec: exactly one input
whose outpoint is null. -/
def TX.isCoinbase (tx : TX) : Bool :=
  match tx.inputs with
  | [inp] => inp.prevout = nullOutpoint
  | _ => false

/-- Association-list lookup, modelling a JavaScript object keyed by tx
hash (or outpoint key). -/
def alistGet {κ α : Type} [DecidableEq κ] (l : List (κ × α)) (k : κ) : Option α :=
  match l with
  | [] => none
  | (k2, v) :: r => if k2 = k then some v else alistGet r k

/-- Association-list assignment: replace in place when the key exists,
append otherwise (JavaScript object assignment). -/
def alistSet {κ α : Type} [DecidableEq κ] (l : List (κ × α)) (k : κ) (v : α) :
    List (κ × α) :=
  match l with
  | [] => [(k, v)]
  | (k2, v2) :: r => if k2 = k then (k, v) :: r else (k2, v2) :: alistSet r k v

/-- Association-list deletion (JavaScript `delete obj[k]`). -/
def alistDel {κ α : Type} [DecidableEq κ] (l : List (κ × α)) (k : κ) : List (κ × α) :=
  match l with
  | [] => []
  | (k2, v2) :: r => if k2 = k then alistDel r k else (k2, v2) :: alistDel r k

/-- `Coins.prototype.has`: the slot at `index` is non-null (a deferred
slot counts as present). -/
def Coins.has (c : Coins) (i : Nat) : Bool :=
  match c.outputs.get? i with
  | some CoinsOutput.null => false
  | none => false
  | some _ => true

/-- `Coins.prototype.spend`: return the coin at `index` (decoding a
deferred slot) and null the slot.  Value-level: the mutated bundle is
returned alongside. -/
def Coins.spend (c : Coins) (i : Nat) : Option Coin × Coins :=
  (Coins.get c i, { c with outputs := c.outputs.set i CoinsOutput.null })

/-- The `CoinView` hash-to-coins map (`coinview.js`), as an association
list in insertion order. -/
structure CoinView where
  coins : List (Hash × Coins)
deriving DecidableEq

/-- `CoinView.prototype.add`: keyed by the bundle's hash. -/
def CoinView.add (v : CoinView) (c : Coins) : CoinView :=
  ⟨alistSet v.coins c.hash c⟩

/-- `CoinView.prototype.get`. -/
def CoinView.get (v : CoinView) (h : Hash) (i : Nat) : Option Coin :=
  match alistGet v.coins h with
  | none => none
  | some cs => Coins.get cs i

/-- `CoinView.prototype.has`. -/
def CoinView.has (v : CoinView) (h : Hash) (i : Nat) : Bool :=
  match alistGet v.coins h with
  | none => false
  | some cs => Coins.has cs i

/-- `CoinView.prototype.spend`: remove a coin and return it (nothing
when the bundle is absent). -/
def CoinView.spend (v : CoinView) (h : Hash) (i : Nat) : Option Coin × CoinView :=
  match alistGet v.coins h with
  | none => (none, v)
  | some cs =>
    let p := Coins.spend cs i
    (p.1, ⟨alistSet v.coins h p.2⟩)

/-- Input loop of `CoinView.prototype.fillCoins`: each input's coin is
assigned from `spend` (destructively), stopping at the first input that
cannot be resolved. -/
def fillCoinsGo (v : CoinView) : List TXIn → CoinView × List TXIn × Bool
  | [] => (v, [], true)
  | inp :: rest =>
    let p := CoinView.spend v inp.prevout.1 inp.prevout.2
    let inp2 := { inp with coin := p.1 }
    match p.1 with
    | none => (p.2, inp2 :: rest, false)
    | some _ =>
      let r := fillCoinsGo p.2 rest
      (r.1, inp2 :: r.2.1, r.2.2)

/-- Embedding of `CoinView.prototype.fillCoins`: fill the transaction's
inputs with spent coins; `true` iff all inputs were filled. -/
def CoinView.fillCoins (v : CoinView) (tx : TX) : CoinView × TX × Bool :=
  let r := fillCoinsGo v tx.inputs
  (r.1, { tx with inputs := r.2.1 }, r.2.2)

/-! ### Mempool (`mempool.js`)

The mempool state and operations are embedded value-level: maps that the
source keeps as JavaScript objects of serialized values are association
lists of the deserialized values.  Black-box predicates (script
interpreter, transaction policy checks, fee computation — out of scope
per the spec §1) are supplied through the `TXOracle`/`Chainstate`
records; timestamps (`utils.now()`) are taken as a per-call constant in
the configuration. -/

/-- `Coin.fromTX(tx, i)` for the output `o = tx.outputs[i]` (coin.js is
outside the provided sources; modelled from the spec: an output resolved
with its transaction context). -/
def Coin.ofOutput (tx : TX) (i : Nat) (o : TXOut) : Coin :=
  ⟨tx.version, tx.height, tx.isCoinbase, tx.hash, i, o.script, o.value⟩

/-- `TX.prototype.hasCoins`: every input has a resolved coin. -/
def TX.hasCoins (tx : TX) : Bool :=
  tx.inputs.all (fun i => i.coin.isSome)

/-- `TX.prototype.getPrevout`, modelled from the spec: the distinct
previous transaction hashes referenced by the inputs. -/
def TX.getPrevout (tx : TX) : List Hash :=
  (tx.inputs.map (fun i => i.prevout.1)).eraseDups

/-- A block as the mempool consumes it. -/
structure Block where
  hash : Hash
  height : Int
  txs : List TX
deriving DecidableEq

namespace Mempool

/-- Error categories of `VerifyError` used by the mempool. -/
inductive ErrCode where
  | alreadyknown
  | invalid
  | nonstandard
  | duplicate
  | insufficientfee
  | highfee
deriving DecidableEq

/-- A `VerifyError` (code, reason, ban score). -/
structure VerifyError where
  code : ErrCode
  reason : String
  score : Nat
deriving DecidableEq

/-- Events emitted by the mempool.  `conflict` is part of the spec's
event vocabulary; the embedding shows the code never emits it. -/
inductive Event where
  | tx (h : Hash)
  | addTx (h : Hash)
  | removeTx (h : Hash)
  | confirmed (h : Hash)
  | unconfirmed (h : Hash)
  | badOrphan (h : Hash)
  | addOrphan (h : Hash)
  | removeOrphan (h : Hash)
  | conflict (h : Hash)
deriving DecidableEq

/-- A mempool entry (`MempoolEntry`). -/
structure MempoolEntry where
  tx : TX
  height : Int
  size : Nat
  priority : Nat
  fee : Nat
  ts : Nat
  chainValue : Nat
  count : Nat
  sizes : Nat
  fees : Nat
  dependencies : Bool
deriving DecidableEq

/-- The mempool's in-memory state (`Mempool` constructor fields). -/
structure MState where
  txs : List (Hash × MempoolEntry)
  spents : List ((Hash × Nat) × (Hash × Nat))
  coins : List ((Hash × Nat) × Coin)
  orphans : List (Hash × TX)
  waiting : List (Hash × List Hash)
  totalOrphans : Nat
  size : Nat
  spent : Nat
  total : Nat
  freeCount : ℚ
  lastTime : Nat
  minFeeRate : Nat
  blockSinceBump : Bool
  lastFeeUpdate : Nat
  networkMinRelay : Nat
deriving DecidableEq

/-- Configuration and constants (mempool options, `constants.mempool`,
and the `utils.now()` timestamp of the current call). -/
structure MConfig where
  maxSize : Nat
  accurateMemory : Bool
  ptrSize : Nat
  requireStandard : Bool
  prematureWitness : Bool
  limitFree : Bool
  limitFreeRelay : Nat
  relayPriority : Bool
  rejectAbsurdFees : Bool
  minRelayFee : Nat
  minReasonableFee : Nat
  now : Nat
  expiryTime : Nat
  ancestorLimit : Nat
  maxSigopsCost : Nat
  feeHalflife : Nat

/-- Chain queries the mempool makes (`this.chain`, `this.chain.db`). -/
structure Chainstate where
  height : Int
  hasCSV : Bool
  hasWitness : Bool
  hasCoins : Hash → Bool
  getCoin : Hash → Nat → Option Coin
  checkFinal : TX → Bool
  checkLocks : TX → Bool

/-- Black-box transaction predicates and fee computations (script
interpreter, standardness, sizes — external collaborators per the
spec §1).  `isSaneErr`/`isStandardErr`/`checkInputsErr` return the
`ret.reason`/`ret.score` pair the source reports on failure.
`verifyScript tx mandatory witness` is `tx.verifyAsync(flags)` with the
mandatory flag set and the witness flag adjustment. -/
structure TXOracle where
  isSaneErr : TX → Option (String × Nat)
  isStandardErr : TX → Option (String × Nat)
  hasWitness : TX → Bool
  hasStandardInputs : TX → Bool
  getSigopsCost : TX → Nat
  getFee : TX → Nat
  getMinFee : Nat → Nat → Nat
  getPriority : TX → Int → Nat
  getChainValue : TX → Int → Nat
  getVirtualSize : TX → Nat
  getSize : TX → Nat
  isFree : MempoolEntry → Int → Bool
  checkInputsErr : TX → Int → Option (String × Nat)
  verifyScript : TX → Bool → Bool → Bool

/-- The whole environment of one mempool call. -/
structure MEnv where
  cfg : MConfig
  fx : TXOracle
  ch : Chainstate
  isUnspendable : Script → Bool

/-- `Mempool.prototype.getEntry` (value-level; the source deserializes
the stored raw entry). -/
def getEntry (s : MState) (h : Hash) : Option MempoolEntry :=
  alistGet s.txs h

/-- `Mempool.prototype.hasTX`. -/
def hasTX (s : MState) (h : Hash) : Bool :=
  (alistGet s.txs h).isSome

/-- `Mempool.prototype.hasOrphan`. -/
def hasOrphan (s : MState) (h : Hash) : Bool :=
  (alistGet s.orphans h).isSome

/-- `Mempool.prototype.has` (the pending-lock check is empty in this
single-call model). -/
def has (s : MState) (h : Hash) : Bool :=
  hasOrphan s h || hasTX s h

/-- `Mempool.prototype.isSpent`: the spender outpoint recorded for a
spent key. -/
def isSpent (s : MState) (key : Hash × Nat) : Option (Hash × Nat) :=
  alistGet s.spents key

/-- `Mempool.prototype.isDoubleSpend`. -/
def isDoubleSpend (s : MState) (tx : TX) : Bool :=
  tx.inputs.any (fun i => (isSpent s i.prevout).isSome)

/-- `mallocUsage` (bitcoind memory estimation helper). -/
def mallocUsage (ptrSize alloc : Nat) : Nat :=
  if alloc = 0 then 0
  else if ptrSize = 8 then ((alloc + 31) / 16) * 16
  else ((alloc + 15) / 8) * 8

/-- `Mempool.prototype.memUsageAccurate`. -/
def memUsageAccurate (fx : TXOracle) (tx : TX) : Nat :=
  (fx.getSize tx + 4 + 32 + 4 + 4 + 4) + (2 + 64) + (2 + 10 + 1 + 64) +
    tx.inputs.length * (2 + 64 + 1 + 2 + 32) +
    tx.outputs.length * (2 + 64 + 1 + 2 + 80)

/-- `Mempool.prototype.memUsageBitcoind`. -/
def memUsageBitcoind (ptr : Nat) (tx : TX) : Nat :=
  mallocUsage ptr tx.inputs.length + mallocUsage ptr tx.outputs.length +
    (tx.inputs.map (fun i => mallocUsage ptr i.script.length)).sum +
    (tx.outputs.map (fun o => mallocUsage ptr o.script.length)).sum +
    mallocUsage ptr tx.inputs.length +
    (tx.inputs.map (fun i =>
      mallocUsage ptr i.witness.length +
        (i.witness.map (fun w => mallocUsage ptr w.length)).sum)).sum

/-- `Mempool.prototype.memUsage`. -/
def memUsage (env : MEnv) (tx : TX) : Nat :=
  if env.cfg.accurateMemory then memUsageAccurate env.fx tx
  else memUsageBitcoind env.cfg.ptrSize tx

/-- `Mempool.prototype.getSize`. -/
def getSize (env : MEnv) (s : MState) : Nat :=
  if env.cfg.accurateMemory then s.size
  else
    mallocUsage env.cfg.ptrSize (162 + 15 * env.cfg.ptrSize) * s.total +
      mallocUsage env.cfg.ptrSize s.spent +
      mallocUsage env.cfg.ptrSize s.total +
      mallocUsage env.cfg.ptrSize s.total +
      s.size

/-- `MempoolEntry.fromTX`. -/
def MempoolEntry.fromTX (env : MEnv) (tx : TX) (height : Int) : MempoolEntry :=
  let size := env.fx.getVirtualSize tx
  let fee := env.fx.getFee tx
  { tx := tx
    height := height
    size := size
    priority := env.fx.getPriority tx height
    fee := fee
    ts := env.cfg.now
    chainValue := env.fx.getChainValue tx height
    count := 1
    sizes := size
    fees := fee
    dependencies := tx.inputs.any (fun i =>
      match i.coin with
      | some c => c.height == -1
      | none => false) }

/-- `Mempool.prototype._addUnchecked`: insert into the `tx` map, record
`spents` for every input (deleting the mempool coins they spend), and
index the spendable outputs in `coins`. -/
def _addUnchecked (env : MEnv) (s : MState) (e : MempoolEntry) : MState :=
  let tx := e.tx
  let h := tx.hash
  let s1 := { s with txs := alistSet s.txs h e }
  let s2 :=
    if tx.isCoinbase then s1
    else
      tx.inputs.enum.foldl
        (fun st p =>
          { st with
            coins := alistDel st.coins p.2.prevout
            spents := alistSet st.spents p.2.prevout (h, p.1) })
        s1
  tx.outputs.enum.foldl
    (fun st p =>
      if env.isUnspendable p.2.script then st
      else { st with coins := alistSet st.coins (h, p.1) (Coin.ofOutput tx p.1 p.2) })
    s2

/-- `TX.prototype.fillCoins(tx)` used during orphan resolution, modelled
from the spec: fill unresolved inputs that reference the given
transaction's outputs. -/
def fillFromTX (orphan tx : TX) : TX :=
  { orphan with
    inputs := orphan.inputs.map (fun i =>
      if i.coin.isSome then i
      else if i.prevout.1 = tx.hash then
        match tx.outputs.get? i.prevout.2 with
        | some o => { i with coin := some (Coin.ofOutput tx i.prevout.2 o) }
        | none => i
      else i) }

/-- `Mempool.prototype.resolveOrphans`: collect (and delete) the waiting
orphans that become fully resolved by the new transaction; partially
resolved orphans are stored back. -/
def resolveOrphans (s : MState) (tx : TX) : List TX × MState :=
  match alistGet s.waiting tx.hash with
  | none => ([], s)
  | some hashes =>
    let step := fun (acc : List TX × MState) (oh : Hash) =>
      match alistGet acc.2.orphans oh with
      | none => acc
      | some orphan =>
        let orphan2 := fillFromTX orphan tx
        if TX.hasCoins orphan2 then
          (acc.1 ++ [orphan2],
            { acc.2 with
              totalOrphans := acc.2.totalOrphans - 1
              orphans := alistDel acc.2.orphans oh })
        else (acc.1, { acc.2 with orphans := alistSet acc.2.orphans oh orphan2 })
    let r := hashes.foldl step ([], s)
    (r.1, { r.2 with waiting := alistDel r.2.waiting tx.hash })

/-- `Mempool.prototype.removeOrphan` applied to a transaction object:
clean the `waiting` lists of its prevouts, delete it from `orphans`,
emit `remove orphan` and decrement the counter (the source does this
unconditionally when handed a transaction). -/
def removeOrphanTX (s : MState) (tx : TX) : MState × List Event :=
  let h := tx.hash
  let s1 := (TX.getPrevout tx).foldl
    (fun st prev =>
      match alistGet st.waiting prev with
      | none => st
      | some hashes =>
        let hashes2 := hashes.erase h
        if hashes2.isEmpty then { st with waiting := alistDel st.waiting prev }
        else { st with waiting := alistSet st.waiting prev hashes2 })
    s
  ({ s1 with
      orphans := alistDel s1.orphans h
      totalOrphans := s1.totalOrphans - 1 },
    [Event.removeOrphan h])

/-- `Mempool.prototype.removeOrphan` applied to a hash: no-op when the
orphan does not exist. -/
def removeOrphanHash (s : MState) (h : Hash) : MState × List Event :=
  match alistGet s.orphans h with
  | none => (s, [])
  | some otx => removeOrphanTX s otx

/-- `Mempool.prototype.fillHistory` (fill from mempool transactions,
spent or unspent). -/
def fillHistoryMem (s : MState) (tx : TX) : TX :=
  if tx.isCoinbase then tx
  else
    { tx with
      inputs := tx.inputs.map (fun i =>
        if i.coin.isSome then i
        else
          match alistGet s.txs i.prevout.1 with
          | some pe =>
            match pe.tx.outputs.get? i.prevout.2 with
            | some o => { i with coin := some (Coin.ofOutput pe.tx i.prevout.2 o) }
            | none => i
          | none => i) }

/-- `Mempool.prototype.fillAllHistory`: mempool history first, then the
chain database (`ChainDB.fillCoins`). -/
def fillAllHistory (env : MEnv) (s : MState) (tx : TX) : TX :=
  let t1 := fillHistoryMem s tx
  if TX.hasCoins t1 then t1
  else if t1.isCoinbase then t1
  else
    { t1 with
      inputs := t1.inputs.map (fun i =>
        if i.coin.isSome then i
        else
          match env.ch.getCoin i.prevout.1 i.prevout.2 with
          | some c => { i with coin := some c }
          | none => i) }

/-- `Mempool.prototype.fillCoins` (unspent mempool coins only). -/
def fillCoinsMem (s : MState) (tx : TX) : TX :=
  if tx.isCoinbase then tx
  else
    { tx with
      inputs := tx.inputs.map (fun i =>
        if i.coin.isSome then i
        else
          match alistGet s.coins i.prevout with
          | some c => { i with coin := some c }
          | none => i) }

/-- `Mempool.prototype.fillAllCoins`: mempool coins, then (for keys not
spent in the mempool) the chain database. -/
def fillAllCoins (env : MEnv) (s : MState) (tx : TX) : TX :=
  let t1 := fillCoinsMem s tx
  if TX.hasCoins t1 then t1
  else
    { t1 with
      inputs := t1.inputs.map (fun i =>
        if (isSpent s i.prevout).isSome then i
        else
          match env.ch.getCoin i.prevout.1 i.prevout.2 with
          | some c => { i with coin := some c }
          | none => i) }

/-- `bcoin.tx.getRate(size, fee)` (tx.js is outside the provided
sources; modelled from the spec fee-rate convention: satoshis per
thousand bytes). -/
def txRate (size fee : Nat) : Nat :=
  if size = 0 then 0 else fee * 1000 / size

/-- `Mempool.prototype.countAncestors` (fuel-bounded recursion over the
in-pool ancestor graph; the fuel is instantiated with the pool size). -/
def countAncestors (s : MState) : Nat → TX → Nat
  | 0, _ => 0
  | fuel + 1, tx =>
    tx.inputs.foldl
      (fun mx i =>
        match getEntry s i.prevout.1 with
        | none => mx
        | some pe => max mx (1 + countAncestors s fuel pe.tx))
      0

/-- `Mempool.prototype.getMinRate`: the exponentially decaying rolling
minimum fee rate.  The source computes the decay in floating point
(`minFeeRate /= Math.pow(2, Δ/halflife | 0)` then `|0`); it is modelled
as natural division by the corresponding power of two. -/
def getMinRate (env : MEnv) (s : MState) : MState × Nat :=
  if !s.blockSinceBump || s.minFeeRate = 0 then (s, s.minFeeRate)
  else if env.cfg.now > s.lastFeeUpdate + 10 then
    let sz := getSize env s
    let halflife :=
      if sz < env.cfg.maxSize / 4 then env.cfg.feeHalflife / 4
      else if sz < env.cfg.maxSize / 2 then env.cfg.feeHalflife / 2
      else env.cfg.feeHalflife
    let rate1 := s.minFeeRate / 2 ^ ((env.cfg.now - s.lastFeeUpdate) / halflife)
    let s1 := { s with minFeeRate := rate1, lastFeeUpdate := env.cfg.now }
    if rate1 < env.cfg.minReasonableFee / 2 then ({ s1 with minFeeRate := 0 }, 0)
    else (s1, max rate1 env.cfg.minReasonableFee)
  else (s, max s.minFeeRate env.cfg.minReasonableFee)

/-- `Mempool.prototype.verify`: the policy checks after coin
resolution.  Returns the possibly updated rate-limiter state and the
`VerifyError`, `none` on success. -/
def verify (env : MEnv) (s : MState) (e : MempoolEntry) : MState × Option VerifyError :=
  let height := env.ch.height + 1
  let tx := e.tx
  if !env.ch.checkLocks tx then
    (s, some ⟨ErrCode.nonstandard, "non-BIP68-final", 0⟩)
  else if env.cfg.requireStandard && !env.fx.hasStandardInputs tx then
    (s, some ⟨ErrCode.nonstandard, "bad-txns-nonstandard-inputs", 0⟩)
  else if env.fx.getSigopsCost tx > env.cfg.maxSigopsCost then
    (s, some ⟨ErrCode.nonstandard, "bad-txns-too-many-sigops", 0⟩)
  else
    let fee := env.fx.getFee tx
    let modFee := e.fees
    let size := e.size
    let p := getMinRate env s
    let minRate := p.2
    let s2 :=
      if minRate > env.cfg.minRelayFee then { p.1 with networkMinRelay := minRate }
      else p.1
    let rejectFee := env.fx.getMinFee size minRate
    let minRelayFee := env.fx.getMinFee size env.cfg.minRelayFee
    if rejectFee > 0 && modFee < rejectFee then
      (s2, some ⟨ErrCode.insufficientfee, "mempool min fee not met", 0⟩)
    else if env.cfg.relayPriority && modFee < minRelayFee &&
        !env.fx.isFree e height then
      (s2, some ⟨ErrCode.insufficientfee, "insufficient priority", 0⟩)
    else
      let pfree :=
        if env.cfg.limitFree && modFee < minRelayFee then
          let fc := s2.freeCount * ((599 : ℚ) / 600) ^ (env.cfg.now - s2.lastTime)
          if fc > (env.cfg.limitFreeRelay * 10 * 1000 : ℚ) then
            ({ s2 with freeCount := fc, lastTime := env.cfg.now }, true)
          else
            ({ s2 with freeCount := fc + size, lastTime := env.cfg.now }, false)
        else (s2, false)
      let s3 := pfree.1
      if pfree.2 then
        (s3, some ⟨ErrCode.insufficientfee, "rate limited free transaction", 0⟩)
      else if env.cfg.rejectAbsurdFees && fee > minRelayFee * 10000 then
        (s3, some ⟨ErrCode.highfee, "absurdly-high-fee", 0⟩)
      else if countAncestors s3 s3.txs.length tx > env.cfg.ancestorLimit then
        (s3, some ⟨ErrCode.nonstandard, "too-long-mempool-chain", 0⟩)
      else
        match env.fx.checkInputsErr tx height with
        | some r => (s3, some ⟨ErrCode.invalid, r.1, r.2⟩)
        | none =>
          if env.fx.verifyScript tx false env.ch.hasWitness then (s3, none)
          else if env.fx.verifyScript tx true env.ch.hasWitness then
            (s3, some ⟨ErrCode.nonstandard, "non-mandatory-script-verify-flag", 0⟩)
          else
            (s3, some ⟨ErrCode.nonstandard, "mandatory-script-verify-flag", 0⟩)

end Mempool

namespace Mempool

/-- `Mempool.prototype._removeSpenders`: recursively remove the in-pool
spenders of each output of the removed transaction.  `ru` is the
removal routine for one spender (i.e. `removeUnchecked` at the
enclosing fuel, with `limit = true`); the list is the output-index
range of the removed transaction. -/
def removeSpendersGo (env : MEnv)
    (ru : MState → MempoolEntry → MState × List Event) :
    List Nat → MState → Hash → MState × List Event
  | [], s, _ => (s, [])
  | i :: rest, s, h =>
    match alistGet s.spents (h, i) with
    | none => removeSpendersGo env ru rest s h
    | some spender =>
      match alistGet s.txs spender.1 with
      | none => removeSpendersGo env ru rest s h
      | some e2 =>
        let r := ru s e2
        let r2 := removeSpendersGo env ru rest r.1 h
        (r2.1, r.2 ++ r2.2)

/-- `Mempool.prototype.removeUnchecked`: fill the transaction with its
historical coins, drop any orphan bookkeeping, remove the entry (and,
when `limit` is set, its spenders, restoring disconnected mempool
coins), adjust the counters, optionally bump the rolling minimum fee
rate, and emit `remove tx`.  The fuel bounds the spender recursion (the
source recurses on the call stack). -/
def removeUnchecked (env : MEnv) : Nat → MState → MempoolEntry → Bool → MState × List Event
  | 0, s, _, _ => (s, [])
  | fuel + 1, s, e, limit =>
    let tx2 := fillAllHistory env s e.tx
    let h := e.tx.hash
    let p0 := removeOrphanTX s e.tx
    let p1 :=
      if limit then
        removeSpendersGo env (fun s2 e2 => removeUnchecked env fuel s2 e2 true)
          (List.range e.tx.outputs.length) p0.1 h
      else (p0.1, [])
    let s2 := { p1.1 with txs := alistDel p1.1.txs h }
    let s3 :=
      if e.tx.isCoinbase then s2
      else
        tx2.inputs.foldl
          (fun st inp =>
            let st1 := { st with spents := alistDel st.spents inp.prevout }
            if limit then
              match inp.coin with
              | some co =>
                if co.height != -1 then st1
                else { st1 with coins := alistSet st1.coins inp.prevout co }
              | none => st1
            else st1)
          s2
    let s4 := e.tx.outputs.enum.foldl
      (fun st p =>
        if env.isUnspendable p.2.script then st
        else { st with coins := alistDel st.coins (h, p.1) })
      s3
    let s5 := { s4 with
      spent := s4.spent - tx2.inputs.length
      size := s4.size - memUsage env tx2
      total := s4.total - 1 }
    let s6 :=
      if limit then
        let rate := txRate e.sizes e.fees + env.cfg.minReasonableFee
        if rate > s5.minFeeRate then
          { s5 with minFeeRate := rate, blockSinceBump := false }
        else s5
      else s5
    (s6, p0.2 ++ p1.2 ++ [Event.removeTx h])

/-- `Mempool.prototype.storeOrphan` (with `limitOrphans`: the source
evicts uniformly random orphans above `MAX_ORPHAN_TX`; eviction is not
modelled here since the cap is never exceeded in the claims). -/
def storeOrphan (env : MEnv) (s : MState) (tx : TX) : MState × List Event :=
  if env.fx.getSize tx > 99999 then (s, [Event.badOrphan tx.hash])
  else
    let h := tx.hash
    let prevs := ((tx.inputs.filter (fun i => i.coin.isNone)).map
      (fun i => i.prevout.1)).eraseDups
    let s1 := prevs.foldl
      (fun st prev =>
        match alistGet st.waiting prev with
        | none => { st with waiting := alistSet st.waiting prev [h] }
        | some hs => { st with waiting := alistSet st.waiting prev (hs ++ [h]) })
      s
    ({ s1 with
        orphans := alistSet s1.orphans h tx
        totalOrphans := s1.totalOrphans + 1 },
      [Event.addOrphan h])

/-- `Mempool.prototype.addUnchecked`: insert without validation, emit
`tx` then `add tx`, and resolve any waiting orphans (each resolved
orphan is verified and recursively added; failures emit `bad orphan`).
The fuel bounds the orphan-resolution recursion. -/
def addUnchecked (env : MEnv) : Nat → MState → MempoolEntry → MState × List Event
  | 0, s, _ => (s, [])
  | fuel + 1, s, e =>
    let tx := e.tx
    let s1 := _addUnchecked env s e
    let s2 := { s1 with
      spent := s1.spent + tx.inputs.length
      size := s1.size + memUsage env tx
      total := s1.total + 1 }
    let pr := resolveOrphans s2 tx
    let fin := pr.1.foldl
      (fun (acc : MState × List Event) otx =>
        let entry := MempoolEntry.fromTX env otx env.ch.height
        let pv := verify env acc.1 entry
        match pv.2 with
        | some _ => (pv.1, acc.2 ++ [Event.badOrphan otx.hash])
        | none =>
          let r := addUnchecked env fuel pv.1 entry
          (r.1, acc.2 ++ r.2))
      (pr.2, [Event.tx tx.hash, Event.addTx tx.hash])
    (fin.1, fin.2)

/-- Timestamp-ordered insertion (the `time` index of the mempool). -/
def insertByTs (e : MempoolEntry) : List MempoolEntry → List MempoolEntry
  | [] => [e]
  | f :: fs => if e.ts ≤ f.ts then e :: f :: fs else f :: insertByTs e fs

/-- Entry list of `this.time.getRange(0, end)` mapped through
`getEntry`: the expired entries in ascending-timestamp order. -/
def getExpired (env : MEnv) (s : MState) : List MempoolEntry :=
  let endTs := env.cfg.now - env.cfg.expiryTime
  let expired := (s.txs.map Prod.snd).filter (fun e => e.ts < endTs)
  expired.foldr insertByTs []

/-- First eviction pass of `limitMempoolSize`: expired entries, checking
the size bound before each removal and stopping early once satisfied. -/
def limitPass1 (env : MEnv) (entryHash : Hash) :
    List MempoolEntry → MState → Bool → MState × List Event × Bool × Bool
  | [], s, tr => (s, [], tr, false)
  | e :: rest, s, tr =>
    if getSize env s ≤ env.cfg.maxSize then (s, [], tr, true)
    else
      let tr2 := tr || (e.tx.hash = entryHash)
      let r := removeUnchecked env (s.txs.length + 1) s e true
      let r2 := limitPass1 env entryHash rest r.1 tr2
      (r2.1, r.2 ++ r2.2.1, r2.2.2)

/-- Second eviction pass of `limitMempoolSize`: a snapshot of all
hashes, again checking the bound before each removal. -/
def limitPass2 (env : MEnv) (entryHash : Hash) :
    List Hash → MState → Bool → MState × List Event × Bool × Bool
  | [], s, tr => (s, [], tr, false)
  | h :: rest, s, tr =>
    if getSize env s ≤ env.cfg.maxSize then (s, [], tr, true)
    else
      match alistGet s.txs h with
      | none => limitPass2 env entryHash rest s tr
      | some e =>
        let tr2 := tr || (h = entryHash)
        let r := removeUnchecked env (s.txs.length + 1) s e true
        let r2 := limitPass2 env entryHash rest r.1 tr2
        (r2.1, r.2 ++ r2.2.1, r2.2.2)

/-- `Mempool.prototype.limitMempoolSize`: evict expired entries, then
arbitrary snapshot entries, until the size bound holds; returns whether
the initiating transaction itself was trimmed. -/
def limitMempoolSize (env : MEnv) (s : MState) (entryHash : Hash) :
    MState × List Event × Bool :=
  if getSize env s ≤ env.cfg.maxSize then (s, [], false)
  else
    let p1 := limitPass1 env entryHash (getExpired env s) s false
    if p1.2.2.2 then (p1.1, p1.2.1, p1.2.2.1)
    else if getSize env p1.1 ≤ env.cfg.maxSize then (p1.1, p1.2.1, p1.2.2.1)
    else
      let p2 := limitPass2 env entryHash (p1.1.txs.map Prod.fst) p1.1 p1.2.2.1
      (p2.1, p1.2.1 ++ p2.2.1, p2.2.2.1)

/-- `Mempool.prototype.addTX`: the admission pipeline. -/
def addTX (env : MEnv) (s : MState) (tx : TX) : MState × List Event × Option VerifyError :=
  if tx.ts ≠ 0 then
    (s, [], some ⟨ErrCode.alreadyknown, "txn-already-known", 0⟩)
  else
    match env.fx.isSaneErr tx with
    | some r => (s, [], some ⟨ErrCode.invalid, r.1, r.2⟩)
    | none =>
      if tx.isCoinbase then
        (s, [], some ⟨ErrCode.invalid, "coinbase", 100⟩)
      else if env.cfg.requireStandard && !env.ch.hasCSV && 2 ≤ tx.version then
        (s, [], some ⟨ErrCode.nonstandard, "premature-version2-tx", 0⟩)
      else if !env.ch.hasWitness && !env.cfg.prematureWitness &&
          env.fx.hasWitness tx then
        (s, [], some ⟨ErrCode.nonstandard, "no-witness-yet", 0⟩)
      else
        match (if env.cfg.requireStandard then env.fx.isStandardErr tx else none) with
        | some r => (s, [], some ⟨ErrCode.nonstandard, r.1, r.2⟩)
        | none =>
          if !env.ch.checkFinal tx then
            (s, [], some ⟨ErrCode.nonstandard, "non-final", 0⟩)
          else if has s tx.hash then
            (s, [], some ⟨ErrCode.alreadyknown, "txn-already-in-mempool", 0⟩)
          else if env.ch.hasCoins tx.hash then
            (s, [], some ⟨ErrCode.alreadyknown, "txn-already-known", 0⟩)
          else if isDoubleSpend s tx then
            (s, [], some ⟨ErrCode.duplicate, "bad-txns-inputs-spent", 0⟩)
          else
            let tx2 := fillAllCoins env s tx
            if !TX.hasCoins tx2 then
              let po := storeOrphan env s tx2
              (po.1, po.2, none)
            else
              let entry := MempoolEntry.fromTX env tx2 env.ch.height
              let pv := verify env s entry
              match pv.2 with
              | some err => (pv.1, [], some err)
              | none =>
                let pa := addUnchecked env (pv.1.totalOrphans + 1) pv.1 entry
                let pl := limitMempoolSize env pa.1 tx.hash
                if pl.2.2 then
                  (pl.1, pa.2 ++ pl.2.1,
                    some ⟨ErrCode.insufficientfee, "mempool full", 0⟩)
                else (pl.1, pa.2 ++ pl.2.1, none)

/-- `Mempool.prototype.addBlock`: remove each confirmed transaction
(newest first) without disconnecting inputs, emitting `confirmed` after
its removal; unknown transactions only purge orphans. -/
def addBlock (env : MEnv) (s : MState) (block : Block) : MState × List Event :=
  let r := block.txs.reverse.foldl
    (fun (acc : MState × List Event) tx =>
      if tx.isCoinbase then acc
      else
        match getEntry acc.1 tx.hash with
        | none =>
          let p := removeOrphanHash acc.1 tx.hash
          (p.1, acc.2 ++ p.2)
        | some entry =>
          let p := removeUnchecked env (acc.1.txs.length + 1) acc.1 entry false
          (p.1, acc.2 ++ p.2 ++ [Event.confirmed tx.hash]))
    (s, [])
  ({ r.1 with blockSinceBump := true, lastFeeUpdate := env.cfg.now }, r.2)

end Mempool

/-- The height/coinbase mask written by `Coins.prototype.toRaw`
(`(height << 1) | coinbase`, with height `-1` stored as `0x7fffffff`). -/
def maskOf (c : Coins) : Nat :=
  2 * (if c.height = -1 then 0x7fffffff else c.height.toNat) +
    (if c.coinbase then 1 else 0)

/-- A concrete view used to instantiate the `fillCoins` theorem. -/
def viewEx : CoinView :=
  ⟨[(3, ⟨1, 3, 4, false,
    [CoinsOutput.coin ⟨1, 4, false, 3, 0, [0x51], 11⟩,
     CoinsOutput.coin ⟨1, 4, false, 3, 1, [0x52], 22⟩]⟩)]⟩

/-- A concrete transaction spending output 0 of transaction 3. -/
def txEx : TX :=
  ⟨9, 1, [⟨(3, 0), [], [], none⟩], [⟨[0x51], 5⟩], 0, 0, -1⟩

/-- A concrete well-formed bundle used to instantiate the round-trip
theorem: a compressed P2PKH coin, a spent slot, and a raw-script coin. -/
def coinsEx : Coins :=
  ⟨1, 7, 5, false,
    [CoinsOutput.coin ⟨1, 5, false, 7, 0, fromPubkeyhash (List.replicate 20 17), 50000⟩,
     CoinsOutput.null,
     CoinsOutput.coin ⟨1, 5, false, 7, 2, [0x51], 3⟩]⟩

end Bcoin

namespace Bcoin

/-! ### Concrete mempool scenarios

A permissive environment and small states used to evaluate the mempool
pipeline on concrete inputs. -/

/-- A permissive configuration: standardness and fee policies off. -/
def cfg0 : Mempool.MConfig :=
  { maxSize := 1000000000
    accurateMemory := true
    ptrSize := 8
    requireStandard := false
    prematureWitness := false
    limitFree := false
    limitFreeRelay := 0
    relayPriority := false
    rejectAbsurdFees := false
    minRelayFee := 0
    minReasonableFee := 0
    now := 100
    expiryTime := 259200
    ancestorLimit := 25
    maxSigopsCost := 80000
    feeHalflife := 3600 }

/-- A permissive transaction oracle: everything sane, standard, and
script-valid. -/
def fx0 : Mempool.TXOracle :=
  { isSaneErr := fun _ => none
    isStandardErr := fun _ => none
    hasWitness := fun _ => false
    hasStandardInputs := fun _ => true
    getSigopsCost := fun _ => 0
    getFee := fun _ => 1000
    getMinFee := fun _ _ => 0
    getPriority := fun _ _ => 0
    getChainValue := fun _ _ => 0
    getVirtualSize := fun _ => 100
    getSize := fun _ => 100
    isFree := fun _ _ => false
    checkInputsErr := fun _ _ => none
    verifyScript := fun _ _ _ => true }

/-- A chain oracle: tip height 10, soft forks active, no chain coins. -/
def ch0 : Mempool.Chainstate :=
  { height := 10
    hasCSV := true
    hasWitness := true
    hasCoins := fun _ => false
    getCoin := fun _ _ => none
    checkFinal := fun _ => true
    checkLocks := fun _ => true }

/-- The permissive environment. -/
def env0 : Mempool.MEnv := ⟨cfg0, fx0, ch0, fun _ => false⟩

/-- The empty mempool state. -/
def mstate0 : Mempool.MState :=
  { txs := []
    spents := []
    coins := []
    orphans := []
    waiting := []
    totalOrphans := 0
    size := 0
    spent := 0
    total := 0
    freeCount := 0
    lastTime := 0
    minFeeRate := 0
    blockSinceBump := false
    lastFeeUpdate := 0
    networkMinRelay := 0 }

/-- An unconfirmed transaction `h` spending the single outpoint `pt`,
with its input coin already resolved from the chain (height 5). -/
def mkSpend (h : Hash) (pt : Hash × Nat) : TX :=
  ⟨h, 1, [⟨pt, [], [], some ⟨1, 5, false, pt.1, pt.2, [81], 50000⟩⟩],
    [⟨[81], 40000⟩], 0, 0, -1⟩

/-- First spender of outpoint `(100, 0)` (claim C2's transaction `A`). -/
def txA : TX := mkSpend 1 (100, 0)

/-- Second spender of outpoint `(100, 0)` (claim C2's transaction `B`). -/
def txB : TX := mkSpend 2 (100, 0)

/-- The mempool after admitting `txA`. -/
def stateA : Mempool.MState :=
  (Mempool.addUnchecked env0 1 mstate0 (Mempool.MempoolEntry.fromTX env0 txA 10)).1

/-- First spender of outpoint `(200, 0)` (claim C6's older transaction). -/
def txC : TX := mkSpend 3 (200, 0)

/-- Second spender of outpoint `(200, 0)` (claim C6's newer transaction). -/
def txD : TX := mkSpend 4 (200, 0)

/-- The mempool after admitting `txC`. -/
def stateC : Mempool.MState :=
  (Mempool.addUnchecked env0 1 mstate0 (Mempool.MempoolEntry.fromTX env0 txC 10)).1

/-- Conflicting spenders of outpoint `(300, 0)` and the state holding
the first of them (claim C6's amended-statement witness). -/
def txE : TX := mkSpend 5 (300, 0)

/-- The conflicting second spender of outpoint `(300, 0)`. -/
def txF : TX := mkSpend 6 (300, 0)

/-- The mempool after admitting `txE`. -/
def stateE : Mempool.MState :=
  (Mempool.addUnchecked env0 1 mstate0 (Mempool.MempoolEntry.fromTX env0 txE 10)).1

/-- An environment whose script verification always fails (both the
standard and the mandatory flag set). -/
def envFail : Mempool.MEnv :=
  ⟨cfg0, { fx0 with verifyScript := fun _ _ _ => false }, ch0, fun _ => false⟩

/-- A resolved spender used against `envFail` (claim C8). -/
def txS : TX := mkSpend 7 (400, 0)

/-- A second resolved spender used against `envFail` (claim C8 witness). -/
def txS2 : TX := mkSpend 8 (500, 0)

/-- A pool transaction confirmed by a block (claim C9 counterexample). -/
def txG : TX := mkSpend 9 (600, 0)

/-- The mempool holding `txG`. -/
def stateG : Mempool.MState :=
  (Mempool.addUnchecked env0 1 mstate0 (Mempool.MempoolEntry.fromTX env0 txG 10)).1

/-- The block confirming `txG`. -/
def blockG : Block := ⟨999, 11, [txG]⟩

/-- A pool transaction confirmed by a block (claim C9 witness). -/
def txH : TX := mkSpend 10 (700, 0)

/-- The mempool holding `txH`. -/
def stateH : Mempool.MState :=
  (Mempool.addUnchecked env0 1 mstate0 (Mempool.MempoolEntry.fromTX env0 txH 10)).1

/-- The block confirming `txH`. -/
def blockH : Block := ⟨998, 11, [txH]⟩

/-! ### Memory-accounting invariant (claim C7) -/

/-- Total `memUsage` of the entries in a transaction map. -/
def txsMem (env : Mempool.MEnv) (l : List (Hash × Mempool.MempoolEntry)) : Nat :=
  (l.map (fun p => Mempool.memUsage env p.2.tx)).sum

/-- The mempool bookkeeping invariant maintained by the add/remove
cycle: the running `size` estimate is bounded by the summed usage of
the stored entries; the transaction and orphan maps are keyed without
duplicates by the hash of the stored transaction; stored transactions
have all input coins resolved; and orphan keys never collide with
stored transactions. -/
def MemInv (env : Mempool.MEnv) (s : Mempool.MState) : Prop :=
  s.size ≤ txsMem env s.txs ∧
  (s.txs.map Prod.fst).Nodup ∧
  (∀ p ∈ s.txs, (p.2 : Mempool.MempoolEntry).tx.hash = p.1) ∧
  (∀ p ∈ s.txs, TX.hasCoins (p.2 : Mempool.MempoolEntry).tx = true) ∧
  (s.orphans.map Prod.fst).Nodup ∧
  (∀ p ∈ s.orphans, alistGet s.txs p.1 = none) ∧
  (∀ p ∈ s.orphans, (p.2 : TX).hash = p.1)

instance (env : Mempool.MEnv) (s : Mempool.MState) : Decidable (MemInv env s) :=
  decidable_of_iff
    (s.size ≤ txsMem env s.txs ∧
      (s.txs.map Prod.fst).Nodup ∧
      (∀ p ∈ s.txs, (p.2 : Mempool.MempoolEntry).tx.hash = p.1) ∧
      (∀ p ∈ s.txs, TX.hasCoins (p.2 : Mempool.MempoolEntry).tx = true) ∧
      (s.orphans.map Prod.fst).Nodup ∧
      (∀ p ∈ s.orphans, alistGet s.txs p.1 = none) ∧
      (∀ p ∈ s.orphans, (p.2 : TX).hash = p.1))
    Iff.rfl

/-- Lookup refinement: every key of `l2` resolves to `none` or to its
value in `l1`. -/
def subLookup {κ α : Type} [DecidableEq κ] (l1 l2 : List (κ × α)) : Prop :=
  ∀ k, alistGet l2 k = none ∨ alistGet l2 k = alistGet l1 k

/-! ### Event-adjacency predicates (claim C9) -/

/-- Adjacency checker: `req e = some r` demands that the event just
before `e` in the list be `r`; `prev` is the event preceding the list
(`none` at the start of an emission trace). -/
def adjOk (req : Mempool.Event → Option Mempool.Event) :
    Option Mempool.Event → List Mempool.Event → Bool
  | _, [] => true
  | prev, e :: rest =>
    (match req e with
     | some r => prev == some r
     | none => true) && adjOk req (some e) rest

/-- The last element of `A` if any, else the running context `prev`. -/
def lastCtx (prev : Option Mempool.Event) (A : List Mempool.Event) :
    Option Mempool.Event :=
  match A.getLast? with
  | none => prev
  | some e => some e

/-- `add tx` must be immediately preceded by `tx` for the same hash. -/
def reqAddTx : Mempool.Event → Option Mempool.Event
  | Mempool.Event.addTx h => some (Mempool.Event.tx h)
  | _ => none

/-- `confirmed` must be immediately preceded by `remove tx` for the
same hash. -/
def reqConfirmed : Mempool.Event → Option Mempool.Event
  | Mempool.Event.confirmed h => some (Mempool.Event.removeTx h)
  | _ => none

end Bcoin

namespace Bcoin

/-! ### ChainDB: block connection and disconnection (claim C1)

Embeddings of `ChainDB.prototype.connectBlock`, `disconnectBlock`,
`getCoinView`, `getUndoCoins` and `getUndoView` (part_000), together
with the `Coins`/`CoinView` mutators they rely on
(`Coins.prototype.add`, `count`, `fromTX`, `CoinView.prototype.addCoin`,
`addTX`).  The persistent store keeps `c[tx_hash]` as the serialized
bundle bytes (written with `Coins.toRaw` and parsed with
`Coins.fromRaw` exactly as `ChainDB.prototype.getCoins` does).  The
single-`Coin` serializers used for undo records
(`coin.toRaw` into the undo buffer, `coin.fromRaw` in `getUndoCoins`)
are not among the provided sources, so `u[block_hash]` is spec-modelled
value-level as the list of `Coin` records in writing order,
serialization and parsing assumed mutually inverse.
`Block.prototype.getPrevout` and the chain-side view construction
feeding `connectBlock` (fill each transaction's inputs from the view,
then add its outputs) are likewise spec-modelled (spec invariant I2 and
the connect flow of spec 4.3).  Address and tx indexing, the LRU coin
cache and pruning touch only keys outside `c`/`u` and are elided;
`isUnspendable` stays the black-box script predicate also used by the
mempool embedding. -/

/-- `Coins.prototype.count`: the number of non-null output slots. -/
def Coins.count (c : Coins) : Nat :=
  (c.outputs.filter fun o =>
    match o with
    | CoinsOutput.null => false
    | _ => true).length

/-- `Coins.prototype.add`: adopt the coin's header when the bundle is
still empty, pad with nulls up to the coin's index, then store the coin
(null when its script is unspendable). -/
def Coins.add (unsp : Script → Bool) (c : Coins) (coin : Coin) : Coins :=
  let c1 :=
    if c.outputs.length = 0 then
      { c with version := coin.version, hash := coin.hash,
               height := coin.height, coinbase := coin.coinbase }
    else c
  let outs :=
    if c1.outputs.length ≤ coin.index then
      c1.outputs ++ List.replicate (coin.index + 1 - c1.outputs.length) CoinsOutput.null
    else c1.outputs
  if unsp coin.script then { c1 with outputs := outs.set coin.index CoinsOutput.null }
  else { c1 with outputs := outs.set coin.index (CoinsOutput.coin coin) }

/-- `Coins.prototype.fromTX`: one slot per output, null for unspendable
scripts. -/
def Coins.fromTX (unsp : Script → Bool) (tx : TX) : Coins :=
  ⟨tx.version, tx.hash, tx.height, tx.isCoinbase,
    tx.outputs.enum.map fun p =>
      if unsp p.2.script then CoinsOutput.null
      else CoinsOutput.coin (Coin.ofOutput tx p.1 p.2)⟩

/-- `CoinView.prototype.addCoin`: create an empty bundle at the coin's
hash when absent, then `Coins.add`. -/
def CoinView.addCoin (unsp : Script → Bool) (v : CoinView) (coin : Coin) : CoinView :=
  let cs :=
    match alistGet v.coins coin.hash with
    | none => (⟨1, 0, -1, true, []⟩ : Coins)
    | some cs => cs
  ⟨alistSet v.coins coin.hash (Coins.add unsp cs coin)⟩

/-- `CoinView.prototype.addTX`. -/
def CoinView.addTX (unsp : Script → Bool) (v : CoinView) (tx : TX) : CoinView :=
  CoinView.add v (Coins.fromTX unsp tx)

/-- `Block.prototype.getPrevout` (outside the provided sources;
spec-modelled from the spec data model: the distinct previous
transaction hashes referenced by the block's non-coinbase inputs). -/
def Block.getPrevout (b : Block) : List Hash :=
  (((b.txs.filter fun t => !t.isCoinbase).map fun t =>
    t.inputs.map fun i => i.prevout.1).flatten).eraseDups

/-- The persisted ChainDB state over the `c[tx_hash]` and
`u[block_hash]` key spaces. -/
structure DBState where
  coins : List (Hash × List Nat)
  undo : List (Hash × List Coin)
deriving DecidableEq

/-- The coins state immediately after connecting the genesis block
(`connectBlock` early-returns on genesis and writes nothing). -/
def emptyDB : DBState := ⟨[], []⟩

/-- `ChainDB.prototype.getCoins`: fetch and parse a stored bundle.  The
outer `none` is a parse error (`callback(e)`); `some none` is a missing
key. -/
def getCoinsDB (d : DBState) (h : Hash) : Option (Option Coins) :=
  match alistGet d.coins h with
  | none => some none
  | some raw =>
    match Coins.fromRaw raw h with
    | none => none
    | some cs => some (some cs)

/-- `ChainDB.prototype.getCoinView`: load every prevout bundle of the
block into a fresh view, skipping missing ones. -/
def getCoinView (d : DBState) (b : Block) : Option CoinView :=
  (Block.getPrevout b).foldl
    (fun acc p =>
      match acc with
      | none => none
      | some v =>
        match getCoinsDB d p with
        | none => none
        | some none => some v
        | some (some cs) => some (CoinView.add v cs))
    (some ⟨[]⟩)

/-- The per-transaction connection loop of the chain's connect flow
(spec-modelled, spec invariant I2): a coinbase is added to the view
directly; any other transaction must fill all of its inputs from the
view (spending them) before its outputs are added.  Returns the final
view and the coin-filled transactions. -/
def connectTXs (unsp : Script → Bool) (v : CoinView) :
    List TX → Option (CoinView × List TX)
  | [] => some (v, [])
  | tx :: rest =>
    if tx.isCoinbase then
      match connectTXs unsp (CoinView.addTX unsp v tx) rest with
      | none => none
      | some (v2, txs2) => some (v2, tx :: txs2)
    else
      let r := CoinView.fillCoins v tx
      if r.2.2 then
        match connectTXs unsp (CoinView.addTX unsp r.1 r.2.1) rest with
        | none => none
        | some (v2, txs2) => some (v2, r.2.1 :: txs2)
      else none

/-- Input walk of the undo-record loop of `connectBlock`: each input's
attached coin in order, failing on the `assert(input.coin)`. -/
def collectCoins : List TXIn → Option (List Coin)
  | [] => some []
  | inp :: rest =>
    match inp.coin with
    | none => none
    | some c =>
      match collectCoins rest with
      | none => none
      | some l => some (c :: l)

/-- The undo-record loop of `connectBlock`: for every non-coinbase
transaction, every input's attached coin (`input.coin.toRaw(undo)`;
value-level here) in block order. -/
def collectUndo : List TX → Option (List Coin)
  | [] => some []
  | tx :: rest =>
    if tx.isCoinbase then collectUndo rest
    else
      match collectCoins tx.inputs with
      | none => none
      | some l =>
        match collectUndo rest with
        | none => none
        | some l2 => some (l ++ l2)

/-- The save loop shared by `connectBlock` and `disconnectBlock`: each
view bundle is deleted from `c[…]` when no unspent output is left
(`coins.size() === 0`) and written back serialized otherwise, keyed by
the bundle's hash. -/
def saveView (d : DBState) (v : CoinView) : DBState :=
  v.coins.foldl
    (fun st p =>
      if Coins.count p.2 = 0 then { st with coins := alistDel st.coins p.2.hash }
      else { st with coins := alistSet st.coins p.2.hash (Coins.toRaw p.2) })
    d

/-- Embedding of `ChainDB.prototype.connectBlock` (with the chain-side
view construction inlined): genesis writes nothing; otherwise load the
prevout view, connect every transaction, collect the undo coins, save
the view, and write the undo record when at least one coin was spent
(`undo.written > 0`). -/
def connectBlock (unsp : Script → Bool) (isGenesis : Bool) (d : DBState) (b : Block) :
    Option DBState :=
  if isGenesis then some d
  else
    match getCoinView d b with
    | none => none
    | some v0 =>
      match connectTXs unsp v0 b.txs with
      | none => none
      | some (v, txs2) =>
        match collectUndo txs2 with
        | none => none
        | some u =>
          let d2 := saveView d v
          if u.length = 0 then some d2
          else some { d2 with undo := alistSet d2.undo b.hash u }

/-- Input walk of `getUndoView`: assign the next undo coin to each
input (`coin = coins[k++]`), overriding its hash and index with the
input's prevout, attach it, and add it to the view; running past the
end of the undo coins is the source's crash on `coins[k]` being
`undefined`. -/
def resurrectIns (unsp : Script → Bool) :
    List TXIn → List Coin → CoinView → Option (List TXIn × List Coin × CoinView)
  | [], coins, v => some ([], coins, v)
  | inp :: rest, coins, v =>
    match coins with
    | [] => none
    | c :: coins2 =>
      let c2 := { c with hash := inp.prevout.1, index := inp.prevout.2 }
      match resurrectIns unsp rest coins2 (CoinView.addCoin unsp v c2) with
      | none => none
      | some (ins2, coins3, v2) =>
        some ({ inp with coin := some c2 } :: ins2, coins3, v2)

/-- Transaction walk of `getUndoView`: coinbase transactions are
skipped, the undo coins are consumed across the others in block
order. -/
def resurrectGo (unsp : Script → Bool) :
    List TX → List Coin → CoinView → Option (CoinView × List TX)
  | [], _, v => some (v, [])
  | tx :: rest, coins, v =>
    if tx.isCoinbase then
      match resurrectGo unsp rest coins v with
      | none => none
      | some (v2, txs2) => some (v2, tx :: txs2)
    else
      match resurrectIns unsp tx.inputs coins v with
      | none => none
      | some (ins2, coins2, v2) =>
        match resurrectGo unsp rest coins2 v2 with
        | none => none
        | some (v3, txs3) => some (v3, { tx with inputs := ins2 } :: txs3)

/-- `ChainDB.prototype.getUndoView`: the prevout view together with the
resurrected undo coins (each re-keyed to its spending input's prevout),
filling the block's inputs; with no undo record stored the view is
returned as is. -/
def getUndoView (unsp : Script → Bool) (d : DBState) (b : Block) :
    Option (CoinView × List TX) :=
  match getCoinView d b with
  | none => none
  | some v0 =>
    match alistGet d.undo b.hash with
    | none => some (v0, b.txs)
    | some coins => resurrectGo unsp b.txs coins v0

/-- One transaction of the reverse loop of `disconnectBlock`: add all
of the transaction's outputs to the view (`view.addTX(tx)`), then spend
every spendable one, so the bundle is deleted once saved. -/
def disconnectTX (unsp : Script → Bool) (v : CoinView) (tx : TX) : CoinView :=
  tx.outputs.enum.foldl
    (fun vv p => if unsp p.2.script then vv else (CoinView.spend vv tx.hash p.1).2)
    (CoinView.addTX unsp v tx)

/-- Embedding of `ChainDB.prototype.disconnectBlock`: build the undo
view, check `assert(input.coin)` on every non-coinbase input, run the
reverse transaction loop, save the view, and delete the undo record. -/
def disconnectBlock (unsp : Script → Bool) (d : DBState) (b : Block) :
    Option DBState :=
  match getUndoView unsp d b with
  | none => none
  | some (v1, txs) =>
    if txs.all (fun tx => tx.isCoinbase || tx.inputs.all fun i => i.coin.isSome) then
      let v2 := txs.reverse.foldl (disconnectTX unsp) v1
      let d2 := saveView d v2
      some { d2 with undo := alistDel d2.undo b.hash }
    else none

/-- Connecting a sequence of post-genesis blocks in order. -/
def connectAll (unsp : Script → Bool) (d : DBState) : List Block → Option DBState
  | [] => some d
  | b :: rest =>
    match connectBlock unsp false d b with
    | none => none
    | some d2 => connectAll unsp d2 rest

/-- Disconnecting a sequence of blocks in order. -/
def disconnectAll (unsp : Script → Bool) (d : DBState) : List Block → Option DBState
  | [] => some d
  | b :: rest =>
    match disconnectBlock unsp d b with
    | none => none
    | some d2 => disconnectAll unsp d2 rest

/-- A height representable in the 31-bit field of the `Coins.toRaw`
mask. -/
def heightOk (h : Int) : Prop := h = -1 ∨ 0 ≤ h ∧ h < 0x7fffffff

instance (h : Int) : Decidable (heightOk h) :=
  decidable_of_iff (h = -1 ∨ 0 ≤ h ∧ h < 0x7fffffff) Iff.rfl

/-- Well-formedness of an undo coin: header and payload bounds. -/
def wfUndoCoin (c : Coin) : Prop :=
  c.version < 2 ^ 64 ∧ heightOk c.height ∧ c.value < 2 ^ 64 ∧
    c.script.length < 2 ^ 64

/-- Per-slot view well-formedness: as `wfOutput`, but with full header
bounds on abstract coins, and value/script bounds on whatever a
deferred slice decodes to (the header fields of the probe bundle are
irrelevant to those two). -/
def wfOutputU : CoinsOutput → Prop
  | CoinsOutput.null => True
  | CoinsOutput.coin c => wfUndoCoin c
  | CoinsOutput.deferred raw =>
    parseCoinEntry raw = some (raw, []) ∧
    ∀ co, toCoinDecode ⟨1, 0, -1, true, []⟩ 0 raw = some co →
      co.value < 2 ^ 64 ∧ co.script.length < 2 ^ 64

/-- View invariant maintained by block connection and disconnection:
distinct keys, every bundle keyed by its hash with bounded header and
well-formed slots. -/
def ViewWf (v : CoinView) : Prop :=
  (v.coins.map Prod.fst).Nodup ∧
  ∀ p ∈ v.coins, p.1 = p.2.hash ∧ p.2.version < 2 ^ 64 ∧ heightOk p.2.height ∧
    ∀ o ∈ p.2.outputs, wfOutputU o

/-- Database well-formedness: every stored bundle is the serialization
of a bundle with bounded header and well-formed slots, and every stored
undo coin is well-formed. -/
def WFdb (d : DBState) : Prop :=
  (∀ h raw, alistGet d.coins h = some raw →
    ∃ c, c.version < 2 ^ 64 ∧ heightOk c.height ∧
      (∀ o ∈ c.outputs, wfOutputU o) ∧ raw = Coins.toRaw c) ∧
  ∀ h l, alistGet d.undo h = some l → ∀ co ∈ l, wfUndoCoin co

/-- Serialization bounds for a transaction's bundle. -/
def okTX (tx : TX) : Prop :=
  tx.version < 2 ^ 64 ∧ heightOk tx.height ∧
  ∀ o ∈ tx.outputs, o.value < 2 ^ 64 ∧ o.script.length < 2 ^ 64

instance (tx : TX) : Decidable (okTX tx) :=
  decidable_of_iff (tx.version < 2 ^ 64 ∧ heightOk tx.height ∧
    ∀ o ∈ tx.outputs, o.value < 2 ^ 64 ∧ o.script.length < 2 ^ 64) Iff.rfl

/-- Block hypotheses for claim C1: distinct transaction hashes within
the block and serialization bounds for every transaction. -/
def okBlock (b : Block) : Prop :=
  (b.txs.map TX.hash).Nodup ∧ ∀ tx ∈ b.txs, okTX tx

instance (b : Block) : Decidable (okBlock b) :=
  decidable_of_iff ((b.txs.map TX.hash).Nodup ∧ ∀ tx ∈ b.txs, okTX tx) Iff.rfl

/-- Concrete two-block scenario for the C1 witness: a coinbase-only
block, then a block whose second transaction spends the first block's
coinbase output. -/
def unsp0 : Script → Bool := fun _ => false

def cbTX (h : Hash) (ht : Int) : TX :=
  ⟨h, 1, [⟨nullOutpoint, [], [], none⟩], [⟨[81], 50⟩], 0, 0, ht⟩

def c1b1 : Block := ⟨201, 1, [cbTX 11 1]⟩

def c1b2 : Block :=
  ⟨202, 2, [cbTX 12 2, ⟨13, 1, [⟨(11, 0), [], [], none⟩], [⟨[82], 49⟩], 0, 0, 2⟩]⟩

def c1bs : List Block := [c1b1, c1b2]

def c1dN : DBState := (connectAll unsp0 emptyDB c1bs).getD emptyDB

end Bcoin

/-! ## Claim theorems for C3 and C5 -/

namespace Bcoin

/-- C3: evaluation of `getMedianTime` at a concrete failing input.  The
entry has timestamp 2 and the ancestor timestamps are `[2, 10, 9]`
(index 0 is the entry itself), so the collected timestamps are
`[2, 10, 9]`.  The code sorts them as strings (`"10" < "2" < "9"`) and
returns 2, while the median in ascending numerical order — which the
claim asserts — is 9. -/
theorem c3_median_lexicographic_eval :
    getMedianTime 2 [2, 10, 9] = 2 ∧ getMedianTimeNumeric 2 [2, 10, 9] = 9 := by
  constructor <;> rfl

/-- C5 counterexample: chainwork does not saturate at `2^256`.  A chain
of three entries whose decoded targets are all 1 (compact bits
`0x01010000`) accumulates chainwork `3 · 2^255 > 2^256`, refuting the
claim that the resulting chainwork never exceeds `2^256`. -/
theorem c5_chainwork_exceeds_max :
    MAX_CHAINWORK < chainworkOfChain [1, 1, 1] := by
  have hp : getProof 1 = 2 ^ 255 := by
    unfold getProof MAX_CHAINWORK
    norm_num
  simp only [chainworkOfChain, List.foldl, getChainwork, hp, MAX_CHAINWORK]
  norm_num

/-- C5 (amended): `getProof` returns `⌊2^256 / (target + 1)⌋` for a
positive target and 0 when the target is zero or negative;
`getChainwork` adds the proof to the previous chainwork (just the proof
for genesis).  The sum is not clamped at `2^256`. -/
theorem c5_proof_chainwork (target : Int) (w : Int) :
    (0 < target → getProof target = MAX_CHAINWORK / (target + 1)) ∧
    (target ≤ 0 → getProof target = 0) ∧
    getChainwork target (some w) = getProof target + w ∧
    getChainwork target none = getProof target := by
  refine ⟨fun h => ?_, fun h => ?_, rfl, rfl⟩
  · unfold getProof
    rw [if_neg (by omega : ¬((target : Int) < 0 ∨ target = 0))]
  · unfold getProof
    rw [if_pos (by omega : (target : Int) < 0 ∨ target = 0)]

/-- Witness for `c5_proof_chainwork` at `target = 1`, `w = 5`. -/
theorem c5_proof_chainwork_witness :
    (0 : Int) < 1 ∧ getProof 1 = MAX_CHAINWORK / 2 := by
  exact ⟨by decide, (c5_proof_chainwork 1 5).1 (by decide)⟩

end Bcoin

/-! ## Serialization lemmas (towards C4) -/

namespace Bcoin

theorem bytesLE_length (k n : Nat) : (bytesLE k n).length = k := by
  induction k generalizing n with
  | zero => rfl
  | succ k ih => simp [bytesLE, ih]

theorem valLE_bytesLE (k n : Nat) (h : n < 256 ^ k) : valLE (bytesLE k n) = n := by
  induction k generalizing n with
  | zero =>
    simp only [pow_zero, Nat.lt_one_iff] at h
    simp [bytesLE, valLE, h]
  | succ k ih =>
    have hd : n / 256 < 256 ^ k := by
      rw [Nat.div_lt_iff_lt_mul (by norm_num)]
      calc n < 256 ^ (k + 1) := h
        _ = 256 ^ k * 256 := by ring
    simp only [bytesLE, valLE, ih (n / 256) hd]
    omega

theorem readBytesN_append {k : Nat} {xs : List Nat} (ys : List Nat)
    (h : xs.length = k) : readBytesN k (xs ++ ys) = some (xs, ys) := by
  subst h
  simp [readBytesN, List.take_left, List.drop_left]

theorem readBytesN_spec {k : Nat} {bs c rest : List Nat}
    (h : readBytesN k bs = some (c, rest)) : c.length = k ∧ bs = c ++ rest := by
  unfold readBytesN at h
  split at h
  · rename_i hk
    obtain ⟨hc, hr⟩ := Prod.mk.injEq .. ▸ Option.some.inj h
    subst hc
    subst hr
    exact ⟨by simp [List.length_take]; omega, (List.take_append_drop k bs).symm⟩
  · exact absurd h (by simp)

theorem readVarint_write {n : Nat} (h : n < 2 ^ 64) (ys : List Nat) :
    readVarint (writeVarint n ++ ys) = some (writeVarint n, n, ys) := by
  unfold writeVarint
  split_ifs with h1 h2 h3
  · simp only [List.cons_append, List.nil_append, readVarint]
    rw [if_neg (by omega : ¬(n = 0xff)), if_neg (by omega : ¬(n = 0xfe)),
      if_neg (by omega : ¬(n = 0xfd))]
  · simp only [List.cons_append, readVarint, if_neg (by norm_num : ¬((0xfd : Nat) = 0xff)),
      if_neg (by norm_num : ¬((0xfd : Nat) = 0xfe)), if_pos rfl]
    rw [readBytesN_append ys (bytesLE_length 2 n)]
    simp [valLE_bytesLE 2 n (by norm_num; omega)]
  · simp only [List.cons_append, readVarint, if_neg (by norm_num : ¬((0xfe : Nat) = 0xff)),
      if_pos rfl]
    rw [readBytesN_append ys (bytesLE_length 4 n)]
    simp [valLE_bytesLE 4 n (by norm_num; omega)]
  · simp only [List.cons_append, readVarint, if_pos rfl]
    rw [readBytesN_append ys (bytesLE_length 8 n)]
    simp [valLE_bytesLE 8 n (by norm_num at h ⊢; omega)]

theorem readVarint_spec {bs c : List Nat} {v : Nat} {rest : List Nat}
    (h : readVarint bs = some (c, v, rest)) : bs = c ++ rest := by
  cases bs with
  | nil => simp [readVarint] at h
  | cons b r =>
    simp only [readVarint] at h
    split_ifs at h with h1 h2 h3
    · cases hb : readBytesN 8 r with
      | none => rw [hb] at h; simp at h
      | some p =>
        rw [hb] at h
        simp only [Option.map_some', Option.some.injEq, Prod.mk.injEq] at h
        obtain ⟨hc, _, hr⟩ := h
        obtain ⟨_, hsp⟩ := readBytesN_spec hb
        subst hsp
        rw [← hc, ← hr]
        simp
    · cases hb : readBytesN 4 r with
      | none => rw [hb] at h; simp at h
      | some p =>
        rw [hb] at h
        simp only [Option.map_some', Option.some.injEq, Prod.mk.injEq] at h
        obtain ⟨hc, _, hr⟩ := h
        obtain ⟨_, hsp⟩ := readBytesN_spec hb
        subst hsp
        rw [← hc, ← hr]
        simp
    · cases hb : readBytesN 2 r with
      | none => rw [hb] at h; simp at h
      | some p =>
        rw [hb] at h
        simp only [Option.map_some', Option.some.injEq, Prod.mk.injEq] at h
        obtain ⟨hc, _, hr⟩ := h
        obtain ⟨_, hsp⟩ := readBytesN_spec hb
        subst hsp
        rw [← hc, ← hr]
        simp
    · simp only [Option.some.injEq, Prod.mk.injEq] at h
      obtain ⟨hc, _, hr⟩ := h
      rw [← hc, ← hr]
      simp

theorem readVarint_prefix {bs c : List Nat} {v : Nat} {rest : List Nat}
    (h : readVarint bs = some (c, v, rest)) (ys : List Nat) :
    readVarint (c ++ ys) = some (c, v, ys) := by
  cases bs with
  | nil => simp [readVarint] at h
  | cons b r =>
    simp only [readVarint] at h
    split_ifs at h with h1 h2 h3
    · cases hb : readBytesN 8 r with
      | none => rw [hb] at h; simp at h
      | some p =>
        rw [hb] at h
        simp only [Option.map_some', Option.some.injEq, Prod.mk.injEq] at h
        obtain ⟨hc, hv, _⟩ := h
        obtain ⟨hlp, _⟩ := readBytesN_spec hb
        subst h1
        rw [← hc]
        simp only [List.cons_append, readVarint, if_pos rfl]
        rw [readBytesN_append ys hlp]
        simp [hv]
    · cases hb : readBytesN 4 r with
      | none => rw [hb] at h; simp at h
      | some p =>
        rw [hb] at h
        simp only [Option.map_some', Option.some.injEq, Prod.mk.injEq] at h
        obtain ⟨hc, hv, _⟩ := h
        obtain ⟨hlp, _⟩ := readBytesN_spec hb
        subst h2
        rw [← hc]
        simp only [List.cons_append, readVarint]
        norm_num
        rw [readBytesN_append ys hlp]
        simp only [Option.map_some', Option.some.injEq, Prod.mk.injEq]
        exact ⟨p.1, ys, ⟨rfl, rfl⟩, rfl, hv, rfl⟩
    · cases hb : readBytesN 2 r with
      | none => rw [hb] at h; simp at h
      | some p =>
        rw [hb] at h
        simp only [Option.map_some', Option.some.injEq, Prod.mk.injEq] at h
        obtain ⟨hc, hv, _⟩ := h
        obtain ⟨hlp, _⟩ := readBytesN_spec hb
        subst h3
        rw [← hc]
        simp only [List.cons_append, readVarint]
        norm_num
        rw [readBytesN_append ys hlp]
        simp only [Option.map_some', Option.some.injEq, Prod.mk.injEq]
        exact ⟨p.1, ys, ⟨rfl, rfl⟩, rfl, hv, rfl⟩
    · simp only [Option.some.injEq, Prod.mk.injEq] at h
      obtain ⟨hc, hv, _⟩ := h
      rw [← hc]
      simp only [List.cons_append, List.nil_append, readVarint]
      rw [if_neg h1, if_neg h2, if_neg h3]
      simp [hv]

theorem isPubkeyhash_spec {s : Script} (h : isPubkeyhash s = true) :
    s = fromPubkeyhash (pkhData s) ∧ (pkhData s).length = 20 := by
  unfold isPubkeyhash at h
  split at h
  · rename_i rest
    simp only [Bool.and_eq_true, beq_iff_eq] at h
    obtain ⟨h1, h2⟩ := h
    have hr : rest = rest.take 20 ++ [0x88, 0xac] := by
      conv_lhs => rw [← List.take_append_drop 20 rest]
      rw [h2]
    constructor
    · unfold fromPubkeyhash pkhData
      simp only [List.drop_succ_cons, List.drop_zero, List.take_succ_cons]
      rw [← hr]
    · unfold pkhData
      simp only [List.drop_succ_cons, List.drop_zero]
      simp [List.length_take, h1]
  · simp at h

theorem isScripthash_spec {s : Script} (h : isScripthash s = true) :
    s = fromScripthash (shData s) ∧ (shData s).length = 20 := by
  unfold isScripthash at h
  split at h
  · rename_i rest
    simp only [Bool.and_eq_true, beq_iff_eq] at h
    obtain ⟨h1, h2⟩ := h
    have hr : rest = rest.take 20 ++ [0x87] := by
      conv_lhs => rw [← List.take_append_drop 20 rest]
      rw [h2]
    constructor
    · unfold fromScripthash shData
      simp only [List.drop_succ_cons, List.drop_zero, List.take_succ_cons]
      rw [← hr]
    · unfold shData
      simp only [List.drop_succ_cons, List.drop_zero]
      simp [List.length_take, h1]
  · simp at h

theorem parseCoinEntry_spec {bs slice rest : List Nat}
    (h : parseCoinEntry bs = some (slice, rest)) :
    bs = slice ++ rest ∧ slice ≠ [] := by
  cases bs with
  | nil => simp [parseCoinEntry] at h
  | cons b r1 =>
    simp only [parseCoinEntry] at h
    split_ifs at h with hff h0 h2
    · split at h
      · simp at h
      · rename_i c1 len r2 hv1
        split at h
        · simp at h
        · rename_i sc r3 hb2
          split at h
          · simp at h
          · rename_i c2 v2 r4 hv3
            simp only [Option.some.injEq, Prod.mk.injEq] at h
            obtain ⟨hs, hr⟩ := h
            have e1 := readVarint_spec hv1
            have e2 := (readBytesN_spec hb2).2
            have e3 := readVarint_spec hv3
            subst hr
            rw [← hs]
            constructor
            · simp [e1, e2, e3]
            · simp
    · split at h
      · simp at h
      · rename_i h20 r2 hb2
        split at h
        · simp at h
        · rename_i c2 v2 r3 hv3
          simp only [Option.some.injEq, Prod.mk.injEq] at h
          obtain ⟨hs, hr⟩ := h
          have e2 := (readBytesN_spec hb2).2
          have e3 := readVarint_spec hv3
          subst hr
          rw [← hs]
          constructor
          · simp [e2, e3]
          · simp

theorem parseCoinEntry_prefix {bs slice rest : List Nat}
    (h : parseCoinEntry bs = some (slice, rest)) (ys : List Nat) :
    parseCoinEntry (slice ++ ys) = some (slice, ys) := by
  cases bs with
  | nil => simp [parseCoinEntry] at h
  | cons b r1 =>
    simp only [parseCoinEntry] at h
    split_ifs at h with hff h0 h2
    · split at h
      · simp at h
      · rename_i c1 len r2 hv1
        split at h
        · simp at h
        · rename_i sc r3 hb2
          split at h
          · simp at h
          · rename_i c2 v2 r4 hv3
            simp only [Option.some.injEq, Prod.mk.injEq] at h
            obtain ⟨hs, hr⟩ := h
            rw [← hs]
            have hsc : sc.length = len := (readBytesN_spec hb2).1
            have hv1p : readVarint (c1 ++ (sc ++ (c2 ++ ys))) =
                some (c1, len, sc ++ (c2 ++ ys)) := by
              have := readVarint_prefix hv1 (sc ++ (c2 ++ ys))
              simpa using this
            have hb2p : readBytesN len (sc ++ (c2 ++ ys)) = some (sc, c2 ++ ys) :=
              readBytesN_append _ hsc
            have hv3p : readVarint (c2 ++ ys) = some (c2, v2, ys) :=
              readVarint_prefix hv3 ys
            simp only [List.cons_append, List.append_assoc, parseCoinEntry]
            rw [if_neg hff, if_pos h0]
            simp only [hv1p, hb2p, hv3p]
    · split at h
      · simp at h
      · rename_i h20 r2 hb2
        split at h
        · simp at h
        · rename_i c2 v2 r3 hv3
          simp only [Option.some.injEq, Prod.mk.injEq] at h
          obtain ⟨hs, hr⟩ := h
          rw [← hs]
          have h20l : h20.length = 20 := (readBytesN_spec hb2).1
          have hb2p : readBytesN 20 (h20 ++ (c2 ++ ys)) = some (h20, c2 ++ ys) :=
            readBytesN_append _ h20l
          have hv3p : readVarint (c2 ++ ys) = some (c2, v2, ys) :=
            readVarint_prefix hv3 ys
          simp only [List.cons_append, List.append_assoc, parseCoinEntry]
          rw [if_neg hff, if_neg h0, if_pos h2]
          simp only [hb2p, hv3p]

theorem parseCoinEntry_serializeEntry {co : Coin} (h : wfCoin co) (rest : List Nat) :
    parseCoinEntry (serializeEntry co ++ rest) = some (serializeEntry co, rest) := by
  obtain ⟨hv, hl⟩ := h
  unfold serializeEntry
  split_ifs with hp hs
  · obtain ⟨_, hlen⟩ := isPubkeyhash_spec hp
    have hb : readBytesN 20 (pkhData co.script ++ (writeVarint co.value ++ rest)) =
        some (pkhData co.script, writeVarint co.value ++ rest) :=
      readBytesN_append _ hlen
    have hw := readVarint_write hv rest
    simp only [List.cons_append, List.append_assoc, parseCoinEntry]
    rw [if_neg (by norm_num), if_neg (by norm_num), if_pos (by norm_num)]
    simp only [hb, hw]
  · obtain ⟨_, hlen⟩ := isScripthash_spec hs
    have hb : readBytesN 20 (shData co.script ++ (writeVarint co.value ++ rest)) =
        some (shData co.script, writeVarint co.value ++ rest) :=
      readBytesN_append _ hlen
    have hw := readVarint_write hv rest
    simp only [List.cons_append, List.append_assoc, parseCoinEntry]
    rw [if_neg (by norm_num), if_neg (by norm_num), if_pos (by norm_num)]
    simp only [hb, hw]
  · have hw1 := readVarint_write hl (co.script ++ (writeVarint co.value ++ rest))
    have hb : readBytesN co.script.length (co.script ++ (writeVarint co.value ++ rest)) =
        some (co.script, writeVarint co.value ++ rest) :=
      readBytesN_append _ rfl
    have hw2 := readVarint_write hv rest
    simp only [List.cons_append, List.append_assoc, parseCoinEntry]
    rw [if_neg (by norm_num), if_pos (by norm_num)]
    simp only [hw1, hb, hw2]

theorem toCoinDecode_isSome {bs slice rest : List Nat}
    (h : parseCoinEntry bs = some (slice, rest)) (cs : Coins) (i : Nat) :
    ∃ co, toCoinDecode cs i slice = some co := by
  cases bs with
  | nil => simp [parseCoinEntry] at h
  | cons b r1 =>
    simp only [parseCoinEntry] at h
    split_ifs at h with hff h0 h2
    · split at h
      · simp at h
      · rename_i c1 len r2 hv1
        split at h
        · simp at h
        · rename_i sc r3 hb2
          split at h
          · simp at h
          · rename_i c2 v2 r4 hv3
            simp only [Option.some.injEq, Prod.mk.injEq] at h
            obtain ⟨hs, _⟩ := h
            rw [← hs]
            have hsc : sc.length = len := (readBytesN_spec hb2).1
            have hv1p : readVarint (c1 ++ (sc ++ c2)) = some (c1, len, sc ++ c2) :=
              readVarint_prefix hv1 (sc ++ c2)
            have hb2p : readBytesN len (sc ++ c2) = some (sc, c2) :=
              readBytesN_append _ hsc
            have hv3p : readVarint c2 = some (c2, v2, []) := by
              have := readVarint_prefix hv3 []
              simpa using this
            simp only [toCoinDecode, List.append_assoc, if_pos h0, hv1p, hb2p, hv3p]
            exact ⟨_, rfl⟩
    · split at h
      · simp at h
      · rename_i h20 r2 hb2
        split at h
        · simp at h
        · rename_i c2 v2 r3 hv3
          simp only [Option.some.injEq, Prod.mk.injEq] at h
          obtain ⟨hs, _⟩ := h
          rw [← hs]
          have h20l : h20.length = 20 := (readBytesN_spec hb2).1
          have hb2p : readBytesN 20 (h20 ++ c2) = some (h20, c2) :=
            readBytesN_append _ h20l
          have hv3p : readVarint c2 = some (c2, v2, []) := by
            have := readVarint_prefix hv3 []
            simpa using this
          have h12 : b % 4 = 1 ∨ b % 4 = 2 := by
            rcases Nat.lt_or_ge (b % 4) 1 with hlt | hge
            · exact absurd (by omega) h0
            · omega
          rcases h12 with h12 | h12
          · simp only [toCoinDecode, if_neg h0, if_pos h12, hb2p, hv3p]
            exact ⟨_, rfl⟩
          · have hn1 : ¬b % 4 = 1 := by simp [h12]
            simp only [toCoinDecode, if_neg h0, if_neg hn1, if_pos h12, hb2p, hv3p]
            exact ⟨_, rfl⟩

theorem toCoinDecode_fields {c1 c2 : Coins} (i : Nat) (raw : List Nat)
    (hv : c1.version = c2.version) (hh : c1.height = c2.height)
    (hc : c1.coinbase = c2.coinbase) (hs : c1.hash = c2.hash) :
    toCoinDecode c1 i raw = toCoinDecode c2 i raw := by
  cases c1
  cases c2
  simp only at hv hh hc hs
  subst hv
  subst hh
  subst hc
  subst hs
  rfl

theorem serializeOutput_deferredify (o : CoinsOutput) :
    serializeOutput (deferredifyOutput o) = serializeOutput o := by
  cases o <;> rfl

theorem toRaw_deferredify (c : Coins) (hsh : Hash) :
    (Coins.deferredify c hsh).toRaw = Coins.toRaw c := by
  unfold Coins.toRaw Coins.deferredify
  simp [List.map_map, Function.comp_def, serializeOutput_deferredify]

theorem toRaw_eq (c : Coins) :
    Coins.toRaw c = writeVarint c.version ++ bytesLE 4 (maskOf c) ++
      (c.outputs.map serializeOutput).flatten := rfl

theorem maskOf_lt (c : Coins) (hh : c.height = -1 ∨ 0 ≤ c.height ∧ c.height < 0x7fffffff) :
    maskOf c < 256 ^ 4 := by
  have h4 : (256 : Nat) ^ 4 = 4294967296 := by norm_num
  unfold maskOf
  rw [h4]
  set hgt := (if c.height = -1 then (0x7fffffff : Nat) else c.height.toNat) with hdef
  have hgt_le : hgt ≤ 0x7fffffff := by
    rw [hdef]
    rcases hh with h | ⟨h1, h2⟩
    · rw [if_pos h]
    · rw [if_neg (by omega)]
      omega
  cases c.coinbase <;> simp <;> omega

theorem maskOf_div (c : Coins) :
    maskOf c / 2 = (if c.height = -1 then 0x7fffffff else c.height.toNat) := by
  unfold maskOf
  set hgt := (if c.height = -1 then (0x7fffffff : Nat) else c.height.toNat) with hdef
  cases c.coinbase <;> simp <;> omega

theorem maskOf_mod (c : Coins) : (maskOf c % 2 == 1) = c.coinbase := by
  unfold maskOf
  set hgt := (if c.height = -1 then (0x7fffffff : Nat) else c.height.toNat) with hdef
  cases c.coinbase <;> simp <;> omega

theorem maskOf_height (c : Coins)
    (hh : c.height = -1 ∨ 0 ≤ c.height ∧ c.height < 0x7fffffff) :
    (if maskOf c / 2 = 0x7fffffff then (-1 : Int) else ((maskOf c / 2 : Nat) : Int)) =
      c.height := by
  rw [maskOf_div]
  rcases hh with h | ⟨h1, h2⟩
  · rw [show (if c.height = -1 then (0x7fffffff : Nat) else c.height.toNat) =
        0x7fffffff from if_pos h]
    rw [if_pos rfl, h]
  · rw [show (if c.height = -1 then (0x7fffffff : Nat) else c.height.toNat) =
        c.height.toNat from if_neg (by omega)]
    have hne : ¬(c.height.toNat = 0x7fffffff) := by omega
    rw [if_neg hne]
    omega

theorem parseOutputs_ff (fuel : Nat) (r : List Nat) :
    parseOutputs (fuel + 1) (0xff :: r) =
      (parseOutputs fuel r).map (fun os => CoinsOutput.null :: os) := by
  simp [parseOutputs]

theorem parseOutputs_entry {bs slice rest : List Nat} (fuel : Nat)
    (h : parseCoinEntry bs = some (slice, rest)) :
    parseOutputs (fuel + 1) bs =
      (parseOutputs fuel rest).map (fun os => CoinsOutput.deferred slice :: os) := by
  cases bs with
  | nil => simp [parseCoinEntry] at h
  | cons b r =>
    have hbf : ¬b = 0xff := by
      intro hb
      subst hb
      simp [parseCoinEntry] at h
    simp only [parseOutputs, if_neg hbf, h]

theorem parseOutputs_map (outs : List CoinsOutput) (hwf : ∀ o ∈ outs, wfOutput o)
    (fuel : Nat) (hf : ((outs.map serializeOutput).flatten).length ≤ fuel) :
    parseOutputs fuel ((outs.map serializeOutput).flatten) =
      some (outs.map deferredifyOutput) := by
  induction outs generalizing fuel with
  | nil => cases fuel <;> simp [parseOutputs]
  | cons o os ih =>
    have hwos : ∀ x ∈ os, wfOutput x := fun x hx => hwf x (List.mem_cons_of_mem o hx)
    have hwo : wfOutput o := hwf o (List.mem_cons_self o os)
    simp only [List.map_cons, List.flatten_cons] at hf ⊢
    cases o with
    | null =>
      cases fuel with
      | zero => simp [serializeOutput] at hf
      | succ f =>
        simp only [serializeOutput, List.singleton_append]
        rw [parseOutputs_ff]
        rw [ih hwos f (by simp only [serializeOutput, List.singleton_append, List.length_cons] at hf; omega)]
        simp [deferredifyOutput]
    | coin c =>
      have hpe := parseCoinEntry_serializeEntry hwo ((os.map serializeOutput).flatten)
      have hne : serializeEntry c ≠ [] := by
        have := (parseCoinEntry_spec hpe).2
        exact this
      have hpos : 0 < (serializeEntry c).length := List.length_pos.mpr hne
      cases fuel with
      | zero =>
        exfalso
        simp only [serializeOutput, List.length_append, Nat.le_zero] at hf
        omega
      | succ f =>
        simp only [serializeOutput]
        rw [parseOutputs_entry f hpe]
        rw [ih hwos f (by simp only [serializeOutput, List.length_append] at hf; omega)]
        simp [deferredifyOutput]
    | deferred raw =>
      have hpe0 : parseCoinEntry raw = some (raw, []) := hwo
      have hpe := parseCoinEntry_prefix hpe0 ((os.map serializeOutput).flatten)
      have hne : raw ≠ [] := (parseCoinEntry_spec hpe0).2
      have hpos : 0 < raw.length := List.length_pos.mpr hne
      cases fuel with
      | zero =>
        exfalso
        simp only [serializeOutput, List.length_append, Nat.le_zero] at hf
        omega
      | succ f =>
        simp only [serializeOutput]
        rw [parseOutputs_entry f hpe]
        rw [ih hwos f (by simp only [serializeOutput, List.length_append] at hf; omega)]
        simp [deferredifyOutput]

theorem fromRaw_header (version mask : Nat) (tail : List Nat) (hv : version < 2 ^ 64)
    (hm : mask < 256 ^ 4) (hsh : Hash) :
    Coins.fromRaw (writeVarint version ++ bytesLE 4 mask ++ tail) hsh =
      (parseOutputs tail.length tail).map
        (fun os => ⟨version, hsh,
          (if mask / 2 = 0x7fffffff then -1 else ((mask / 2 : Nat) : Int)),
          mask % 2 == 1, os⟩) := by
  have h1 := readVarint_write hv (bytesLE 4 mask ++ tail)
  have h2 := readBytesN_append tail (bytesLE_length 4 mask)
  simp only [List.append_assoc, Coins.fromRaw, h1, h2, valLE_bytesLE 4 mask hm]

theorem fromRaw_toRaw (c : Coins) (hw : wfCoins c) (hsh : Hash) :
    Coins.fromRaw (Coins.toRaw c) hsh = some (Coins.deferredify c hsh) := by
  obtain ⟨hv, hh, hout⟩ := hw
  rw [toRaw_eq, fromRaw_header c.version (maskOf c) _ hv (maskOf_lt c hh) hsh]
  rw [parseOutputs_map c.outputs hout _ le_rfl]
  simp only [Option.map_some', Option.some.injEq]
  unfold Coins.deferredify
  rw [maskOf_height c hh, maskOf_mod c]

theorem parseCoin_header (version mask : Nat) (tail : List Nat) (hv : version < 2 ^ 64)
    (hm : mask < 256 ^ 4) (hsh : Hash) (index : Nat) :
    Coins.parseCoin (writeVarint version ++ bytesLE 4 mask ++ tail) hsh index =
      parseCoinGo version hsh
        (if mask / 2 = 0x7fffffff then -1 else ((mask / 2 : Nat) : Int))
        (mask % 2 == 1) tail.length tail 0 index := by
  have h1 := readVarint_write hv (bytesLE 4 mask ++ tail)
  have h2 := readBytesN_append tail (bytesLE_length 4 mask)
  simp only [List.append_assoc, Coins.parseCoin, h1, h2, valLE_bytesLE 4 mask hm]

theorem parseCoinGo_entry (v : Nat) (hsh : Hash) (ht : Int) (cb : Bool) (fuel : Nat)
    {bs slice rest : List Nat} (h : parseCoinEntry bs = some (slice, rest))
    (i index : Nat) :
    parseCoinGo v hsh ht cb (fuel + 1) bs i index =
      if i = index then (toCoinDecode ⟨v, hsh, ht, cb, []⟩ index slice).map some
      else parseCoinGo v hsh ht cb fuel rest (i + 1) index := by
  cases bs with
  | nil => simp [parseCoinEntry] at h
  | cons b r =>
    have hbf : ¬b = 0xff := by
      intro hb
      subst hb
      simp [parseCoinEntry] at h
    simp only [parseCoinGo, if_neg hbf, h]

theorem parseCoinGo_flatten (v : Nat) (hsh : Hash) (ht : Int) (cb : Bool)
    (outs : List CoinsOutput)
    (hshape : ∀ o ∈ outs, o = CoinsOutput.null ∨
      ∃ raw, o = CoinsOutput.deferred raw ∧ parseCoinEntry raw = some (raw, []))
    (k j fuel : Nat) (hf : ((outs.map serializeOutput).flatten).length ≤ fuel)
    (hk : k < outs.length) :
    parseCoinGo v hsh ht cb fuel ((outs.map serializeOutput).flatten) j (j + k) =
      (match outs.get? k with
        | some CoinsOutput.null => some none
        | some (CoinsOutput.deferred raw) =>
          (toCoinDecode ⟨v, hsh, ht, cb, []⟩ (j + k) raw).map some
        | _ => none) := by
  induction outs generalizing k j fuel with
  | nil => simp at hk
  | cons o os ih =>
    have hsos : ∀ x ∈ os, x = CoinsOutput.null ∨
        ∃ raw, x = CoinsOutput.deferred raw ∧ parseCoinEntry raw = some (raw, []) :=
      fun x hx => hshape x (List.mem_cons_of_mem o hx)
    simp only [List.map_cons, List.flatten_cons] at hf ⊢
    rcases hshape o (List.mem_cons_self o os) with ho | ⟨raw, ho, hpe0⟩
    · subst ho
      cases fuel with
      | zero => simp [serializeOutput] at hf
      | succ f =>
        simp only [serializeOutput, List.singleton_append]
        simp only [parseCoinGo, if_pos rfl]
        cases k with
        | zero => simp
        | succ k2 =>
          rw [if_neg (by omega : ¬(j = j + (k2 + 1)))]
          have := ih hsos k2 (j + 1) f
            (by simp only [serializeOutput, List.singleton_append,
                List.length_cons] at hf; omega)
            (by simpa using hk)
          rw [show j + (k2 + 1) = (j + 1) + k2 by omega]
          rw [this]
          simp
    · subst ho
      have hpe := parseCoinEntry_prefix hpe0 ((os.map serializeOutput).flatten)
      have hne : raw ≠ [] := (parseCoinEntry_spec hpe0).2
      have hpos : 0 < raw.length := List.length_pos.mpr hne
      cases fuel with
      | zero =>
        exfalso
        simp only [serializeOutput, List.length_append, Nat.le_zero] at hf
        omega
      | succ f =>
        simp only [serializeOutput]
        rw [parseCoinGo_entry v hsh ht cb f hpe j (j + k)]
        cases k with
        | zero => simp
        | succ k2 =>
          rw [if_neg (by omega : ¬(j = j + (k2 + 1)))]
          have := ih hsos k2 (j + 1) f
            (by simp only [serializeOutput, List.length_append] at hf; omega)
            (by simpa using hk)
          rw [show j + (k2 + 1) = (j + 1) + k2 by omega]
          rw [this]
          simp

/-- C4: serializing a well-formed `Coins` bundle with `toRaw` and
deserializing with `fromRaw` round-trips — deserialization succeeds
(yielding the bundle with every unspent slot deferred) and re-serializing
yields byte-equal output; and for every index `i` of the bundle, decoding
a single coin from the serialized bundle via `Coins.parseCoin` (the
`DeferredCoin` path) yields the same result as fully deserializing the
bundle and calling `get(i)` (the same coin for unspent slots, nothing for
spent slots). -/
theorem c4_coins_roundtrip (c : Coins) (hwf : wfCoins c) :
    Coins.fromRaw (Coins.toRaw c) c.hash = some (Coins.deferredify c c.hash) ∧
    Coins.toRaw (Coins.deferredify c c.hash) = Coins.toRaw c ∧
    ∀ i, i < (Coins.deferredify c c.hash).outputs.length →
      Coins.parseCoin (Coins.toRaw c) c.hash i =
        some (Coins.get (Coins.deferredify c c.hash) i) := by
  obtain ⟨hv, hh, hout⟩ := hwf
  refine ⟨fromRaw_toRaw c ⟨hv, hh, hout⟩ c.hash, toRaw_deferredify c c.hash, ?_⟩
  intro i hi
  rw [toRaw_eq c, parseCoin_header c.version (maskOf c) _ hv (maskOf_lt c hh) c.hash i,
    maskOf_height c hh, maskOf_mod c]
  have hflat : (c.outputs.map serializeOutput).flatten =
      ((c.outputs.map deferredifyOutput).map serializeOutput).flatten := by
    simp [List.map_map, Function.comp_def, serializeOutput_deferredify]
  rw [hflat]
  have hshape : ∀ o ∈ c.outputs.map deferredifyOutput, o = CoinsOutput.null ∨
      ∃ raw, o = CoinsOutput.deferred raw ∧ parseCoinEntry raw = some (raw, []) := by
    intro o ho
    obtain ⟨x, hx, rfl⟩ := List.mem_map.mp ho
    cases x with
    | null => exact Or.inl rfl
    | coin co =>
      refine Or.inr ⟨serializeEntry co, rfl, ?_⟩
      have := parseCoinEntry_serializeEntry (hout _ hx) []
      simpa using this
    | deferred raw => exact Or.inr ⟨raw, rfl, hout _ hx⟩
  have hlen : i < (c.outputs.map deferredifyOutput).length := by
    simp only [Coins.deferredify] at hi
    exact hi
  have hgo := parseCoinGo_flatten c.version c.hash c.height c.coinbase
    (c.outputs.map deferredifyOutput) hshape i 0 _ le_rfl hlen
  simp only [Nat.zero_add] at hgo
  rw [hgo]
  cases hoi : (c.outputs.map deferredifyOutput).get? i with
  | none =>
    have := List.get?_eq_none.mp hoi
    omega
  | some o =>
    have hmem : o ∈ c.outputs.map deferredifyOutput := List.get?_mem hoi
    rcases hshape o hmem with ho | ⟨raw, ho, hraw⟩
    · subst ho
      simp only [hoi, Coins.get, Coins.deferredify]
    · subst ho
      have hfields : toCoinDecode ⟨c.version, c.hash, c.height, c.coinbase, []⟩ i raw =
          toCoinDecode (Coins.deferredify c c.hash) i raw :=
        toCoinDecode_fields i raw rfl rfl rfl rfl
      obtain ⟨co, hco⟩ := toCoinDecode_isSome hraw (Coins.deferredify c c.hash) i
      simp only [Coins.deferredify] at hco
      simp only [hoi, Coins.get, Coins.deferredify, hfields, hco, Option.map_some']

/-- Witness for `c4_coins_roundtrip` at the concrete bundle `coinsEx`. -/
theorem c4_coins_roundtrip_witness :
    wfCoins coinsEx ∧
      (Coins.fromRaw (Coins.toRaw coinsEx) coinsEx.hash =
          some (Coins.deferredify coinsEx coinsEx.hash) ∧
        Coins.toRaw (Coins.deferredify coinsEx coinsEx.hash) = Coins.toRaw coinsEx ∧
        ∀ i, i < (Coins.deferredify coinsEx coinsEx.hash).outputs.length →
          Coins.parseCoin (Coins.toRaw coinsEx) coinsEx.hash i =
            some (Coins.get (Coins.deferredify coinsEx coinsEx.hash) i)) :=
  ⟨by decide, c4_coins_roundtrip coinsEx (by decide)⟩

/-! ## CoinView lemmas (towards C10) -/

theorem alistGet_set_self {κ α : Type} [DecidableEq κ] (l : List (κ × α)) (k : κ) (v : α) :
    alistGet (alistSet l k v) k = some v := by
  induction l with
  | nil => simp [alistGet, alistSet]
  | cons p r ih =>
    obtain ⟨k2, v2⟩ := p
    by_cases h : k2 = k
    · simp [alistSet, alistGet, h]
    · simp [alistSet, alistGet, h, ih]

theorem alistGet_set_ne {κ α : Type} [DecidableEq κ] (l : List (κ × α)) (k k2 : κ) (v : α)
    (h : ¬k = k2) : alistGet (alistSet l k v) k2 = alistGet l k2 := by
  induction l with
  | nil => simp [alistGet, alistSet, h]
  | cons p r ih =>
    obtain ⟨k3, v3⟩ := p
    by_cases h3 : k3 = k
    · subst h3
      simp [alistSet, alistGet, h]
    · simp [alistSet, alistGet, h3, ih]

theorem Coins.has_set_null (c : Coins) (i : Nat) :
    Coins.has { c with outputs := c.outputs.set i CoinsOutput.null } i = false := by
  unfold Coins.has
  simp only [List.get?_set_eq]
  cases c.outputs.get? i <;> rfl

theorem Coins.has_set_null_ne (c : Coins) (i j : Nat) (h : ¬i = j) :
    Coins.has { c with outputs := c.outputs.set i CoinsOutput.null } j = Coins.has c j := by
  unfold Coins.has
  rw [List.get?_set_ne CoinsOutput.null c.outputs h]

theorem CoinView.has_spend_self (v : CoinView) (h : Hash) (i : Nat) :
    (CoinView.spend v h i).2.has h i = false := by
  unfold CoinView.spend
  cases hg : alistGet v.coins h with
  | none => simp [CoinView.has, hg]
  | some cs => simp [CoinView.has, alistGet_set_self, Coins.spend, Coins.has_set_null]

theorem CoinView.has_spend_false (v : CoinView) (h i h2 : Hash) (i2 : Nat)
    (hf : v.has h2 i2 = false) : (CoinView.spend v h i).2.has h2 i2 = false := by
  unfold CoinView.spend
  cases hg : alistGet v.coins h with
  | none => simpa using hf
  | some cs =>
    by_cases hh : h = h2
    · subst hh
      simp only [CoinView.has, alistGet_set_self, Coins.spend]
      by_cases hi : i = i2
      · subst hi
        exact Coins.has_set_null cs i
      · rw [Coins.has_set_null_ne cs i i2 hi]
        unfold CoinView.has at hf
        rw [hg] at hf
        exact hf
    · simp only [CoinView.has, Coins.spend, alistGet_set_ne _ _ _ _ hh]
      unfold CoinView.has at hf
      exact hf

theorem CoinView.spend_none_of_hasfalse (v : CoinView) (h : Hash) (i : Nat)
    (hf : v.has h i = false) : (CoinView.spend v h i).1 = none := by
  unfold CoinView.spend
  cases hg : alistGet v.coins h with
  | none => rfl
  | some cs =>
    have hf2 : Coins.has cs i = false := by
      unfold CoinView.has at hf
      rw [hg] at hf
      exact hf
    unfold Coins.has at hf2
    simp only [Coins.spend]
    unfold Coins.get
    cases ho : cs.outputs.get? i with
    | none => rfl
    | some o =>
      rw [ho] at hf2
      cases o with
      | null => rfl
      | coin co => simp at hf2
      | deferred raw => simp at hf2

theorem fillCoinsGo_hasfalse (ins : List TXIn) (v : CoinView) (h : Hash) (i : Nat)
    (hf : v.has h i = false) : (fillCoinsGo v ins).1.has h i = false := by
  induction ins generalizing v with
  | nil => exact hf
  | cons inp rest ih =>
    simp only [fillCoinsGo]
    cases hp : (CoinView.spend v inp.prevout.1 inp.prevout.2).1 with
    | none =>
      simp only [hp]
      exact CoinView.has_spend_false v _ _ h i hf
    | some c =>
      simp only [hp]
      exact ih _ (CoinView.has_spend_false v _ _ h i hf)

theorem fillCoinsGo_spec (ins : List TXIn) (v : CoinView) :
    ((fillCoinsGo v ins).2.2 = true →
      (∀ inp ∈ (fillCoinsGo v ins).2.1, inp.coin.isSome = true) ∧
      (∀ inp ∈ ins, (fillCoinsGo v ins).1.has inp.prevout.1 inp.prevout.2 = false)) ∧
    ((fillCoinsGo v ins).2.2 = false →
      (∃ pre inp post, (fillCoinsGo v ins).2.1 = pre ++ inp :: post ∧
        (∀ p ∈ pre, p.coin.isSome = true ∧
          (fillCoinsGo v ins).1.has p.prevout.1 p.prevout.2 = false) ∧
        inp.coin = none) ∧
      (fillCoinsGo (fillCoinsGo v ins).1 (fillCoinsGo v ins).2.1).2.2 = false) := by
  induction ins generalizing v with
  | nil =>
    refine ⟨fun _ => ⟨by simp [fillCoinsGo], by simp⟩, fun hfx => ?_⟩
    simp [fillCoinsGo] at hfx
  | cons inp rest ih =>
    simp only [fillCoinsGo]
    cases hp : (CoinView.spend v inp.prevout.1 inp.prevout.2).1 with
    | none =>
      simp only [hp]
      constructor
      · intro habs
        simp at habs
      · intro _
        constructor
        · refine ⟨[], { inp with coin := none }, rest, by simp, by simp, rfl⟩
        · have hh : (CoinView.spend v inp.prevout.1 inp.prevout.2).2.has
              inp.prevout.1 inp.prevout.2 = false :=
            CoinView.has_spend_self v _ _
          simp only [fillCoinsGo]
          rw [CoinView.spend_none_of_hasfalse _ _ _ hh]
    | some c =>
      simp only [hp]
      have hself : (CoinView.spend v inp.prevout.1 inp.prevout.2).2.has
          inp.prevout.1 inp.prevout.2 = false :=
        CoinView.has_spend_self v _ _
      have hfin : (fillCoinsGo (CoinView.spend v inp.prevout.1 inp.prevout.2).2 rest).1.has
          inp.prevout.1 inp.prevout.2 = false :=
        fillCoinsGo_hasfalse rest _ _ _ hself
      constructor
      · intro hok
        obtain ⟨h1, h2⟩ := (ih _).1 hok
        refine ⟨?_, ?_⟩
        · intro q hq
          rcases List.mem_cons.mp hq with hq | hq
          · subst hq
            simp [hp]
          · exact h1 q hq
        · intro q hq
          rcases List.mem_cons.mp hq with hq | hq
          · subst hq
            exact hfin
          · exact h2 q hq
      · intro hbad
        obtain ⟨⟨pre, inpF, post, heq, hpre, hnone⟩, _⟩ := (ih _).2 hbad
        refine ⟨⟨{ inp with coin := some c } :: pre, inpF, post, by simp [heq], ?_, hnone⟩, ?_⟩
        · intro q hq
          rcases List.mem_cons.mp hq with hq | hq
          · subst hq
            exact ⟨rfl, hfin⟩
          · exact hpre q hq
        · simp only [fillCoinsGo]
          rw [CoinView.spend_none_of_hasfalse _ _ _ hfin]

/-- C10: `CoinView.fillCoins` is destructive on the view.  When it
returns `true`, every resolved coin has been removed from the view (the
view no longer `has` any of the transaction's prevouts) and is attached
to its input.  When it returns `false`, the inputs before the failing
one keep their resolved coins, those coins are already removed from the
view, and a second call on the same transaction also returns `false`
(also in the `true` case a second call fails, since all coins are gone). -/
theorem c10_fillcoins_destructive (v : CoinView) (tx : TX) :
    ((CoinView.fillCoins v tx).2.2 = true →
      (∀ inp ∈ (CoinView.fillCoins v tx).2.1.inputs, inp.coin.isSome = true) ∧
      (∀ inp ∈ tx.inputs,
        CoinView.has (CoinView.fillCoins v tx).1 inp.prevout.1 inp.prevout.2 = false)) ∧
    ((CoinView.fillCoins v tx).2.2 = false →
      (∃ pre inp post, (CoinView.fillCoins v tx).2.1.inputs = pre ++ inp :: post ∧
        (∀ p ∈ pre, p.coin.isSome = true ∧
          CoinView.has (CoinView.fillCoins v tx).1 p.prevout.1 p.prevout.2 = false) ∧
        inp.coin = none) ∧
      (CoinView.fillCoins (CoinView.fillCoins v tx).1 (CoinView.fillCoins v tx).2.1).2.2 =
        false) := by
  have h := fillCoinsGo_spec tx.inputs v
  exact h

/-- Witness for `c10_fillcoins_destructive`: the concrete view `viewEx`
and transaction `txEx` resolve successfully and the view is emptied of
the spent outpoint. -/
theorem c10_fillcoins_witness :
    (CoinView.fillCoins viewEx txEx).2.2 = true ∧
      ((∀ inp ∈ (CoinView.fillCoins viewEx txEx).2.1.inputs, inp.coin.isSome = true) ∧
        (∀ inp ∈ txEx.inputs,
          CoinView.has (CoinView.fillCoins viewEx txEx).1 inp.prevout.1 inp.prevout.2 =
            false)) :=
  ⟨by decide, (c10_fillcoins_destructive viewEx txEx).1 (by decide)⟩

end Bcoin

namespace Bcoin

/-! ## Claim C2: double spends are rejected as `duplicate` -/

/-- C2: when a transaction submitted via `Mempool.addTX` passes the
earlier gates but spends an outpoint already recorded in the `spents`
index, `addTX` fails with a `VerifyError` of kind `duplicate` (reason
`bad-txns-inputs-spent`), the state is unchanged, the previously
admitted spender remains in the pool (`hasTX` stays true) and the new
transaction is not added (`has` of its hash stays false). -/
theorem c2_double_spend_duplicate (env : Mempool.MEnv) (s : Mempool.MState)
    (tx : TX) (old : Hash)
    (hts : tx.ts = 0)
    (hsane : env.fx.isSaneErr tx = none)
    (hcb : tx.isCoinbase = false)
    (hstd : env.cfg.requireStandard = false)
    (hwit : env.fx.hasWitness tx = false)
    (hfin : env.ch.checkFinal tx = true)
    (hhas : Mempool.has s tx.hash = false)
    (hch : env.ch.hasCoins tx.hash = false)
    (hds : Mempool.isDoubleSpend s tx = true)
    (hold : Mempool.hasTX s old = true) :
    Mempool.addTX env s tx =
      (s, [], some ⟨Mempool.ErrCode.duplicate, "bad-txns-inputs-spent", 0⟩) ∧
    Mempool.hasTX (Mempool.addTX env s tx).1 old = true ∧
    Mempool.has (Mempool.addTX env s tx).1 tx.hash = false := by
  have hmain : Mempool.addTX env s tx =
      (s, [], some ⟨Mempool.ErrCode.duplicate, "bad-txns-inputs-spent", 0⟩) := by
    unfold Mempool.addTX
    simp [hts, hsane, hcb, hstd, hwit, hfin, hhas, hch, hds]
  refine ⟨hmain, ?_, ?_⟩
  · rw [hmain]; exact hold
  · rw [hmain]; exact hhas

/-- C2 witness: concretely, `txB` spending the outpoint `(100, 0)`
already spent by the admitted `txA` is rejected as `duplicate`; `txA`
(hash 1) stays in the pool and `txB` (hash 2) is absent. -/
theorem c2_double_spend_duplicate_witness :
    Mempool.addTX env0 stateA txB =
      (stateA, [], some ⟨Mempool.ErrCode.duplicate, "bad-txns-inputs-spent", 0⟩) ∧
    Mempool.hasTX (Mempool.addTX env0 stateA txB).1 1 = true ∧
    Mempool.has (Mempool.addTX env0 stateA txB).1 txB.hash = false :=
  c2_double_spend_duplicate env0 stateA txB 1 rfl rfl (by decide) rfl rfl rfl
    (by decide) rfl (by decide) (by decide)

end Bcoin

namespace Bcoin

/-! ## Claim C6: no replacement of conflicting spends, no `conflict`
events -/

/-- C6 counterexample: `txD` (unconfirmed, received after the admitted
unconfirmed `txC`, both spending outpoint `(200, 0)`) does NOT replace
`txC`.  `addTX` rejects it as `duplicate`, the state is unchanged
(`txC` stays, `txD` is absent) and no events at all — in particular no
`conflict` events — are emitted. -/
theorem c6_no_replacement :
    Mempool.addTX env0 stateC txD =
      (stateC, [], some ⟨Mempool.ErrCode.duplicate, "bad-txns-inputs-spent", 0⟩) ∧
    Mempool.hasTX (Mempool.addTX env0 stateC txD).1 txC.hash = true ∧
    Mempool.has (Mempool.addTX env0 stateC txD).1 txD.hash = false ∧
    (Mempool.addTX env0 stateC txD).2.1 = [] := by
  decide

/-- C6 (amended): a transaction colliding with an existing mempool
spender is never admitted, whatever the receive times: once the earlier
gates pass, `addTX` stops at the `isDoubleSpend` check with a
`duplicate` error, leaves the state unchanged, keeps the old spender,
and emits no events — the embedded pipeline has no replacement path and
never produces a `conflict` event on this path. -/
theorem c6_duplicate_no_conflict (env : Mempool.MEnv) (s : Mempool.MState)
    (tx : TX) (old : Hash)
    (hts : tx.ts = 0)
    (hsane : env.fx.isSaneErr tx = none)
    (hcb : tx.isCoinbase = false)
    (hstd : env.cfg.requireStandard = false)
    (hwit : env.fx.hasWitness tx = false)
    (hfin : env.ch.checkFinal tx = true)
    (hhas : Mempool.has s tx.hash = false)
    (hch : env.ch.hasCoins tx.hash = false)
    (hds : Mempool.isDoubleSpend s tx = true)
    (hold : Mempool.hasTX s old = true) :
    (Mempool.addTX env s tx).2.2 =
      some ⟨Mempool.ErrCode.duplicate, "bad-txns-inputs-spent", 0⟩ ∧
    (Mempool.addTX env s tx).1 = s ∧
    Mempool.hasTX (Mempool.addTX env s tx).1 old = true ∧
    (Mempool.addTX env s tx).2.1 = [] ∧
    ∀ h, Mempool.Event.conflict h ∉ (Mempool.addTX env s tx).2.1 := by
  have hmain : Mempool.addTX env s tx =
      (s, [], some ⟨Mempool.ErrCode.duplicate, "bad-txns-inputs-spent", 0⟩) := by
    unfold Mempool.addTX
    simp [hts, hsane, hcb, hstd, hwit, hfin, hhas, hch, hds]
  rw [hmain]
  exact ⟨rfl, rfl, hold, rfl, fun h => List.not_mem_nil _⟩

/-- C6 amended-statement witness: `txF` conflicting with the admitted
`txE` on outpoint `(300, 0)` is rejected as `duplicate` with no events
and no state change. -/
theorem c6_duplicate_no_conflict_witness :
    (Mempool.addTX env0 stateE txF).2.2 =
      some ⟨Mempool.ErrCode.duplicate, "bad-txns-inputs-spent", 0⟩ ∧
    (Mempool.addTX env0 stateE txF).1 = stateE ∧
    Mempool.hasTX (Mempool.addTX env0 stateE txF).1 5 = true ∧
    (Mempool.addTX env0 stateE txF).2.1 = [] ∧
    ∀ h, Mempool.Event.conflict h ∉ (Mempool.addTX env0 stateE txF).2.1 :=
  c6_duplicate_no_conflict env0 stateE txF 5 rfl rfl (by decide) rfl rfl rfl
    (by decide) rfl (by decide) (by decide)

end Bcoin

namespace Bcoin

/-! ## Claim C8: the score of a mandatory script failure -/

/-- Folding the ancestor-count step over inputs with no in-pool parents
keeps the accumulator. -/
theorem countAncestors_foldl_none (s : Mempool.MState) (n : Nat)
    (l : List TXIn) (h : ∀ i ∈ l, alistGet s.txs i.prevout.1 = none) :
    ∀ mx, l.foldl
      (fun mx i =>
        match Mempool.getEntry s i.prevout.1 with
        | none => mx
        | some pe => max mx (1 + Mempool.countAncestors s n pe.tx)) mx = mx := by
  induction l with
  | nil => intro mx; rfl
  | cons a t ih =>
    intro mx
    have ha : alistGet s.txs a.prevout.1 = none := h a (List.mem_cons_self a t)
    have ht : ∀ i ∈ t, alistGet s.txs i.prevout.1 = none :=
      fun i hi => h i (List.mem_cons_of_mem a hi)
    simp only [List.foldl_cons]
    rw [show (match Mempool.getEntry s a.prevout.1 with
        | none => mx
        | some pe => max mx (1 + Mempool.countAncestors s n pe.tx)) = mx from by
      unfold Mempool.getEntry; rw [ha]]
    exact ih ht mx

/-- A transaction with no in-pool parents has ancestor count 0. -/
theorem countAncestors_zero (s : Mempool.MState) (tx : TX)
    (h : ∀ i ∈ tx.inputs, alistGet s.txs i.prevout.1 = none) (fuel : Nat) :
    Mempool.countAncestors s fuel tx = 0 := by
  cases fuel with
  | zero => rfl
  | succ n =>
    show tx.inputs.foldl _ 0 = 0
    exact countAncestors_foldl_none s n tx.inputs h 0

/-- `getMinRate` never touches the transaction map. -/
theorem getMinRate_txs (env : Mempool.MEnv) (s : Mempool.MState) :
    (Mempool.getMinRate env s).1.txs = s.txs := by
  unfold Mempool.getMinRate
  dsimp only
  split_ifs <;> rfl

/-- C8 counterexample: with an oracle whose script verification fails
under both the standard and the mandatory flag set, `verify` reports
the mandatory failure with ban score 0, not 100. -/
theorem c8_mandatory_score_zero :
    envFail.fx.verifyScript txS false envFail.ch.hasWitness = false ∧
    envFail.fx.verifyScript txS true envFail.ch.hasWitness = false ∧
    (Mempool.verify envFail mstate0
        (Mempool.MempoolEntry.fromTX envFail txS 10)).2 =
      some ⟨Mempool.ErrCode.nonstandard, "mandatory-script-verify-flag", 0⟩ := by
  refine ⟨rfl, rfl, ?_⟩
  decide

/-- C8 (amended): whenever mempool script verification fails under the
standard flags and the retry under the mandatory flag set also fails,
the resulting mandatory-script-failure `VerifyError` is `nonstandard`
with reason `mandatory-script-verify-flag` and ban score 0 (not 100). -/
theorem c8_mandatory_score (env : Mempool.MEnv) (s : Mempool.MState)
    (e : Mempool.MempoolEntry)
    (hlock : env.ch.checkLocks e.tx = true)
    (hstd : env.cfg.requireStandard = false)
    (hsig : ¬ (env.fx.getSigopsCost e.tx > env.cfg.maxSigopsCost))
    (hfee : env.fx.getMinFee e.size (Mempool.getMinRate env s).2 = 0)
    (hrp : env.cfg.relayPriority = false)
    (hlf : env.cfg.limitFree = false)
    (haf : env.cfg.rejectAbsurdFees = false)
    (hanc : ∀ i ∈ e.tx.inputs, alistGet s.txs i.prevout.1 = none)
    (hci : env.fx.checkInputsErr e.tx (env.ch.height + 1) = none)
    (hv1 : env.fx.verifyScript e.tx false env.ch.hasWitness = false)
    (hv2 : env.fx.verifyScript e.tx true env.ch.hasWitness = false) :
    (Mempool.verify env s e).2 =
      some ⟨Mempool.ErrCode.nonstandard, "mandatory-script-verify-flag", 0⟩ := by
  unfold Mempool.verify
  simp only [hlock, hstd, hfee, hrp, hlf, haf, hci, hv1, hv2,
    Bool.not_true, Bool.false_and, Bool.and_false, Bool.false_eq_true,
    if_false, ite_false, gt_iff_lt, lt_self_iff_false, decide_False]
  rw [if_neg (show ¬ env.cfg.maxSigopsCost < env.fx.getSigopsCost e.tx from hsig)]
  have hanc1 : ∀ i ∈ e.tx.inputs,
      alistGet (Mempool.getMinRate env s).1.txs i.prevout.1 = none := by
    intro i hi
    rw [getMinRate_txs env s]
    exact hanc i hi
  split_ifs with hmr hca hca
  · rw [countAncestors_zero] at hca
    · omega
    · intro i hi
      exact hanc1 i hi
  · rfl
  · rw [countAncestors_zero] at hca
    · omega
    · intro i hi
      exact hanc1 i hi
  · rfl

/-- C8 witness: the amended statement instantiated at the failing
oracle and a concrete resolved transaction. -/
theorem c8_mandatory_score_witness :
    (Mempool.verify envFail mstate0
        (Mempool.MempoolEntry.fromTX envFail txS2 10)).2 =
      some ⟨Mempool.ErrCode.nonstandard, "mandatory-script-verify-flag", 0⟩ :=
  c8_mandatory_score envFail mstate0 (Mempool.MempoolEntry.fromTX envFail txS2 10)
    rfl rfl (by decide) (by decide) rfl rfl rfl (by decide) rfl rfl rfl

end Bcoin

namespace Bcoin

/-! ## Claim C9: event ordering -/

/-- Generic fold invariant. -/
theorem foldl_inv {α β : Type} (P : β → Prop) (step : β → α → β)
    (hstep : ∀ b a, P b → P (step b a)) :
    ∀ (l : List α) (b : β), P b → P (l.foldl step b) := by
  intro l
  induction l with
  | nil => intro b hb; exact hb
  | cons a t ih => intro b hb; exact ih (step b a) (hstep b a hb)

/-- Folds whose step keeps the transaction map keep it globally. -/
theorem foldl_txs_frame {α : Type} (step : Mempool.MState → α → Mempool.MState)
    (hstep : ∀ st a, (step st a).txs = st.txs) :
    ∀ (l : List α) (st : Mempool.MState), (l.foldl step st).txs = st.txs := by
  intro l
  induction l with
  | nil => intro st; rfl
  | cons a t ih => intro st; rw [List.foldl_cons, ih, hstep]

/-- `lastCtx` steps through a cons. -/
theorem lastCtx_cons (prev : Option Mempool.Event) (e : Mempool.Event)
    (t : List Mempool.Event) : lastCtx prev (e :: t) = lastCtx (some e) t := by
  cases t with
  | nil => rfl
  | cons x xs =>
    unfold lastCtx
    rw [List.getLast?_cons_cons]
    cases hgl : (x :: xs).getLast? with
    | none => simp at hgl
    | some y => rfl

/-- Adjacency over an append splits at the last element of the left
part. -/
theorem adjOk_append (req : Mempool.Event → Option Mempool.Event)
    (prev : Option Mempool.Event) (A B : List Mempool.Event) :
    adjOk req prev (A ++ B) =
      (adjOk req prev A && adjOk req (lastCtx prev A) B) := by
  induction A generalizing prev with
  | nil => simp [adjOk, lastCtx]
  | cons e t ih =>
    simp only [List.cons_append, adjOk, List.append_eq, ih (some e), lastCtx_cons,
      Bool.and_assoc]

/-- Lists without constrained events pass the adjacency check from any
context. -/
theorem adjOk_of_req_none (req : Mempool.Event → Option Mempool.Event)
    (L : List Mempool.Event) (h : ∀ e ∈ L, req e = none) :
    ∀ prev, adjOk req prev L = true := by
  induction L with
  | nil => intro prev; rfl
  | cons e t ih =>
    intro prev
    simp [adjOk, h e (List.mem_cons_self e t),
      ih (fun x hx => h x (List.mem_cons_of_mem e hx))]

/-- A block-mode (`limit = false`) removal emits exactly `remove
orphan` then `remove tx`. -/
theorem removeUnchecked_events_false (env : Mempool.MEnv) (fuel : Nat)
    (s : Mempool.MState) (e : Mempool.MempoolEntry) :
    (Mempool.removeUnchecked env (fuel + 1) s e false).2 =
      [Mempool.Event.removeOrphan e.tx.hash, Mempool.Event.removeTx e.tx.hash] := by
  rw [Mempool.removeUnchecked]
  simp only [Mempool.removeOrphanTX, Bool.false_eq_true, if_false, ite_false,
    List.nil_append, List.append_nil, List.cons_append, List.singleton_append]

/-- A successful association-list lookup is a membership. -/
theorem alistGet_mem {κ α : Type} [DecidableEq κ] :
    ∀ {l : List (κ × α)} {k : κ} {v : α}, alistGet l k = some v → (k, v) ∈ l := by
  intro l
  induction l with
  | nil => intro k v h; exact absurd h (by simp [alistGet])
  | cons p t ih =>
    intro k v h
    obtain ⟨k2, v2⟩ := p
    simp only [alistGet] at h
    by_cases hk : k2 = k
    · rw [if_pos hk] at h
      subst hk
      cases h
      exact List.mem_cons_self _ _
    · rw [if_neg hk] at h
      exact List.mem_cons_of_mem _ (ih h)

/-- Deletion only removes entries. -/
theorem alistDel_subset {κ α : Type} [DecidableEq κ] :
    ∀ (l : List (κ × α)) (k : κ) (p : κ × α), p ∈ alistDel l k → p ∈ l := by
  intro l
  induction l with
  | nil =>
    intro k p hp
    rw [show alistDel ([] : List (κ × α)) k = [] from rfl] at hp
    exact absurd hp (List.not_mem_nil p)
  | cons q t ih =>
    intro k p hp
    obtain ⟨k2, v2⟩ := q
    simp only [alistDel] at hp
    by_cases hk : k2 = k
    · rw [if_pos hk] at hp
      exact List.mem_cons_of_mem _ (ih k p hp)
    · rw [if_neg hk] at hp
      cases hp with
      | head => exact List.mem_cons_self _ _
      | tail _ hm => exact List.mem_cons_of_mem _ (ih k p hm)

/-- `removeOrphan` applied to a transaction object never touches the
transaction map. -/
theorem removeOrphanTX_txs (s : Mempool.MState) (tx : TX) :
    (Mempool.removeOrphanTX s tx).1.txs = s.txs := by
  unfold Mempool.removeOrphanTX
  dsimp only
  exact foldl_txs_frame _ (by
    intro st a
    cases halg : alistGet st.waiting a with
    | none => simp only [halg]
    | some hashes =>
      simp only [halg]
      split <;> rfl) _ s

end Bcoin

namespace Bcoin

/-- The transaction map after a block-mode (`limit = false`) removal:
exactly the entry's hash is deleted (the spender recursion is skipped
and nothing else touches the map). -/
theorem removeUnchecked_txs_eq_false (env : Mempool.MEnv) (fuel : Nat)
    (s : Mempool.MState) (e : Mempool.MempoolEntry) :
    (Mempool.removeUnchecked env (fuel + 1) s e false).1.txs =
      alistDel s.txs e.tx.hash := by
  rw [Mempool.removeUnchecked]
  dsimp only
  simp only [Bool.false_eq_true, if_false, ite_false]
  cases hcb : e.tx.isCoinbase with
  | true =>
    simp only [hcb, eq_self_iff_true, if_true, ite_true]
    rw [foldl_txs_frame]
    · rw [removeOrphanTX_txs]
    · intro st a
      split <;> rfl
  | false =>
    simp only [hcb, Bool.false_eq_true, if_false, ite_false]
    rw [foldl_txs_frame]
    · rw [foldl_txs_frame]
      · rw [removeOrphanTX_txs]
      · intro st a
        rfl
    · intro st a
      split <;> rfl

end Bcoin

namespace Bcoin

/-- `removeOrphan` by hash never touches the transaction map. -/
theorem removeOrphanHash_txs (s : Mempool.MState) (h : Hash) :
    (Mempool.removeOrphanHash s h).1.txs = s.txs := by
  unfold Mempool.removeOrphanHash
  cases halg : alistGet s.orphans h with
  | none => rfl
  | some otx => exact removeOrphanTX_txs s otx

/-- `removeOrphan` by hash emits no `confirmed`-constrained events. -/
theorem removeOrphanHash_events_req (s : Mempool.MState) (h : Hash) :
    ∀ e ∈ (Mempool.removeOrphanHash s h).2, reqConfirmed e = none := by
  unfold Mempool.removeOrphanHash
  cases halg : alistGet s.orphans h with
  | none => simp
  | some otx =>
    intro e he
    rw [show (Mempool.removeOrphanTX s otx).2 =
      [Mempool.Event.removeOrphan otx.hash] from rfl] at he
    simp only [List.mem_singleton] at he
    rw [he]
    rfl

/-- In `addBlock`'s emission trace, every `confirmed` event is
immediately preceded by the matching `remove tx` event. -/
theorem addBlock_adjOk (env : Mempool.MEnv) (s : Mempool.MState) (blk : Block)
    (hwf : ∀ p ∈ s.txs, (p.2 : Mempool.MempoolEntry).tx.hash = p.1) :
    ∀ prev, adjOk reqConfirmed prev (Mempool.addBlock env s blk).2 = true := by
  intro prev
  unfold Mempool.addBlock
  refine (foldl_inv
    (fun acc : Mempool.MState × List Mempool.Event =>
      (∀ q ∈ acc.1.txs, q.2.tx.hash = q.1) ∧
      ∀ pv, adjOk reqConfirmed pv acc.2 = true)
    _ ?_ blk.txs.reverse (s, []) ⟨hwf, fun pv => rfl⟩).2 prev
  intro b a hb
  obtain ⟨hc, hadj⟩ := hb
  dsimp only
  cases hcb : a.isCoinbase with
  | true =>
    simp only [hcb, eq_self_iff_true, if_true, ite_true]
    exact ⟨hc, hadj⟩
  | false =>
    simp only [hcb, Bool.false_eq_true, if_false, ite_false]
    cases hge : Mempool.getEntry b.1 a.hash with
    | none =>
      simp only [hge]
      constructor
      · intro q hq
        rw [removeOrphanHash_txs] at hq
        exact hc q hq
      · intro pv
        rw [adjOk_append, hadj pv,
          adjOk_of_req_none _ _ (removeOrphanHash_events_req b.1 a.hash) _]
        rfl
    | some entry =>
      simp only [hge]
      have hmem : (a.hash, entry) ∈ b.1.txs := alistGet_mem hge
      have hhash : entry.tx.hash = a.hash := hc _ hmem
      constructor
      · intro q hq
        rw [removeUnchecked_txs_eq_false] at hq
        exact hc q (alistDel_subset _ _ _ hq)
      · intro pv
        rw [adjOk_append, adjOk_append, hadj pv, removeUnchecked_events_false,
          hhash]
        simp [adjOk, lastCtx, reqConfirmed]

end Bcoin

namespace Bcoin

/-- In `addUnchecked`'s emission trace (including recursive orphan
resolution), every `add tx` event is immediately preceded by the
matching `tx` event. -/
theorem addUnchecked_adjOk (env : Mempool.MEnv) :
    ∀ (fuel : Nat) (s : Mempool.MState) (e : Mempool.MempoolEntry)
      (prev : Option Mempool.Event),
      adjOk reqAddTx prev (Mempool.addUnchecked env fuel s e).2 = true := by
  intro fuel
  induction fuel with
  | zero =>
    intro s e prev
    rfl
  | succ n ih =>
    intro s e prev
    rw [Mempool.addUnchecked]
    refine (foldl_inv
      (fun acc : Mempool.MState × List Mempool.Event =>
        ∀ q, adjOk reqAddTx q acc.2 = true)
      _ ?_ _ _ ?_) prev
    · intro b a hb
      dsimp only
      cases hv : (Mempool.verify env b.1
          (Mempool.MempoolEntry.fromTX env a env.ch.height)).2 with
      | some err =>
        simp only [hv]
        intro q
        rw [adjOk_append, hb q, adjOk_of_req_none _ _ (fun x hx => by
          simp only [List.mem_singleton] at hx
          rw [hx]
          rfl) _]
        rfl
      | none =>
        simp only [hv]
        intro q
        rw [adjOk_append, hb q, ih _ _ _]
        rfl
    · intro q
      simp [adjOk, reqAddTx]

end Bcoin

namespace Bcoin

/-- C9 counterexample: confirming the pooled transaction `txG` (hash 9)
via `addBlock` emits `remove tx` first and `confirmed` only afterwards
(after the unconditional `remove orphan` of `removeUnchecked`) — the
claimed `confirmed`-before-`remove tx` order does not hold. -/
theorem c9_confirmed_after_remove :
    (Mempool.addBlock env0 stateG blockG).2 =
      [Mempool.Event.removeOrphan 9, Mempool.Event.removeTx 9,
       Mempool.Event.confirmed 9] := by
  decide

/-- C9 (amended): for every admission via `addUnchecked` the `tx` event
immediately precedes the `add tx` event of the same transaction (as
claimed); but for confirmations via `addBlock` the order is reversed
from the claim: every `confirmed` event is immediately preceded by the
matching `remove tx` event (the mempool removes the transaction first
and emits `confirmed` afterwards).  `hwf` states that stored entries
are keyed by their transaction hash. -/
theorem c9_event_order (env env2 : Mempool.MEnv) (fuel : Nat)
    (s s2 : Mempool.MState) (e : Mempool.MempoolEntry) (blk : Block)
    (prev prev2 : Option Mempool.Event)
    (hwf : ∀ p ∈ s2.txs, (p.2 : Mempool.MempoolEntry).tx.hash = p.1) :
    adjOk reqAddTx prev (Mempool.addUnchecked env fuel s e).2 = true ∧
    adjOk reqConfirmed prev2 (Mempool.addBlock env2 s2 blk).2 = true :=
  ⟨addUnchecked_adjOk env fuel s e prev,
   addBlock_adjOk env2 s2 blk hwf prev2⟩

/-- C9 witness: the amended statement instantiated at the concrete pool
holding `txH` (hash 10) and the block confirming it. -/
theorem c9_event_order_witness :
    adjOk reqAddTx none
      (Mempool.addUnchecked env0 1 mstate0
        (Mempool.MempoolEntry.fromTX env0 txH 10)).2 = true ∧
    adjOk reqConfirmed none (Mempool.addBlock env0 stateH blockH).2 = true :=
  c9_event_order env0 env0 1 mstate0 stateH
    (Mempool.MempoolEntry.fromTX env0 txH 10) blockH none none (by decide)

end Bcoin

namespace Bcoin

/-! ## Claim C7: infrastructure -/

/-- Folds whose step preserves a projection preserve it globally. -/
theorem foldl_frame {α γ : Type} (f : Mempool.MState → γ)
    (step : Mempool.MState → α → Mempool.MState)
    (hstep : ∀ st a, f (step st a) = f st) :
    ∀ (l : List α) (st : Mempool.MState), f (l.foldl step st) = f st := by
  intro l
  induction l with
  | nil => intro st; rfl
  | cons a t ih => intro st; rw [List.foldl_cons, ih, hstep]

/-- A found key is among the keys. -/
theorem alistGet_isSome_mem {κ α : Type} [DecidableEq κ] :
    ∀ {l : List (κ × α)} {k : κ} {v : α},
      alistGet l k = some v → k ∈ l.map Prod.fst := by
  intro l k v h
  exact List.mem_map.mpr ⟨(k, v), alistGet_mem h, rfl⟩

/-- Keys outside the map resolve to `none`. -/
theorem alistGet_eq_none_of_not_mem {κ α : Type} [DecidableEq κ] :
    ∀ {l : List (κ × α)} {k : κ}, k ∉ l.map Prod.fst → alistGet l k = none := by
  intro l k h
  cases halg : alistGet l k with
  | none => rfl
  | some v => exact absurd (alistGet_isSome_mem halg) h

/-- With duplicate-free keys, membership determines the lookup. -/
theorem alistGet_of_mem_nodup {κ α : Type} [DecidableEq κ] :
    ∀ {l : List (κ × α)} {k : κ} {v : α},
      (k, v) ∈ l → (l.map Prod.fst).Nodup → alistGet l k = some v := by
  intro l
  induction l with
  | nil => intro k v hm _; exact absurd hm (List.not_mem_nil _)
  | cons p t ih =>
    intro k v hm hnd
    obtain ⟨k2, v2⟩ := p
    rw [List.map_cons] at hnd
    cases hm with
    | head => simp [alistGet]
    | tail _ hm2 =>
      have hk : k2 ≠ k := by
        intro he
        subst he
        exact (List.nodup_cons.mp hnd).1
          (List.mem_map.mpr ⟨(k2, v), hm2, rfl⟩)
      simp only [alistGet, if_neg hk]
      exact ih hm2 (List.nodup_cons.mp hnd).2

/-- Deleting a key removes it from the lookups. -/
theorem alistDel_get_self {κ α : Type} [DecidableEq κ] :
    ∀ (l : List (κ × α)) (k : κ), alistGet (alistDel l k) k = none := by
  intro l
  induction l with
  | nil => intro k; rfl
  | cons p t ih =>
    intro k
    obtain ⟨k2, v2⟩ := p
    by_cases hk : k2 = k
    · simp only [alistDel, if_pos hk]
      exact ih k
    · simp only [alistDel, if_neg hk, alistGet, if_neg hk]
      exact ih k

/-- Deleting one key leaves the other lookups unchanged. -/
theorem alistDel_get_ne {κ α : Type} [DecidableEq κ] :
    ∀ (l : List (κ × α)) (k k2 : κ), k2 ≠ k →
      alistGet (alistDel l k) k2 = alistGet l k2 := by
  intro l
  induction l with
  | nil => intro k k2 _; rfl
  | cons p t ih =>
    intro k k2 hne
    obtain ⟨k3, v3⟩ := p
    by_cases hk : k3 = k
    · simp only [alistDel, if_pos hk, alistGet]
      rw [if_neg (show ¬ k3 = k2 from fun he => hne (he ▸ hk))]
      exact ih k k2 hne
    · simp only [alistDel, if_neg hk, alistGet]
      by_cases hk2 : k3 = k2
      · rw [if_pos hk2, if_pos hk2]
      · rw [if_neg hk2, if_neg hk2]
        exact ih k k2 hne

/-- Deleting an absent key is the identity. -/
theorem alistDel_of_get_none {κ α : Type} [DecidableEq κ] :
    ∀ (l : List (κ × α)) (k : κ), alistGet l k = none → alistDel l k = l := by
  intro l
  induction l with
  | nil => intro k _; rfl
  | cons p t ih =>
    intro k h
    obtain ⟨k2, v2⟩ := p
    simp only [alistGet] at h
    by_cases hk : k2 = k
    · rw [if_pos hk] at h
      cases h
    · rw [if_neg hk] at h
      simp only [alistDel, if_neg hk]
      rw [ih k h]

/-- The keys after a deletion form a sublist of the original keys. -/
theorem alistDel_keys_sublist {κ α : Type} [DecidableEq κ] :
    ∀ (l : List (κ × α)) (k : κ),
      ((alistDel l k).map Prod.fst).Sublist (l.map Prod.fst) := by
  intro l
  induction l with
  | nil => intro k; exact List.Sublist.refl _
  | cons p t ih =>
    intro k
    obtain ⟨k2, v2⟩ := p
    by_cases hk : k2 = k
    · simp only [alistDel, if_pos hk, List.map_cons]
      exact (ih k).cons _
    · simp only [alistDel, if_neg hk, List.map_cons]
      exact (ih k).cons₂ _

/-- Setting an absent key appends the binding. -/
theorem alistSet_of_get_none {κ α : Type} [DecidableEq κ] :
    ∀ (l : List (κ × α)) (k : κ) (v : α), alistGet l k = none →
      alistSet l k v = l ++ [(k, v)] := by
  intro l
  induction l with
  | nil => intro k v _; rfl
  | cons p t ih =>
    intro k v h
    obtain ⟨k2, v2⟩ := p
    simp only [alistGet] at h
    by_cases hk : k2 = k
    · rw [if_pos hk] at h
      cases h
    · rw [if_neg hk] at h
      simp only [alistSet, if_neg hk, List.cons_append]
      rw [ih k v h]

/-- Removing a present key removes exactly its usage from the sum. -/
theorem txsMem_del (env : Mempool.MEnv) :
    ∀ (l : List (Hash × Mempool.MempoolEntry)) (k : Hash)
      (e : Mempool.MempoolEntry), (l.map Prod.fst).Nodup → (k, e) ∈ l →
      txsMem env (alistDel l k) + Mempool.memUsage env e.tx = txsMem env l := by
  intro l
  induction l with
  | nil => intro k e _ hm; exact absurd hm (List.not_mem_nil _)
  | cons p t ih =>
    intro k e hnd hm
    obtain ⟨k2, v2⟩ := p
    rw [List.map_cons] at hnd
    by_cases hk : k2 = k
    · subst hk
    -- head key equals k: the deleted pair is the head (Nodup)
      have hnot : k2 ∉ t.map Prod.fst := (List.nodup_cons.mp hnd).1
      have he : e = v2 := by
        cases hm with
        | head => rfl
        | tail _ hm2 => exact absurd (List.mem_map.mpr ⟨(k2, e), hm2, rfl⟩) hnot
      subst he
      rw [show alistDel ((k2, e) :: t) k2 = alistDel t k2 from by
        simp [alistDel]]
      rw [alistDel_of_get_none t k2 (alistGet_eq_none_of_not_mem hnot)]
      simp only [txsMem, List.map_cons, List.sum_cons]
      omega
    · have hm2 : (k, e) ∈ t := by
        cases hm with
        | head => exact absurd rfl hk
        | tail _ h2 => exact h2
      simp only [alistDel, if_neg hk, txsMem, List.map_cons, List.sum_cons]
      have := ih k e (List.nodup_cons.mp hnd).2 hm2
      simp only [txsMem] at this
      omega

/-- `subLookup` is reflexive. -/
theorem subLookup_refl {κ α : Type} [DecidableEq κ] (l : List (κ × α)) :
    subLookup l l := fun k => Or.inr rfl

/-- `subLookup` is transitive. -/
theorem subLookup_trans {κ α : Type} [DecidableEq κ]
    {l1 l2 l3 : List (κ × α)} (h12 : subLookup l1 l2) (h23 : subLookup l2 l3) :
    subLookup l1 l3 := by
  intro k
  cases h23 k with
  | inl h => exact Or.inl h
  | inr h =>
    cases h12 k with
    | inl h2 => exact Or.inl (h ▸ h2)
    | inr h2 => exact Or.inr (h ▸ h2)

/-- The invariant only depends on `txs`, `orphans` and `size`. -/
theorem MemInv_of_frames (env : Mempool.MEnv) {s s2 : Mempool.MState}
    (htxs : s2.txs = s.txs) (horph : s2.orphans = s.orphans)
    (hsize : s2.size = s.size) (h : MemInv env s) : MemInv env s2 := by
  obtain ⟨h1, h2, h3, h4, h5, h6, h7⟩ := h
  exact ⟨by rw [htxs, hsize]; exact h1, by rw [htxs]; exact h2,
    by rw [htxs]; exact h3, by rw [htxs]; exact h4,
    by rw [horph]; exact h5, by rw [horph, htxs]; exact h6,
    by rw [horph]; exact h7⟩

end Bcoin

namespace Bcoin

/-- Mapping a function that fixes every element is the identity. -/
theorem map_self {α : Type} (l : List α) (f : α → α) (h : ∀ x ∈ l, f x = x) :
    l.map f = l := by
  induction l with
  | nil => rfl
  | cons a t ih =>
    rw [List.map_cons, h a (List.mem_cons_self a t),
      ih (fun x hx => h x (List.mem_cons_of_mem a hx))]

/-- Filling history is the identity on fully resolved transactions. -/
theorem fillHistoryMem_id (s : Mempool.MState) (tx : TX)
    (h : TX.hasCoins tx = true) : Mempool.fillHistoryMem s tx = tx := by
  simp only [TX.hasCoins, List.all_eq_true] at h
  unfold Mempool.fillHistoryMem
  split_ifs with h1
  · rfl
  · rw [map_self _ _ (fun i hi => by
      rw [if_pos (by exact h i hi)])]

/-- `fillAllHistory` is the identity on fully resolved transactions. -/
theorem fillAllHistory_id (env : Mempool.MEnv) (s : Mempool.MState) (tx : TX)
    (h : TX.hasCoins tx = true) : Mempool.fillAllHistory env s tx = tx := by
  unfold Mempool.fillAllHistory
  rw [fillHistoryMem_id s tx h, if_pos h]

/-- `removeOrphan` on a transaction object: the transaction map and the
size are untouched; the orphan entry is deleted. -/
theorem removeOrphanTX_char (s : Mempool.MState) (tx : TX) :
    ((Mempool.removeOrphanTX s tx).1.txs, (Mempool.removeOrphanTX s tx).1.size,
      (Mempool.removeOrphanTX s tx).1.orphans) =
    (s.txs, s.size, alistDel s.orphans tx.hash) := by
  unfold Mempool.removeOrphanTX
  dsimp only
  rw [Prod.mk.injEq, Prod.mk.injEq]
  refine ⟨?_, ?_, ?_⟩
  · rw [foldl_frame Mempool.MState.txs]
    intro st a
    cases halg : alistGet st.waiting a with
    | none => simp only [halg]
    | some hashes =>
      simp only [halg]
      split <;> rfl
  · rw [foldl_frame Mempool.MState.size]
    intro st a
    cases halg : alistGet st.waiting a with
    | none => simp only [halg]
    | some hashes =>
      simp only [halg]
      split <;> rfl
  · rw [foldl_frame Mempool.MState.orphans]
    intro st a
    cases halg : alistGet st.waiting a with
    | none => simp only [halg]
    | some hashes =>
      simp only [halg]
      split <;> rfl

end Bcoin

namespace Bcoin

/-- One limit-mode removal, characterized: the entry's hash is deleted
from the map left by the spender recursion, its usage is subtracted
from the size, and the orphans are those left by the recursion (the
entry's own orphan slot having been deleted first). -/
theorem removeUnchecked_char (env : Mempool.MEnv) (fuel : Nat)
    (s : Mempool.MState) (e : Mempool.MempoolEntry) :
    ((Mempool.removeUnchecked env (fuel + 1) s e true).1.txs,
     (Mempool.removeUnchecked env (fuel + 1) s e true).1.size,
     (Mempool.removeUnchecked env (fuel + 1) s e true).1.orphans) =
    (alistDel (Mempool.removeSpendersGo env
        (fun s2 e2 => Mempool.removeUnchecked env fuel s2 e2 true)
        (List.range e.tx.outputs.length) (Mempool.removeOrphanTX s e.tx).1
        e.tx.hash).1.txs e.tx.hash,
     (Mempool.removeSpendersGo env
        (fun s2 e2 => Mempool.removeUnchecked env fuel s2 e2 true)
        (List.range e.tx.outputs.length) (Mempool.removeOrphanTX s e.tx).1
        e.tx.hash).1.size -
       Mempool.memUsage env (Mempool.fillAllHistory env s e.tx),
     (Mempool.removeSpendersGo env
        (fun s2 e2 => Mempool.removeUnchecked env fuel s2 e2 true)
        (List.range e.tx.outputs.length) (Mempool.removeOrphanTX s e.tx).1
        e.tx.hash).1.orphans) := by
  rw [Mempool.removeUnchecked]
  dsimp only
  simp only [eq_self_iff_true, if_true, ite_true]
  rw [Prod.mk.injEq, Prod.mk.injEq]
  refine ⟨?_, ?_, ?_⟩ <;>
    cases hcb : e.tx.isCoinbase <;>
      simp only [hcb, eq_self_iff_true, if_true, ite_true, Bool.false_eq_true,
        if_false, ite_false] <;>
      split_ifs with h1 <;>
      first
      | (rw [foldl_frame Mempool.MState.txs]
         all_goals try rw [foldl_frame Mempool.MState.txs]
         all_goals (intro st a; (repeat' split) <;> rfl))
      | (rw [foldl_frame Mempool.MState.size]
         all_goals try rw [foldl_frame Mempool.MState.size]
         all_goals (intro st a; (repeat' split) <;> rfl))
      | (rw [foldl_frame Mempool.MState.orphans]
         all_goals try rw [foldl_frame Mempool.MState.orphans]
         all_goals (intro st a; (repeat' split) <;> rfl))

end Bcoin

namespace Bcoin

/-- `_addUnchecked`, characterized on the fields the invariant tracks:
the entry is stored under its hash; size and orphans are untouched. -/
theorem _addUnchecked_char (env : Mempool.MEnv) (s : Mempool.MState)
    (e : Mempool.MempoolEntry) :
    ((Mempool._addUnchecked env s e).txs, (Mempool._addUnchecked env s e).size,
     (Mempool._addUnchecked env s e).orphans) =
    (alistSet s.txs e.tx.hash e, s.size, s.orphans) := by
  unfold Mempool._addUnchecked
  dsimp only
  rw [Prod.mk.injEq, Prod.mk.injEq]
  refine ⟨?_, ?_, ?_⟩ <;>
    cases hcb : e.tx.isCoinbase <;>
      simp only [hcb, eq_self_iff_true, if_true, ite_true, Bool.false_eq_true,
        if_false, ite_false] <;>
      first
      | (rw [foldl_frame Mempool.MState.txs]
         all_goals try rw [foldl_frame Mempool.MState.txs]
         all_goals (intro st a; (repeat' split) <;> rfl))
      | (rw [foldl_frame Mempool.MState.size]
         all_goals try rw [foldl_frame Mempool.MState.size]
         all_goals (intro st a; (repeat' split) <;> rfl))
      | (rw [foldl_frame Mempool.MState.orphans]
         all_goals try rw [foldl_frame Mempool.MState.orphans]
         all_goals (intro st a; (repeat' split) <;> rfl))

/-- `getMinRate` only touches the fee-rate bookkeeping fields. -/
theorem getMinRate_frame (env : Mempool.MEnv) (s : Mempool.MState) :
    ((Mempool.getMinRate env s).1.txs, (Mempool.getMinRate env s).1.size,
     (Mempool.getMinRate env s).1.orphans) = (s.txs, s.size, s.orphans) := by
  unfold Mempool.getMinRate
  dsimp only
  split_ifs <;> rfl

set_option maxHeartbeats 1000000 in
/-- `verify` never touches the transaction map. -/
theorem verify_txs (env : Mempool.MEnv) (s : Mempool.MState)
    (e : Mempool.MempoolEntry) : (Mempool.verify env s e).1.txs = s.txs := by
  unfold Mempool.verify
  try dsimp only
  have hg := getMinRate_frame env s
  rw [Prod.mk.injEq, Prod.mk.injEq] at hg
  cases hci : env.fx.checkInputsErr e.tx (env.ch.height + 1) <;>
    simp only [hci,
      apply_ite (Prod.fst :
        Mempool.MState × Option Mempool.VerifyError → Mempool.MState),
      apply_ite (Prod.fst : Mempool.MState × Bool → Mempool.MState),
      apply_ite Mempool.MState.txs, hg.1, ite_self]

set_option maxHeartbeats 1000000 in
/-- `verify` never touches the size estimate. -/
theorem verify_size (env : Mempool.MEnv) (s : Mempool.MState)
    (e : Mempool.MempoolEntry) : (Mempool.verify env s e).1.size = s.size := by
  unfold Mempool.verify
  try dsimp only
  have hg := getMinRate_frame env s
  rw [Prod.mk.injEq, Prod.mk.injEq] at hg
  cases hci : env.fx.checkInputsErr e.tx (env.ch.height + 1) <;>
    simp only [hci,
      apply_ite (Prod.fst :
        Mempool.MState × Option Mempool.VerifyError → Mempool.MState),
      apply_ite (Prod.fst : Mempool.MState × Bool → Mempool.MState),
      apply_ite Mempool.MState.size, hg.2.1, ite_self]

set_option maxHeartbeats 1000000 in
/-- `verify` never touches the orphan map. -/
theorem verify_orphans (env : Mempool.MEnv) (s : Mempool.MState)
    (e : Mempool.MempoolEntry) :
    (Mempool.verify env s e).1.orphans = s.orphans := by
  unfold Mempool.verify
  try dsimp only
  have hg := getMinRate_frame env s
  rw [Prod.mk.injEq, Prod.mk.injEq] at hg
  cases hci : env.fx.checkInputsErr e.tx (env.ch.height + 1) <;>
    simp only [hci,
      apply_ite (Prod.fst :
        Mempool.MState × Option Mempool.VerifyError → Mempool.MState),
      apply_ite (Prod.fst : Mempool.MState × Bool → Mempool.MState),
      apply_ite Mempool.MState.orphans, hg.2.2, ite_self]

/-- `storeOrphan` never changes the size estimate (nor the transaction
map). -/
theorem storeOrphan_char (env : Mempool.MEnv) (s : Mempool.MState) (tx : TX) :
    ((Mempool.storeOrphan env s tx).1.txs,
     (Mempool.storeOrphan env s tx).1.size) = (s.txs, s.size) := by
  unfold Mempool.storeOrphan
  dsimp only
  split_ifs with h1
  · rfl
  · rw [Prod.mk.injEq]
    constructor
    · rw [foldl_frame Mempool.MState.txs]
      intro st a
      (repeat' split) <;> rfl
    · rw [foldl_frame Mempool.MState.size]
      intro st a
      (repeat' split) <;> rfl

/-- Coin filling never changes the transaction hash. -/
theorem fillAllCoins_hash (env : Mempool.MEnv) (s : Mempool.MState) (tx : TX) :
    (Mempool.fillAllCoins env s tx).hash = tx.hash := by
  unfold Mempool.fillAllCoins Mempool.fillCoinsMem
  dsimp only
  split_ifs <;> rfl

end Bcoin

namespace Bcoin

/-- The spender recursion preserves the invariant and only shrinks the
lookups, provided the removal routine it is given does. -/
theorem removeSpendersGo_inv (env : Mempool.MEnv)
    (ru : Mempool.MState → Mempool.MempoolEntry → Mempool.MState × List Mempool.Event)
    (hru : ∀ s2 e2, MemInv env s2 → alistGet s2.txs e2.tx.hash = some e2 →
      MemInv env (ru s2 e2).1 ∧ subLookup s2.txs (ru s2 e2).1.txs ∧
        subLookup s2.orphans (ru s2 e2).1.orphans) :
    ∀ (l : List Nat) (s : Mempool.MState) (h : Hash), MemInv env s →
      MemInv env (Mempool.removeSpendersGo env ru l s h).1 ∧
      subLookup s.txs (Mempool.removeSpendersGo env ru l s h).1.txs ∧
      subLookup s.orphans (Mempool.removeSpendersGo env ru l s h).1.orphans := by
  intro l
  induction l with
  | nil => intro s h hInv; exact ⟨hInv, subLookup_refl _, subLookup_refl _⟩
  | cons i rest ih =>
    intro s h hInv
    cases hsp : alistGet s.spents (h, i) with
    | none =>
      rw [show Mempool.removeSpendersGo env ru (i :: rest) s h =
          Mempool.removeSpendersGo env ru rest s h from by
        simp only [Mempool.removeSpendersGo, hsp]]
      exact ih s h hInv
    | some spender =>
      cases htx : alistGet s.txs spender.1 with
      | none =>
        rw [show Mempool.removeSpendersGo env ru (i :: rest) s h =
            Mempool.removeSpendersGo env ru rest s h from by
          simp only [Mempool.removeSpendersGo, hsp, htx]]
        exact ih s h hInv
      | some e2 =>
        have hcons : e2.tx.hash = spender.1 := hInv.2.2.1 _ (alistGet_mem htx)
        have hGet : alistGet s.txs e2.tx.hash = some e2 := by
          rw [hcons]; exact htx
        obtain ⟨hI1, hS1, hO1⟩ := hru s e2 hInv hGet
        obtain ⟨hI2, hS2, hO2⟩ := ih (ru s e2).1 h hI1
        rw [show Mempool.removeSpendersGo env ru (i :: rest) s h =
            ((Mempool.removeSpendersGo env ru rest (ru s e2).1 h).1,
             (ru s e2).2 ++
               (Mempool.removeSpendersGo env ru rest (ru s e2).1 h).2) from by
          simp only [Mempool.removeSpendersGo, hsp, htx]]
        exact ⟨hI2, subLookup_trans hS1 hS2, subLookup_trans hO1 hO2⟩

/-- A limit-mode removal preserves the invariant and only shrinks the
transaction and orphan lookups.  The entry must be stored under its
hash or already gone (the states arising in `limitMempoolSize`). -/
theorem removeUnchecked_inv (env : Mempool.MEnv) :
    ∀ (fuel : Nat) (s : Mempool.MState) (e : Mempool.MempoolEntry),
      MemInv env s →
      (alistGet s.txs e.tx.hash = none ∨ alistGet s.txs e.tx.hash = some e) →
      MemInv env (Mempool.removeUnchecked env fuel s e true).1 ∧
      subLookup s.txs (Mempool.removeUnchecked env fuel s e true).1.txs ∧
      subLookup s.orphans (Mempool.removeUnchecked env fuel s e true).1.orphans := by
  intro fuel
  induction fuel with
  | zero => intro s e hInv _; exact ⟨hInv, subLookup_refl _, subLookup_refl _⟩
  | succ n ihn =>
    intro s e hInv He
    have hchar := removeUnchecked_char env n s e
    rw [Prod.mk.injEq, Prod.mk.injEq] at hchar
    obtain ⟨hcT, hcS, hcO⟩ := hchar
    have hp0 := removeOrphanTX_char s e.tx
    rw [Prod.mk.injEq, Prod.mk.injEq] at hp0
    obtain ⟨hp0T, hp0S, hp0O⟩ := hp0
    have hInv0 : MemInv env (Mempool.removeOrphanTX s e.tx).1 := by
      obtain ⟨h1, h2, h3, h4, h5, h6, h7⟩ := hInv
      refine ⟨?_, ?_, ?_, ?_, ?_, ?_, ?_⟩
      · rw [hp0T, hp0S]; exact h1
      · rw [hp0T]; exact h2
      · rw [hp0T]; exact h3
      · rw [hp0T]; exact h4
      · rw [hp0O]
        exact List.Nodup.sublist (alistDel_keys_sublist _ _) h5
      · rw [hp0O, hp0T]
        intro p hp
        exact h6 p (alistDel_subset _ _ _ hp)
      · rw [hp0O]
        intro p hp
        exact h7 p (alistDel_subset _ _ _ hp)
    have hq := removeSpendersGo_inv env
      (fun s2 e2 => Mempool.removeUnchecked env n s2 e2 true)
      (fun s2 e2 hi hg => ihn s2 e2 hi (Or.inr hg))
      (List.range e.tx.outputs.length) (Mempool.removeOrphanTX s e.tx).1
      e.tx.hash hInv0
    obtain ⟨hIq, hSq, hOq⟩ := hq
    rw [hp0T] at hSq
    have hOp0 : subLookup s.orphans (Mempool.removeOrphanTX s e.tx).1.orphans := by
      rw [hp0O]
      intro k
      by_cases hk : k = e.tx.hash
      · left; rw [hk]; exact alistDel_get_self _ _
      · right; exact alistDel_get_ne _ _ _ hk
    have hOsq := subLookup_trans hOp0 hOq
    obtain ⟨q1, q2, q3, q4, q5, q6, q7⟩ := hIq
    refine ⟨⟨?_, ?_, ?_, ?_, ?_, ?_, ?_⟩, ?_, ?_⟩
    · -- size bound
      rw [hcS, hcT]
      cases hqh : alistGet (Mempool.removeSpendersGo env
          (fun s2 e2 => Mempool.removeUnchecked env n s2 e2 true)
          (List.range e.tx.outputs.length) (Mempool.removeOrphanTX s e.tx).1
          e.tx.hash).1.txs e.tx.hash with
      | none =>
        rw [alistDel_of_get_none _ _ hqh]
        have := Nat.sub_le (Mempool.removeSpendersGo env
          (fun s2 e2 => Mempool.removeUnchecked env n s2 e2 true)
          (List.range e.tx.outputs.length) (Mempool.removeOrphanTX s e.tx).1
          e.tx.hash).1.size (Mempool.memUsage env (Mempool.fillAllHistory env s e.tx))
        omega
      | some e3 =>
        have heq : alistGet s.txs e.tx.hash = some e3 := by
          cases hSq e.tx.hash with
          | inl hnone => rw [hqh] at hnone; cases hnone
          | inr hsame => rw [← hsame, hqh]
        have he3 : e3 = e := by
          cases He with
          | inl hn => rw [heq] at hn; cases hn
          | inr hs => rw [heq] at hs; exact Option.some.inj hs
        rw [he3] at hqh heq
        have hmemq := txsMem_del env _ e.tx.hash e q2 (alistGet_mem hqh)
        have hcoins : TX.hasCoins e.tx = true :=
          hInv.2.2.2.1 _ (alistGet_mem heq)
        rw [fillAllHistory_id env s e.tx hcoins]
        omega
    · rw [hcT]
      exact List.Nodup.sublist (alistDel_keys_sublist _ _) q2
    · rw [hcT]
      intro p hp
      exact q3 p (alistDel_subset _ _ _ hp)
    · rw [hcT]
      intro p hp
      exact q4 p (alistDel_subset _ _ _ hp)
    · rw [hcO]
      exact q5
    · rw [hcO, hcT]
      intro p hp
      by_cases hph : p.1 = e.tx.hash
      · rw [hph]; exact alistDel_get_self _ _
      · rw [alistDel_get_ne _ _ _ hph]
        exact q6 p hp
    · rw [hcO]
      exact q7
    · rw [hcT]
      intro k
      by_cases hk : k = e.tx.hash
      · left; rw [hk]; exact alistDel_get_self _ _
      · rw [alistDel_get_ne _ _ _ hk]
        exact hSq k
    · rw [hcO]
      exact hOsq

end Bcoin

namespace Bcoin

/-- The running size estimate is bounded by `getSize` (bitcoind-style
estimation only adds container overhead). -/
theorem size_le_getSize (env : Mempool.MEnv) (s : Mempool.MState) :
    s.size ≤ Mempool.getSize env s := by
  unfold Mempool.getSize
  split_ifs
  · exact Nat.le_refl _
  · exact Nat.le_add_left _ _

/-- Lookup refinement preserves absent keys. -/
theorem subLookup_none {κ α : Type} [DecidableEq κ]
    {l1 l2 : List (κ × α)} (h : subLookup l1 l2) {k : κ}
    (hn : alistGet l1 k = none) : alistGet l2 k = none := by
  cases h k with
  | inl h2 => exact h2
  | inr h2 => rw [h2, hn]

/-- The first eviction pass preserves the invariant, only shrinks the
transaction lookups, and guarantees the size bound when it exits
early. -/
theorem limitPass1_spec (env : Mempool.MEnv) (eh : Hash) :
    ∀ (l : List Mempool.MempoolEntry) (s : Mempool.MState) (tr : Bool),
      MemInv env s →
      (∀ e ∈ l, alistGet s.txs e.tx.hash = none ∨
        alistGet s.txs e.tx.hash = some e) →
      MemInv env (Mempool.limitPass1 env eh l s tr).1 ∧
      subLookup s.txs (Mempool.limitPass1 env eh l s tr).1.txs ∧
      ((Mempool.limitPass1 env eh l s tr).2.2.2 = true →
        Mempool.getSize env (Mempool.limitPass1 env eh l s tr).1 ≤
          env.cfg.maxSize) := by
  intro l
  induction l with
  | nil =>
    intro s tr hInv _
    exact ⟨hInv, subLookup_refl _, fun hf => by cases hf⟩
  | cons e rest ih =>
    intro s tr hInv hHe
    by_cases hle : Mempool.getSize env s ≤ env.cfg.maxSize
    · rw [show Mempool.limitPass1 env eh (e :: rest) s tr = (s, [], tr, true) from by
        simp only [Mempool.limitPass1, if_pos hle]]
      exact ⟨hInv, subLookup_refl _, fun _ => hle⟩
    · have hrm := removeUnchecked_inv env (s.txs.length + 1) s e hInv
        (hHe e (List.mem_cons_self e rest))
      obtain ⟨hI1, hS1, _⟩ := hrm
      have hHe2 : ∀ e2 ∈ rest,
          alistGet (Mempool.removeUnchecked env (s.txs.length + 1) s e true).1.txs
              e2.tx.hash = none ∨
          alistGet (Mempool.removeUnchecked env (s.txs.length + 1) s e true).1.txs
              e2.tx.hash = some e2 := by
        intro e2 he2
        cases hS1 e2.tx.hash with
        | inl hn => exact Or.inl hn
        | inr hsame =>
          rw [hsame]
          exact hHe e2 (List.mem_cons_of_mem e he2)
      have hrec := ih (Mempool.removeUnchecked env (s.txs.length + 1) s e true).1
        (tr || (e.tx.hash = eh : Bool)) hI1 hHe2
      obtain ⟨hI2, hS2, hB2⟩ := hrec
      rw [show Mempool.limitPass1 env eh (e :: rest) s tr =
          ((Mempool.limitPass1 env eh rest
              (Mempool.removeUnchecked env (s.txs.length + 1) s e true).1
              (tr || (e.tx.hash = eh : Bool))).1,
           (Mempool.removeUnchecked env (s.txs.length + 1) s e true).2 ++
             (Mempool.limitPass1 env eh rest
               (Mempool.removeUnchecked env (s.txs.length + 1) s e true).1
               (tr || (e.tx.hash = eh : Bool))).2.1,
           (Mempool.limitPass1 env eh rest
             (Mempool.removeUnchecked env (s.txs.length + 1) s e true).1
             (tr || (e.tx.hash = eh : Bool))).2.2) from by
        simp only [Mempool.limitPass1, if_neg hle]]
      exact ⟨hI2, subLookup_trans hS1 hS2, hB2⟩

end Bcoin

namespace Bcoin

/-- The second eviction pass preserves the invariant and shrinks the
lookups; an early exit guarantees the size bound, and a full pass
leaves every listed key absent. -/
theorem limitPass2_spec (env : Mempool.MEnv) (eh : Hash) :
    ∀ (l : List Hash) (s : Mempool.MState) (tr : Bool),
      MemInv env s →
      MemInv env (Mempool.limitPass2 env eh l s tr).1 ∧
      subLookup s.txs (Mempool.limitPass2 env eh l s tr).1.txs ∧
      ((Mempool.limitPass2 env eh l s tr).2.2.2 = true →
        Mempool.getSize env (Mempool.limitPass2 env eh l s tr).1 ≤
          env.cfg.maxSize) ∧
      ((Mempool.limitPass2 env eh l s tr).2.2.2 = false →
        ∀ k ∈ l, alistGet (Mempool.limitPass2 env eh l s tr).1.txs k = none) := by
  intro l
  induction l with
  | nil =>
    intro s tr hInv
    refine ⟨hInv, subLookup_refl _, ?_, ?_⟩
    · intro hf
      exact absurd hf (by simp [Mempool.limitPass2])
    · intro hf k hk
      exact absurd hk (List.not_mem_nil k)
  | cons h rest ih =>
    intro s tr hInv
    by_cases hle : Mempool.getSize env s ≤ env.cfg.maxSize
    · rw [show Mempool.limitPass2 env eh (h :: rest) s tr = (s, [], tr, true) from by
        simp only [Mempool.limitPass2, if_pos hle]]
      refine ⟨hInv, subLookup_refl _, fun _ => hle, ?_⟩
      intro hf
      exact absurd hf (by simp)
    · cases htx : alistGet s.txs h with
      | none =>
        have hrec := ih s tr hInv
        obtain ⟨hI2, hS2, hB2, hN2⟩ := hrec
        rw [show Mempool.limitPass2 env eh (h :: rest) s tr =
            Mempool.limitPass2 env eh rest s tr from by
          simp only [Mempool.limitPass2, if_neg hle, htx]]
        refine ⟨hI2, hS2, hB2, ?_⟩
        intro hf k hk
        cases List.mem_cons.mp hk with
        | inl hkh => rw [hkh]; exact subLookup_none hS2 htx
        | inr hk2 => exact hN2 hf k hk2
      | some e =>
        have hcons : e.tx.hash = h := hInv.2.2.1 _ (alistGet_mem htx)
        have hGet : alistGet s.txs e.tx.hash = some e := by rw [hcons]; exact htx
        have hrm := removeUnchecked_inv env (s.txs.length + 1) s e hInv
          (Or.inr hGet)
        obtain ⟨hI1, hS1, _⟩ := hrm
        have hnone1 : alistGet
            (Mempool.removeUnchecked env (s.txs.length + 1) s e true).1.txs
            h = none := by
          have hchar := removeUnchecked_char env (s.txs.length) s e
          rw [Prod.mk.injEq, Prod.mk.injEq] at hchar
          rw [hchar.1, ← hcons]
          exact alistDel_get_self _ _
        have hrec := ih
          (Mempool.removeUnchecked env (s.txs.length + 1) s e true).1
          (tr || (h = eh : Bool)) hI1
        obtain ⟨hI2, hS2, hB2, hN2⟩ := hrec
        rw [show Mempool.limitPass2 env eh (h :: rest) s tr =
            ((Mempool.limitPass2 env eh rest
                (Mempool.removeUnchecked env (s.txs.length + 1) s e true).1
                (tr || (h = eh : Bool))).1,
             (Mempool.removeUnchecked env (s.txs.length + 1) s e true).2 ++
               (Mempool.limitPass2 env eh rest
                 (Mempool.removeUnchecked env (s.txs.length + 1) s e true).1
                 (tr || (h = eh : Bool))).2.1,
             (Mempool.limitPass2 env eh rest
               (Mempool.removeUnchecked env (s.txs.length + 1) s e true).1
               (tr || (h = eh : Bool))).2.2) from by
          simp only [Mempool.limitPass2, if_neg hle, htx]]
        refine ⟨hI2, subLookup_trans hS1 hS2, hB2, ?_⟩
        intro hf k hk
        cases List.mem_cons.mp hk with
        | inl hkh => rw [hkh]; exact subLookup_none hS2 hnone1
        | inr hk2 => exact hN2 hf k hk2

end Bcoin

namespace Bcoin

/-- Ordered insertion only adds the inserted element. -/
theorem insertByTs_mem (e x : Mempool.MempoolEntry) :
    ∀ (l : List Mempool.MempoolEntry), x ∈ Mempool.insertByTs e l →
      x = e ∨ x ∈ l := by
  intro l
  induction l with
  | nil =>
    intro hx
    simp only [Mempool.insertByTs, List.mem_singleton] at hx
    exact Or.inl hx
  | cons f fs ih =>
    intro hx
    simp only [Mempool.insertByTs] at hx
    split at hx
    · cases List.mem_cons.mp hx with
      | inl h => exact Or.inl h
      | inr h => exact Or.inr h
    · cases List.mem_cons.mp hx with
      | inl h => exact Or.inr (h ▸ List.mem_cons_self f fs)
      | inr h =>
        cases ih h with
        | inl h2 => exact Or.inl h2
        | inr h2 => exact Or.inr (List.mem_cons_of_mem f h2)

/-- Expired entries come from the stored transaction map. -/
theorem getExpired_subset (env : Mempool.MEnv) (s : Mempool.MState) :
    ∀ e ∈ Mempool.getExpired env s, e ∈ s.txs.map Prod.snd := by
  unfold Mempool.getExpired
  dsimp only
  have hfold : ∀ (l : List Mempool.MempoolEntry) (e : Mempool.MempoolEntry),
      e ∈ l.foldr Mempool.insertByTs [] → e ∈ l := by
    intro l
    induction l with
    | nil => intro e he; exact absurd he (List.not_mem_nil e)
    | cons a t ih =>
      intro e he
      rw [List.foldr_cons] at he
      cases insertByTs_mem a e _ he with
      | inl h => exact h ▸ List.mem_cons_self a t
      | inr h => exact List.mem_cons_of_mem a (ih e h)
  intro e he
  have := hfold _ e he
  exact List.mem_of_mem_filter this

/-- Under the invariant, every expired entry is stored under its own
hash. -/
theorem getExpired_He (env : Mempool.MEnv) (s : Mempool.MState)
    (hInv : MemInv env s) :
    ∀ e ∈ Mempool.getExpired env s,
      alistGet s.txs e.tx.hash = none ∨ alistGet s.txs e.tx.hash = some e := by
  intro e he
  obtain ⟨p, hp, hpe⟩ := List.mem_map.mp (getExpired_subset env s e he)
  have hkey : e.tx.hash = p.1 := by
    rw [← hpe]
    exact hInv.2.2.1 p hp
  right
  rw [hkey]
  have : (p.1, e) ∈ s.txs := by
    rw [← hpe]
    exact hp
  exact alistGet_of_mem_nodup this hInv.2.1

/-- `limitMempoolSize` enforces the size bound whenever the invariant
holds on entry. -/
theorem limitMempoolSize_bound (env : Mempool.MEnv) (s : Mempool.MState)
    (eh : Hash) (hInv : MemInv env s) :
    (Mempool.limitMempoolSize env s eh).1.size ≤ env.cfg.maxSize := by
  unfold Mempool.limitMempoolSize
  by_cases h0 : Mempool.getSize env s ≤ env.cfg.maxSize
  · rw [if_pos h0]
    exact le_trans (size_le_getSize env s) h0
  · rw [if_neg h0]
    dsimp only
    set P1 := Mempool.limitPass1 env eh (Mempool.getExpired env s) s false
      with hP1
    obtain ⟨hI1, hS1, hB1⟩ := limitPass1_spec env eh (Mempool.getExpired env s)
      s false hInv (getExpired_He env s hInv)
    rw [← hP1] at hI1 hS1 hB1
    by_cases he1 : P1.2.2.2 = true
    · rw [if_pos he1]
      exact le_trans (size_le_getSize env _) (hB1 he1)
    · rw [if_neg he1]
      by_cases h2 : Mempool.getSize env P1.1 ≤ env.cfg.maxSize
      · rw [if_pos h2]
        exact le_trans (size_le_getSize env _) h2
      · rw [if_neg h2]
        dsimp only
        set P2 := Mempool.limitPass2 env eh (P1.1.txs.map Prod.fst) P1.1
          P1.2.2.1 with hP2
        obtain ⟨hI2, hS2, hB2, hN2⟩ := limitPass2_spec env eh
          (P1.1.txs.map Prod.fst) P1.1 P1.2.2.1 hI1
        rw [← hP2] at hI2 hS2 hB2 hN2
        by_cases he2 : P2.2.2.2 = true
        · exact le_trans (size_le_getSize env _) (hB2 he2)
        · have hf : P2.2.2.2 = false := Bool.eq_false_iff.mpr he2
          have hempty : P2.1.txs = [] := by
            rw [List.eq_nil_iff_forall_not_mem]
            intro p hp
            obtain ⟨a, b⟩ := p
            have hsome : alistGet P2.1.txs a = some b :=
              alistGet_of_mem_nodup hp hI2.2.1
            cases hS2 a with
            | inl hn => rw [hsome] at hn; cases hn
            | inr hsame =>
              have hmemk : a ∈ P1.1.txs.map Prod.fst :=
                alistGet_isSome_mem (by rw [← hsame, hsome])
              have hnone := hN2 hf a hmemk
              rw [hsome] at hnone
              cases hnone
          have hsz := hI2.1
          rw [hempty] at hsz
          simp only [txsMem, List.map_nil, List.sum_nil, Nat.le_zero] at hsz
          rw [hsz]
          exact Nat.zero_le _

end Bcoin

namespace Bcoin

/-- Setting a key only adds that binding. -/
theorem alistSet_mem {κ α : Type} [DecidableEq κ] :
    ∀ (l : List (κ × α)) (k : κ) (v : α) (p : κ × α),
      p ∈ alistSet l k v → p = (k, v) ∨ p ∈ l := by
  intro l
  induction l with
  | nil =>
    intro k v p hp
    simp only [alistSet, List.mem_singleton] at hp
    exact Or.inl hp
  | cons q t ih =>
    intro k v p hp
    obtain ⟨k2, v2⟩ := q
    simp only [alistSet] at hp
    split at hp
    · cases List.mem_cons.mp hp with
      | inl h => exact Or.inl h
      | inr h => exact Or.inr (List.mem_cons_of_mem _ h)
    · cases List.mem_cons.mp hp with
      | inl h => exact Or.inr (h ▸ List.mem_cons_self _ _)
      | inr h =>
        cases ih k v p h with
        | inl h2 => exact Or.inl h2
        | inr h2 => exact Or.inr (List.mem_cons_of_mem _ h2)

/-- Setting a present key keeps the key list. -/
theorem alistSet_keys_of_get_some {κ α : Type} [DecidableEq κ] :
    ∀ (l : List (κ × α)) (k : κ) (v v0 : α), alistGet l k = some v0 →
      (alistSet l k v).map Prod.fst = l.map Prod.fst := by
  intro l
  induction l with
  | nil => intro k v v0 h; cases h
  | cons q t ih =>
    intro k v v0 h
    obtain ⟨k2, v2⟩ := q
    simp only [alistGet] at h
    by_cases hk : k2 = k
    · subst hk
      rw [show alistSet ((k2, v2) :: t) k2 v = (k2, v) :: t from by
        simp [alistSet]]
      rfl
    · rw [if_neg hk] at h
      simp only [alistSet, if_neg hk, List.map_cons]
      rw [ih k v v0 h]

/-- `resolveOrphans` characterized: the transaction map and size are
untouched, the invariant is preserved, orphan keys only disappear, and
the resolved list consists of distinct fully-resolved former orphans
that are no longer stored. -/
theorem resolveOrphans_spec (env : Mempool.MEnv) (s : Mempool.MState) (tx : TX)
    (hInv : MemInv env s) :
    (Mempool.resolveOrphans s tx).2.txs = s.txs ∧
    (Mempool.resolveOrphans s tx).2.size = s.size ∧
    MemInv env (Mempool.resolveOrphans s tx).2 ∧
    (∀ k, alistGet s.orphans k = none →
      alistGet (Mempool.resolveOrphans s tx).2.orphans k = none) ∧
    (∀ o ∈ (Mempool.resolveOrphans s tx).1,
      TX.hasCoins o = true ∧
      alistGet (Mempool.resolveOrphans s tx).2.orphans o.hash = none ∧
      alistGet s.orphans o.hash ≠ none) ∧
    ((Mempool.resolveOrphans s tx).1.map TX.hash).Nodup := by
  unfold Mempool.resolveOrphans
  cases hw : alistGet s.waiting tx.hash with
  | none =>
    exact ⟨rfl, rfl, hInv, fun k hk => hk,
      fun o ho => absurd ho (List.not_mem_nil o), List.nodup_nil⟩
  | some hashes =>
    dsimp only
    have hbase : (([], s) : List TX × Mempool.MState).2.txs = s.txs ∧
        (([], s) : List TX × Mempool.MState).2.size = s.size ∧
        MemInv env (([], s) : List TX × Mempool.MState).2 ∧
        (∀ k, alistGet s.orphans k = none →
          alistGet (([], s) : List TX × Mempool.MState).2.orphans k = none) ∧
        (∀ o ∈ (([], s) : List TX × Mempool.MState).1, TX.hasCoins o = true ∧
          alistGet (([], s) : List TX × Mempool.MState).2.orphans o.hash = none ∧
          alistGet s.orphans o.hash ≠ none) ∧
        ((([], s) : List TX × Mempool.MState).1.map TX.hash).Nodup :=
      ⟨rfl, rfl, hInv, fun k hk => hk,
        fun o ho => absurd ho (List.not_mem_nil o), List.nodup_nil⟩
    have hstep : ∀ (b : List TX × Mempool.MState) (oh : Hash),
        (b.2.txs = s.txs ∧ b.2.size = s.size ∧ MemInv env b.2 ∧
          (∀ k, alistGet s.orphans k = none → alistGet b.2.orphans k = none) ∧
          (∀ o ∈ b.1, TX.hasCoins o = true ∧
            alistGet b.2.orphans o.hash = none ∧
            alistGet s.orphans o.hash ≠ none) ∧
          (b.1.map TX.hash).Nodup) →
        ((match alistGet b.2.orphans oh with
          | none => b
          | some orphan =>
            let orphan2 := Mempool.fillFromTX orphan tx
            if TX.hasCoins orphan2 then
              (b.1 ++ [orphan2],
                { b.2 with
                  totalOrphans := b.2.totalOrphans - 1
                  orphans := alistDel b.2.orphans oh })
            else
              (b.1, { b.2 with
                orphans := alistSet b.2.orphans oh orphan2 })).2.txs = s.txs ∧
          (match alistGet b.2.orphans oh with
          | none => b
          | some orphan =>
            let orphan2 := Mempool.fillFromTX orphan tx
            if TX.hasCoins orphan2 then
              (b.1 ++ [orphan2],
                { b.2 with
                  totalOrphans := b.2.totalOrphans - 1
                  orphans := alistDel b.2.orphans oh })
            else
              (b.1, { b.2 with
                orphans := alistSet b.2.orphans oh orphan2 })).2.size = s.size ∧
          MemInv env (match alistGet b.2.orphans oh with
          | none => b
          | some orphan =>
            let orphan2 := Mempool.fillFromTX orphan tx
            if TX.hasCoins orphan2 then
              (b.1 ++ [orphan2],
                { b.2 with
                  totalOrphans := b.2.totalOrphans - 1
                  orphans := alistDel b.2.orphans oh })
            else
              (b.1, { b.2 with
                orphans := alistSet b.2.orphans oh orphan2 })).2 ∧
          (∀ k, alistGet s.orphans k = none →
            alistGet (match alistGet b.2.orphans oh with
            | none => b
            | some orphan =>
              let orphan2 := Mempool.fillFromTX orphan tx
              if TX.hasCoins orphan2 then
                (b.1 ++ [orphan2],
                  { b.2 with
                    totalOrphans := b.2.totalOrphans - 1
                    orphans := alistDel b.2.orphans oh })
              else
                (b.1, { b.2 with
                  orphans := alistSet b.2.orphans oh orphan2 })).2.orphans
              k = none) ∧
          (∀ o ∈ (match alistGet b.2.orphans oh with
            | none => b
            | some orphan =>
              let orphan2 := Mempool.fillFromTX orphan tx
              if TX.hasCoins orphan2 then
                (b.1 ++ [orphan2],
                  { b.2 with
                    totalOrphans := b.2.totalOrphans - 1
                    orphans := alistDel b.2.orphans oh })
              else
                (b.1, { b.2 with
                  orphans := alistSet b.2.orphans oh orphan2 })).1,
            TX.hasCoins o = true ∧
            alistGet (match alistGet b.2.orphans oh with
            | none => b
            | some orphan =>
              let orphan2 := Mempool.fillFromTX orphan tx
              if TX.hasCoins orphan2 then
                (b.1 ++ [orphan2],
                  { b.2 with
                    totalOrphans := b.2.totalOrphans - 1
                    orphans := alistDel b.2.orphans oh })
              else
                (b.1, { b.2 with
                  orphans := alistSet b.2.orphans oh orphan2 })).2.orphans
              o.hash = none ∧
            alistGet s.orphans o.hash ≠ none) ∧
          List.Nodup (List.map TX.hash (match alistGet b.2.orphans oh with
            | none => b
            | some orphan =>
              let orphan2 := Mempool.fillFromTX orphan tx
              if TX.hasCoins orphan2 then
                (b.1 ++ [orphan2],
                  { b.2 with
                    totalOrphans := b.2.totalOrphans - 1
                    orphans := alistDel b.2.orphans oh })
              else
                (b.1, { b.2 with
                  orphans := alistSet b.2.orphans oh orphan2 })).1)) := by
      intro b oh hb
      obtain ⟨hT, hS, hI, hM, hR, hN⟩ := hb
      cases ho : alistGet b.2.orphans oh with
      | none =>
        exact ⟨hT, hS, hI, hM, hR, hN⟩
      | some orphan =>
        dsimp only
        have hohash : orphan.hash = oh := hI.2.2.2.2.2.2 _ (alistGet_mem ho)
        have hfh : (Mempool.fillFromTX orphan tx).hash = orphan.hash := rfl
        have hsoh : alistGet s.orphans oh ≠ none := by
          intro hc
          rw [hM oh hc] at ho
          cases ho
        split
        · rename_i hcoins
          refine ⟨hT, hS, ?_, ?_, ?_, ?_⟩
          · obtain ⟨h1, h2, h3, h4, h5, h6, h7⟩ := hI
            refine ⟨h1, h2, h3, h4, ?_, ?_, ?_⟩
            · exact List.Nodup.sublist (alistDel_keys_sublist _ _) h5
            · intro p hp
              exact h6 p (alistDel_subset _ _ _ hp)
            · intro p hp
              exact h7 p (alistDel_subset _ _ _ hp)
          · intro k hk
            by_cases hko : k = oh
            · rw [hko]; exact alistDel_get_self _ _
            · rw [alistDel_get_ne _ _ _ hko]
              exact hM k hk
          · intro o hmem
            cases List.mem_append.mp hmem with
            | inl hold =>
              obtain ⟨hc1, hc2, hc3⟩ := hR o hold
              refine ⟨hc1, ?_, hc3⟩
              by_cases hko : o.hash = oh
              · rw [hko]; exact alistDel_get_self _ _
              · rw [alistDel_get_ne _ _ _ hko]
                exact hc2
            | inr hnew =>
              rw [List.mem_singleton] at hnew
              subst hnew
              refine ⟨hcoins, ?_, ?_⟩
              · rw [hfh, hohash]
                exact alistDel_get_self _ _
              · rw [hfh, hohash]
                exact hsoh
          · rw [List.map_append, List.nodup_append]
            refine ⟨hN, List.nodup_singleton _, ?_⟩
            intro a ha hb2
            simp only [List.map_singleton, List.mem_singleton] at hb2
            obtain ⟨o, hom, hoh⟩ := List.mem_map.mp ha
            obtain ⟨_, hc2, _⟩ := hR o hom
            rw [hb2, hfh, hohash] at hoh
            rw [← hoh] at ho
            rw [hc2] at ho
            cases ho
        · rename_i hncoins
          refine ⟨hT, hS, ?_, ?_, ?_, hN⟩
          · obtain ⟨h1, h2, h3, h4, h5, h6, h7⟩ := hI
            refine ⟨h1, h2, h3, h4, ?_, ?_, ?_⟩
            · rw [alistSet_keys_of_get_some _ _ _ _ ho]
              exact h5
            · intro p hp
              cases alistSet_mem _ _ _ p hp with
              | inl hpe =>
                rw [hpe]
                exact h6 (oh, orphan) (alistGet_mem ho)
              | inr hpm => exact h6 p hpm
            · intro p hp
              cases alistSet_mem _ _ _ p hp with
              | inl hpe =>
                rw [hpe]
                rw [show ((oh, Mempool.fillFromTX orphan tx) : Hash × TX).2.hash =
                  orphan.hash from rfl]
                exact hohash
              | inr hpm => exact h7 p hpm
          · intro k hk
            have hko : ¬ oh = k := by
              intro hc
              rw [← hc] at hk
              rw [hM oh hk] at ho
              cases ho
            rw [alistGet_set_ne _ _ _ _ hko]
            exact hM k hk
          · intro o hmem
            obtain ⟨hc1, hc2, hc3⟩ := hR o hmem
            refine ⟨hc1, ?_, hc3⟩
            have hko : ¬ oh = o.hash := by
              intro hc
              rw [← hc] at hc2
              rw [hc2] at ho
              cases ho
            rw [alistGet_set_ne _ _ _ _ hko]
            exact hc2
    obtain ⟨hT, hS, hI, hM, hR, hN⟩ :=
      foldl_inv _ _ hstep hashes ([], s) hbase
    exact ⟨hT, hS, MemInv_of_frames env rfl rfl rfl hI, hM, hR, hN⟩

end Bcoin

namespace Bcoin

/-- Appending one binding adds its usage. -/
theorem txsMem_append_single (env : Mempool.MEnv)
    (l : List (Hash × Mempool.MempoolEntry)) (k : Hash)
    (e : Mempool.MempoolEntry) :
    txsMem env (l ++ [(k, e)]) = txsMem env l + Mempool.memUsage env e.tx := by
  simp [txsMem]

/-- Inserting a fresh, fully resolved entry via `_addUnchecked` and the
counter updates of `addUnchecked` preserves the invariant. -/
theorem addUnchecked_insert_inv (env : Mempool.MEnv) (s : Mempool.MState)
    (e : Mempool.MempoolEntry) (hInv : MemInv env s)
    (hft : alistGet s.txs e.tx.hash = none)
    (hfo : alistGet s.orphans e.tx.hash = none)
    (hcoins : TX.hasCoins e.tx = true) :
    MemInv env { Mempool._addUnchecked env s e with
      spent := (Mempool._addUnchecked env s e).spent + e.tx.inputs.length
      size := (Mempool._addUnchecked env s e).size + Mempool.memUsage env e.tx
      total := (Mempool._addUnchecked env s e).total + 1 } := by
  have hch := _addUnchecked_char env s e
  rw [Prod.mk.injEq, Prod.mk.injEq] at hch
  obtain ⟨hT, hS, hO⟩ := hch
  have hset : alistSet s.txs e.tx.hash e = s.txs ++ [(e.tx.hash, e)] :=
    alistSet_of_get_none _ _ _ hft
  have hnotmem : e.tx.hash ∉ s.txs.map Prod.fst := by
    intro hc
    obtain ⟨p, hp, hpe⟩ := List.mem_map.mp hc
    obtain ⟨a, b⟩ := p
    dsimp only at hpe
    subst hpe
    rw [alistGet_of_mem_nodup hp hInv.2.1] at hft
    cases hft
  obtain ⟨h1, h2, h3, h4, h5, h6, h7⟩ := hInv
  refine ⟨?_, ?_, ?_, ?_, ?_, ?_, ?_⟩
  · show (Mempool._addUnchecked env s e).size + Mempool.memUsage env e.tx ≤
      txsMem env (Mempool._addUnchecked env s e).txs
    rw [hT, hS, hset, txsMem_append_single]
    omega
  · show ((Mempool._addUnchecked env s e).txs.map Prod.fst).Nodup
    rw [hT, hset, List.map_append, List.nodup_append]
    refine ⟨h2, List.nodup_singleton _, ?_⟩
    intro a ha hb
    simp only [List.map_singleton, List.mem_singleton] at hb
    rw [hb] at ha
    exact hnotmem ha
  · show ∀ p ∈ (Mempool._addUnchecked env s e).txs, _
    rw [hT, hset]
    intro p hp
    cases List.mem_append.mp hp with
    | inl hm => exact h3 p hm
    | inr hm =>
      rw [List.mem_singleton] at hm
      rw [hm]
  · show ∀ p ∈ (Mempool._addUnchecked env s e).txs, _
    rw [hT, hset]
    intro p hp
    cases List.mem_append.mp hp with
    | inl hm => exact h4 p hm
    | inr hm =>
      rw [List.mem_singleton] at hm
      rw [hm]
      exact hcoins
  · show ((Mempool._addUnchecked env s e).orphans.map Prod.fst).Nodup
    rw [hO]
    exact h5
  · show ∀ p ∈ (Mempool._addUnchecked env s e).orphans, _
    rw [hO, hT]
    intro p hp
    obtain ⟨a, b⟩ := p
    have hsome : alistGet s.orphans a = some b := alistGet_of_mem_nodup hp h5
    have hne : ¬ e.tx.hash = a := by
      intro hc
      rw [← hc] at hsome
      rw [hfo] at hsome
      cases hsome
    dsimp only
    rw [alistGet_set_ne _ _ _ _ hne]
    exact h6 (a, b) hp
  · show ∀ p ∈ (Mempool._addUnchecked env s e).orphans, _
    rw [hO]
    exact h7

end Bcoin

namespace Bcoin

/-- The orphan-resolution fold of `addUnchecked` preserves the
invariant, adds only the listed hashes to the transaction map, and only
removes orphans — provided the recursive insertion routine `au` does. -/
theorem addUnchecked_fold_inv (env : Mempool.MEnv)
    (au : Mempool.MState → Mempool.MempoolEntry →
      Mempool.MState × List Mempool.Event)
    (hau : ∀ (s2 : Mempool.MState) (e2 : Mempool.MempoolEntry),
      MemInv env s2 →
      alistGet s2.txs e2.tx.hash = none →
      alistGet s2.orphans e2.tx.hash = none →
      TX.hasCoins e2.tx = true →
      MemInv env (au s2 e2).1 ∧
      (∀ k, alistGet s2.txs k = none → alistGet s2.orphans k = none →
        k ≠ e2.tx.hash → alistGet (au s2 e2).1.txs k = none) ∧
      (∀ k, alistGet s2.orphans k = none →
        alistGet (au s2 e2).1.orphans k = none)) :
    ∀ (l : List TX) (acc : Mempool.MState × List Mempool.Event),
      MemInv env acc.1 →
      (∀ o ∈ l, TX.hasCoins o = true ∧ alistGet acc.1.txs o.hash = none ∧
        alistGet acc.1.orphans o.hash = none) →
      (l.map TX.hash).Nodup →
      MemInv env (l.foldl (fun acc otx =>
        let entry := Mempool.MempoolEntry.fromTX env otx env.ch.height
        let pv := Mempool.verify env acc.1 entry
        match pv.2 with
        | some _ => (pv.1, acc.2 ++ [Mempool.Event.badOrphan otx.hash])
        | none =>
          let r := au pv.1 entry
          (r.1, acc.2 ++ r.2)) acc).1 ∧
      (∀ k, alistGet acc.1.txs k = none → alistGet acc.1.orphans k = none →
        k ∉ l.map TX.hash →
        alistGet (l.foldl (fun acc otx =>
          let entry := Mempool.MempoolEntry.fromTX env otx env.ch.height
          let pv := Mempool.verify env acc.1 entry
          match pv.2 with
          | some _ => (pv.1, acc.2 ++ [Mempool.Event.badOrphan otx.hash])
          | none =>
            let r := au pv.1 entry
            (r.1, acc.2 ++ r.2)) acc).1.txs k = none) ∧
      (∀ k, alistGet acc.1.orphans k = none →
        alistGet (l.foldl (fun acc otx =>
          let entry := Mempool.MempoolEntry.fromTX env otx env.ch.height
          let pv := Mempool.verify env acc.1 entry
          match pv.2 with
          | some _ => (pv.1, acc.2 ++ [Mempool.Event.badOrphan otx.hash])
          | none =>
            let r := au pv.1 entry
            (r.1, acc.2 ++ r.2)) acc).1.orphans k = none) := by
  intro l
  induction l with
  | nil =>
    intro acc hInv _ _
    exact ⟨hInv, fun k hk _ _ => hk, fun k hk => hk⟩
  | cons a t ih =>
    intro acc hInv hl hnd
    rw [List.foldl_cons]
    obtain ⟨ha1, ha2, ha3⟩ := hl a (List.mem_cons_self a t)
    have hvf := verify_txs env acc.1 (Mempool.MempoolEntry.fromTX env a env.ch.height)
    have hvs := verify_size env acc.1 (Mempool.MempoolEntry.fromTX env a env.ch.height)
    have hvo := verify_orphans env acc.1 (Mempool.MempoolEntry.fromTX env a env.ch.height)
    have hInvv : MemInv env
        (Mempool.verify env acc.1 (Mempool.MempoolEntry.fromTX env a env.ch.height)).1 :=
      MemInv_of_frames env hvf hvo hvs hInv
    rw [List.map_cons, List.nodup_cons] at hnd
    cases hv : (Mempool.verify env acc.1
        (Mempool.MempoolEntry.fromTX env a env.ch.height)).2 with
    | some err =>
      simp only [hv]
      have hrec := ih ((Mempool.verify env acc.1
          (Mempool.MempoolEntry.fromTX env a env.ch.height)).1,
          acc.2 ++ [Mempool.Event.badOrphan a.hash])
        hInvv
        (fun o ho => by
          obtain ⟨hc1, hc2, hc3⟩ := hl o (List.mem_cons_of_mem a ho)
          exact ⟨hc1, by rw [hvf]; exact hc2, by rw [hvo]; exact hc3⟩)
        hnd.2
      obtain ⟨hI2, hN2, hS2⟩ := hrec
      refine ⟨hI2, ?_, ?_⟩
      · intro k hk1 hk2 hkn
        rw [List.map_cons, List.mem_cons] at hkn
        push_neg at hkn
        exact hN2 k (by rw [hvf]; exact hk1) (by rw [hvo]; exact hk2) hkn.2
      · intro k hk
        exact hS2 k (by rw [hvo]; exact hk)
    | none =>
      simp only [hv]
      have hins := hau (Mempool.verify env acc.1
          (Mempool.MempoolEntry.fromTX env a env.ch.height)).1
        (Mempool.MempoolEntry.fromTX env a env.ch.height)
        hInvv
        (by rw [hvf]; exact ha2)
        (by rw [hvo]; exact ha3)
        ha1
      obtain ⟨hIr, hNr, hSr⟩ := hins
      have hrec := ih ((au (Mempool.verify env acc.1
            (Mempool.MempoolEntry.fromTX env a env.ch.height)).1
            (Mempool.MempoolEntry.fromTX env a env.ch.height)).1,
          acc.2 ++ (au (Mempool.verify env acc.1
            (Mempool.MempoolEntry.fromTX env a env.ch.height)).1
            (Mempool.MempoolEntry.fromTX env a env.ch.height)).2)
        hIr
        (fun o ho => by
          obtain ⟨hc1, hc2, hc3⟩ := hl o (List.mem_cons_of_mem a ho)
          refine ⟨hc1, ?_, ?_⟩
          · refine hNr o.hash (by rw [hvf]; exact hc2)
              (by rw [hvo]; exact hc3) ?_
            intro hc
            exact hnd.1 (hc ▸ List.mem_map.mpr ⟨o, ho, rfl⟩)
          · exact hSr o.hash (by rw [hvo]; exact hc3))
        hnd.2
      obtain ⟨hI2, hN2, hS2⟩ := hrec
      refine ⟨hI2, ?_, ?_⟩
      · intro k hk1 hk2 hkn
        rw [List.map_cons, List.mem_cons] at hkn
        push_neg at hkn
        refine hN2 k ?_ ?_ hkn.2
        · exact hNr k (by rw [hvf]; exact hk1) (by rw [hvo]; exact hk2) hkn.1
        · exact hSr k (by rw [hvo]; exact hk2)
      · intro k hk
        exact hS2 k (hSr k (by rw [hvo]; exact hk))

end Bcoin

namespace Bcoin

/-- `addUnchecked` (with its recursive orphan resolution) preserves the
invariant when handed a fresh, fully resolved entry; the new
transaction keys all come from the entry or from stored orphans, and
orphan keys only disappear. -/
theorem addUnchecked_inv (env : Mempool.MEnv) :
    ∀ (fuel : Nat) (s : Mempool.MState) (e : Mempool.MempoolEntry),
      MemInv env s →
      alistGet s.txs e.tx.hash = none →
      alistGet s.orphans e.tx.hash = none →
      TX.hasCoins e.tx = true →
      MemInv env (Mempool.addUnchecked env fuel s e).1 ∧
      (∀ k, alistGet s.txs k = none → alistGet s.orphans k = none →
        k ≠ e.tx.hash →
        alistGet (Mempool.addUnchecked env fuel s e).1.txs k = none) ∧
      (∀ k, alistGet s.orphans k = none →
        alistGet (Mempool.addUnchecked env fuel s e).1.orphans k = none) := by
  intro fuel
  induction fuel with
  | zero =>
    intro s e hInv hft hfo hco
    exact ⟨hInv, fun k hk _ _ => hk, fun k hk => hk⟩
  | succ n ihn =>
    intro s e hInv hft hfo hco
    rw [Mempool.addUnchecked]
    dsimp only
    have hch := _addUnchecked_char env s e
    rw [Prod.mk.injEq, Prod.mk.injEq] at hch
    have hInv2 := addUnchecked_insert_inv env s e hInv hft hfo hco
    have hT2 : ({ Mempool._addUnchecked env s e with
        spent := (Mempool._addUnchecked env s e).spent + e.tx.inputs.length
        size := (Mempool._addUnchecked env s e).size + Mempool.memUsage env e.tx
        total := (Mempool._addUnchecked env s e).total + 1 } :
        Mempool.MState).txs = alistSet s.txs e.tx.hash e := hch.1
    have hO2 : ({ Mempool._addUnchecked env s e with
        spent := (Mempool._addUnchecked env s e).spent + e.tx.inputs.length
        size := (Mempool._addUnchecked env s e).size + Mempool.memUsage env e.tx
        total := (Mempool._addUnchecked env s e).total + 1 } :
        Mempool.MState).orphans = s.orphans := hch.2.2
    obtain ⟨rT, rS, rI, rM, rR, rN⟩ :=
      resolveOrphans_spec env ({ Mempool._addUnchecked env s e with
        spent := (Mempool._addUnchecked env s e).spent + e.tx.inputs.length
        size := (Mempool._addUnchecked env s e).size + Mempool.memUsage env e.tx
        total := (Mempool._addUnchecked env s e).total + 1 }) e.tx hInv2
    have hfold := addUnchecked_fold_inv env (Mempool.addUnchecked env n)
      (fun s2 e2 h1 h2 h3 h4 => ihn s2 e2 h1 h2 h3 h4)
      (Mempool.resolveOrphans ({ Mempool._addUnchecked env s e with
        spent := (Mempool._addUnchecked env s e).spent + e.tx.inputs.length
        size := (Mempool._addUnchecked env s e).size + Mempool.memUsage env e.tx
        total := (Mempool._addUnchecked env s e).total + 1 }) e.tx).1
      ((Mempool.resolveOrphans ({ Mempool._addUnchecked env s e with
        spent := (Mempool._addUnchecked env s e).spent + e.tx.inputs.length
        size := (Mempool._addUnchecked env s e).size + Mempool.memUsage env e.tx
        total := (Mempool._addUnchecked env s e).total + 1 }) e.tx).2,
        [Mempool.Event.tx e.tx.hash, Mempool.Event.addTx e.tx.hash])
      rI
      (fun o ho => by
        refine ⟨(rR o ho).1, ?_, (rR o ho).2.1⟩
        rw [rT, hT2]
        cases hlo : alistGet ({ Mempool._addUnchecked env s e with
            spent := (Mempool._addUnchecked env s e).spent + e.tx.inputs.length
            size := (Mempool._addUnchecked env s e).size +
              Mempool.memUsage env e.tx
            total := (Mempool._addUnchecked env s e).total + 1 } :
            Mempool.MState).orphans o.hash with
        | none => exact absurd hlo (rR o ho).2.2
        | some v =>
          have hmem := alistGet_mem hlo
          have := hInv2.2.2.2.2.2.1 _ hmem
          rw [hT2] at this
          exact this)
      rN
    obtain ⟨fI, fN, fS⟩ := hfold
    refine ⟨fI, ?_, ?_⟩
    · intro k hk1 hk2 hkne
      refine fN k ?_ ?_ ?_
      · rw [rT, hT2]
        rw [alistGet_set_ne _ _ _ _ (fun hc => hkne hc.symm)]
        exact hk1
      · refine rM k ?_
        rw [hO2]
        exact hk2
      · intro hc
        obtain ⟨o, ho, hoh⟩ := List.mem_map.mp hc
        have hne := (rR o ho).2.2
        rw [hO2, hoh, hk2] at hne
        exact hne rfl
    · intro k hk
      refine fS k (rM k ?_)
      rw [hO2]
      exact hk

end Bcoin

namespace Bcoin

/-- A transaction absent from the pool has no stored entry and no
orphan slot. -/
theorem has_false_lookups (s : Mempool.MState) (h : Hash)
    (hh : ¬ Mempool.has s h = true) :
    alistGet s.txs h = none ∧ alistGet s.orphans h = none := by
  unfold Mempool.has Mempool.hasTX Mempool.hasOrphan at hh
  rw [Bool.or_eq_true] at hh
  push_neg at hh
  constructor
  · cases ht : alistGet s.txs h with
    | none => rfl
    | some v => exact absurd (by rw [ht]; rfl) hh.2
  · cases ht : alistGet s.orphans h with
    | none => rfl
    | some v => exact absurd (by rw [ht]; rfl) hh.1

set_option maxHeartbeats 4000000 in
/-- C7: after every completed `Mempool.addTX` call — including any
eviction it triggers via `limitMempoolSize` — the mempool's running
memory-usage estimate satisfies `size ≤ maxSize`.  The hypotheses are
the state invariant maintained by the add/remove cycle and the bound
itself holding before the call (the claim is an invariant: rejection
paths leave the state untouched, the orphan path stores no entry, and
the success path ends in `limitMempoolSize`, which evicts until the
bound holds — or empties the pool entirely, where the accounting
invariant forces `size = 0`). -/
theorem c7_addTX_size_bound (env : Mempool.MEnv) (s : Mempool.MState) (tx : TX)
    (hInv : MemInv env s) (hsz : s.size ≤ env.cfg.maxSize) :
    (Mempool.addTX env s tx).1.size ≤ env.cfg.maxSize := by
  unfold Mempool.addTX
  split
  · exact hsz
  split
  · exact hsz
  split
  · exact hsz
  split
  · exact hsz
  split
  · exact hsz
  split
  · exact hsz
  split
  · exact hsz
  split
  · exact hsz
  split
  · exact hsz
  split
  · exact hsz
  rename_i hts hsane hcb hv2 hwit hstd hfin hhas hch hds
  dsimp only
  split
  · -- orphan path: storeOrphan leaves the size unchanged
    rename_i hnc
    have hso := storeOrphan_char env s (Mempool.fillAllCoins env s tx)
    rw [Prod.mk.injEq] at hso
    show (Mempool.storeOrphan env s (Mempool.fillAllCoins env s tx)).1.size ≤
      env.cfg.maxSize
    rw [hso.2]
    exact hsz
  rename_i hnc
  have hc2 : TX.hasCoins (Mempool.fillAllCoins env s tx) = true := by
    cases hb : TX.hasCoins (Mempool.fillAllCoins env s tx) with
    | true => rfl
    | false => exact absurd (by rw [hb]; rfl) hnc
  have hlook := has_false_lookups s tx.hash hhas
  have hvf := verify_txs env s (Mempool.MempoolEntry.fromTX env
    (Mempool.fillAllCoins env s tx) env.ch.height)
  have hvs := verify_size env s (Mempool.MempoolEntry.fromTX env
    (Mempool.fillAllCoins env s tx) env.ch.height)
  have hvo := verify_orphans env s (Mempool.MempoolEntry.fromTX env
    (Mempool.fillAllCoins env s tx) env.ch.height)
  split
  · -- verify error: state only changes in the rate-limiter fields
    show (Mempool.verify env s (Mempool.MempoolEntry.fromTX env
      (Mempool.fillAllCoins env s tx) env.ch.height)).1.size ≤ env.cfg.maxSize
    rw [hvs]
    exact hsz
  -- success path
  have hInvv : MemInv env (Mempool.verify env s
      (Mempool.MempoolEntry.fromTX env (Mempool.fillAllCoins env s tx)
        env.ch.height)).1 :=
    MemInv_of_frames env hvf hvo hvs hInv
  have hins := addUnchecked_inv env
    ((Mempool.verify env s (Mempool.MempoolEntry.fromTX env
        (Mempool.fillAllCoins env s tx) env.ch.height)).1.totalOrphans + 1)
    (Mempool.verify env s (Mempool.MempoolEntry.fromTX env
      (Mempool.fillAllCoins env s tx) env.ch.height)).1
    (Mempool.MempoolEntry.fromTX env (Mempool.fillAllCoins env s tx)
      env.ch.height)
    hInvv
    (by
      rw [show (Mempool.MempoolEntry.fromTX env (Mempool.fillAllCoins env s tx)
        env.ch.height).tx = Mempool.fillAllCoins env s tx from rfl]
      rw [hvf, fillAllCoins_hash env s tx]
      exact hlook.1)
    (by
      rw [show (Mempool.MempoolEntry.fromTX env (Mempool.fillAllCoins env s tx)
        env.ch.height).tx = Mempool.fillAllCoins env s tx from rfl]
      rw [hvo, fillAllCoins_hash env s tx]
      exact hlook.2)
    hc2
  have hbound := limitMempoolSize_bound env
    (Mempool.addUnchecked env
      ((Mempool.verify env s (Mempool.MempoolEntry.fromTX env
          (Mempool.fillAllCoins env s tx) env.ch.height)).1.totalOrphans + 1)
      (Mempool.verify env s (Mempool.MempoolEntry.fromTX env
        (Mempool.fillAllCoins env s tx) env.ch.height)).1
      (Mempool.MempoolEntry.fromTX env (Mempool.fillAllCoins env s tx)
        env.ch.height)).1
    tx.hash hins.1
  split
  · exact hbound
  · exact hbound

end Bcoin

namespace Bcoin

/-- C7 witness: the bound holds concretely for a fresh spender admitted
into the empty pool under the permissive environment. -/
theorem c7_addTX_size_bound_witness :
    MemInv env0 mstate0 ∧
    (Mempool.addTX env0 mstate0 (mkSpend 11 (800, 0))).1.size ≤
      env0.cfg.maxSize :=
  ⟨by decide,
   c7_addTX_size_bound env0 mstate0 (mkSpend 11 (800, 0)) (by decide) (by decide)⟩

end Bcoin

namespace Bcoin

/-! ## ChainDB lemmas (towards C1): keys and slot well-formedness -/

/-- A key among the keys has a lookup. -/
theorem alistGet_isSome_of_mem {κ α : Type} [DecidableEq κ] :
    ∀ {l : List (κ × α)} {k : κ}, k ∈ l.map Prod.fst → (alistGet l k).isSome := by
  intro l
  induction l with
  | nil => intro k h; simp at h
  | cons p t ih =>
    intro k h
    obtain ⟨k2, v2⟩ := p
    simp only [alistGet]
    by_cases hk : k2 = k
    · rw [if_pos hk]; rfl
    · rw [if_neg hk]
      rw [List.map_cons, List.mem_cons] at h
      cases h with
      | inl h => exact absurd h.symm hk
      | inr h => exact ih h

/-- Setting keeps duplicate-free keys. -/
theorem alistSet_nodup {κ α : Type} [DecidableEq κ]
    (l : List (κ × α)) (k : κ) (v : α) (h : (l.map Prod.fst).Nodup) :
    ((alistSet l k v).map Prod.fst).Nodup := by
  cases hg : alistGet l k with
  | some v0 => rw [alistSet_keys_of_get_some l k v v0 hg]; exact h
  | none =>
    rw [alistSet_of_get_none l k v hg, List.map_append]
    rw [List.nodup_append]
    refine ⟨h, by simp, ?_⟩
    intro a ha hb
    simp only [List.map_cons, List.map_nil, List.mem_singleton] at hb
    subst hb
    have h2 := alistGet_isSome_of_mem ha
    rw [hg] at h2
    cases h2

/-- A key present after a set is the set key or an old key. -/
theorem alistSet_keys_mem {κ α : Type} [DecidableEq κ]
    (l : List (κ × α)) (k : κ) (v : α) {h : κ}
    (hm : h ∈ (alistSet l k v).map Prod.fst) : h = k ∨ h ∈ l.map Prod.fst := by
  obtain ⟨p, hp, hph⟩ := List.mem_map.mp hm
  cases alistSet_mem l k v p hp with
  | inl he =>
    subst he
    exact Or.inl hph.symm
  | inr hmem => exact Or.inr (hph ▸ List.mem_map.mpr ⟨p, hmem, rfl⟩)

/-- The script and value a deferred slice decodes to do not depend on
the probe bundle or index. -/
theorem toCoinDecode_indep {cs : Coins} {i : Nat} {raw : List Nat} {co : Coin}
    (h : toCoinDecode cs i raw = some co) (cs2 : Coins) (i2 : Nat) :
    toCoinDecode cs2 i2 raw =
      some ⟨cs2.version, cs2.height, cs2.coinbase, cs2.hash, i2,
        co.script, co.value⟩ := by
  cases raw with
  | nil => simp [toCoinDecode] at h
  | cons b r1 =>
    simp only [toCoinDecode] at h
    by_cases h0 : b % 4 = 0
    · rw [if_pos h0] at h
      split at h
      · cases h
      · rename_i c1 len r2 hv
        split at h
        · cases h
        · rename_i sc r3 hb
          split at h
          · cases h
          · rename_i c2 v r4 hv2
            cases h
            simp [toCoinDecode, h0, hv, hb, hv2]
    · rw [if_neg h0] at h
      by_cases h1 : b % 4 = 1
      · rw [if_pos h1] at h
        split at h
        · cases h
        · rename_i h20 r2 hb
          split at h
          · cases h
          · rename_i c2 v r3 hv2
            cases h
            simp [toCoinDecode, h0, h1, hb, hv2]
      · rw [if_neg h1] at h
        by_cases h2 : b % 4 = 2
        · rw [if_pos h2] at h
          split at h
          · cases h
          · rename_i h20 r2 hb
            split at h
            · cases h
            · rename_i c2 v r3 hv2
              cases h
              simp [toCoinDecode, h0, h1, h2, hb, hv2]
        · rw [if_neg h2] at h
          cases h

/-- Decoding the compressed entry of a well-formed coin yields bounded
value and script. -/
theorem toCoinDecode_serializeEntry_bound {co : Coin} (hwf : wfCoin co)
    {cs : Coins} {i : Nat} {co2 : Coin}
    (h : toCoinDecode cs i (serializeEntry co) = some co2) :
    co2.value < 2 ^ 64 ∧ co2.script.length < 2 ^ 64 := by
  obtain ⟨hv, hl⟩ := hwf
  have hw : readVarint (writeVarint co.value) =
      some (writeVarint co.value, co.value, []) := by
    have h2 := readVarint_write hv []
    rwa [List.append_nil] at h2
  unfold serializeEntry at h
  split_ifs at h with hp hs
  · obtain ⟨_, hlen⟩ := isPubkeyhash_spec hp
    simp [toCoinDecode, readBytesN_append (writeVarint co.value) hlen, hw] at h
    rw [← h]
    refine ⟨hv, ?_⟩
    simp [fromPubkeyhash, hlen]
  · obtain ⟨_, hlen⟩ := isScripthash_spec hs
    simp [toCoinDecode, readBytesN_append (writeVarint co.value) hlen, hw] at h
    rw [← h]
    refine ⟨hv, ?_⟩
    simp [fromScripthash, hlen]
  · simp [toCoinDecode, readVarint_write hl (co.script ++ writeVarint co.value),
      readBytesN_append (writeVarint co.value) rfl, hw] at h
    rw [← h]
    exact ⟨hv, hl⟩

/-- Deferredifying a well-formed view slot yields a well-formed view
slot. -/
theorem wfOutputU_deferredify {o : CoinsOutput} (h : wfOutputU o) :
    wfOutputU (deferredifyOutput o) := by
  cases o with
  | null => trivial
  | coin c =>
    obtain ⟨h1, h2, h3, h4⟩ := h
    show parseCoinEntry _ = _ ∧ _
    constructor
    · have h5 := parseCoinEntry_serializeEntry (⟨h3, h4⟩ : wfCoin c) []
      rwa [List.append_nil] at h5
    · intro co hco
      exact toCoinDecode_serializeEntry_bound ⟨h3, h4⟩ hco
  | deferred raw => exact h

/-- View well-formedness of a slot implies serialization
well-formedness. -/
theorem wfOutput_of_wfOutputU {o : CoinsOutput} (h : wfOutputU o) : wfOutput o := by
  cases o with
  | null => trivial
  | coin c => exact h.2.2
  | deferred raw => exact h.1

/-- A bundle with bounded header and well-formed view slots is
serialization well-formed. -/
theorem wfCoins_of_parts {c : Coins} (hv : c.version < 2 ^ 64) (hh : heightOk c.height)
    (ho : ∀ o ∈ c.outputs, wfOutputU o) : wfCoins c :=
  ⟨hv, hh, fun o hm => wfOutput_of_wfOutputU (ho o hm)⟩

end Bcoin

namespace Bcoin

/-! ## ChainDB lemmas (towards C1): bundle and view operations -/

/-- A coin read from a bundle with bounded header and well-formed view
slots is a well-formed undo coin. -/
theorem Coins_get_wfU {cs : Coins} {i : Nat} {co : Coin}
    (hv : cs.version < 2 ^ 64) (hh : heightOk cs.height)
    (ho : ∀ o ∈ cs.outputs, wfOutputU o)
    (h : Coins.get cs i = some co) : wfUndoCoin co := by
  unfold Coins.get at h
  split at h
  · cases h
  · cases h
  · rename_i co2 hgi
    cases h
    exact ho _ (List.get?_mem hgi)
  · rename_i raw hgi
    obtain ⟨hparse, hbound⟩ := ho _ (List.get?_mem hgi)
    have hind := toCoinDecode_indep h (⟨1, 0, -1, true, []⟩ : Coins) 0
    obtain ⟨hv2, hs2⟩ := hbound _ hind
    have hco := toCoinDecode_indep h cs i
    rw [h] at hco
    have hco2 := Option.some.inj hco
    rw [hco2]
    exact ⟨hv, hh, hv2, hs2⟩

/-- Header fields of `Coins.add`: adopted from the coin exactly when
the bundle was empty. -/
theorem Coins_add_header (unsp : Script → Bool) (c : Coins) (coin : Coin) :
    ((Coins.add unsp c coin).version =
        if c.outputs.length = 0 then coin.version else c.version) ∧
    ((Coins.add unsp c coin).height =
        if c.outputs.length = 0 then coin.height else c.height) ∧
    ((Coins.add unsp c coin).hash =
        if c.outputs.length = 0 then coin.hash else c.hash) := by
  unfold Coins.add
  split_ifs <;> exact ⟨rfl, rfl, rfl⟩

/-- Membership in the null-padded output list of `Coins.add`. -/
theorem pad_mem {l : List CoinsOutput} {o : CoinsOutput} {n : Nat}
    (h : o ∈ (if l.length ≤ n then
      l ++ List.replicate (n + 1 - l.length) CoinsOutput.null else l)) :
    o ∈ l ∨ o = CoinsOutput.null := by
  split at h
  · rcases List.mem_append.mp h with hm | hm
    · exact Or.inl hm
    · exact Or.inr (List.eq_of_mem_replicate hm)
  · exact Or.inl h

/-- Every slot of `Coins.add` is an old slot, a null, or the added
coin. -/
theorem Coins_add_mem (unsp : Script → Bool) (c : Coins) (coin : Coin) :
    ∀ o ∈ (Coins.add unsp c coin).outputs,
      o ∈ c.outputs ∨ o = CoinsOutput.null ∨ o = CoinsOutput.coin coin := by
  unfold Coins.add
  intro o hmo
  split_ifs at hmo
  all_goals
    rcases List.mem_or_eq_of_mem_set hmo with hm2 | he
  all_goals
    first
    | exact Or.inr (Or.inl he)
    | exact Or.inr (Or.inr he)
    | (rcases pad_mem hm2 with hm3 | he3
       · exact Or.inl hm3
       · exact Or.inr (Or.inl he3))

/-- Header bounds and slot well-formedness of `Coins.fromTX`. -/
theorem fromTX_parts (unsp : Script → Bool) {tx : TX} (h : okTX tx) :
    (Coins.fromTX unsp tx).version < 2 ^ 64 ∧
    heightOk (Coins.fromTX unsp tx).height ∧
    (∀ o ∈ (Coins.fromTX unsp tx).outputs, wfOutputU o) := by
  obtain ⟨hv, hh, houts⟩ := h
  refine ⟨hv, hh, ?_⟩
  intro o hmo
  simp only [Coins.fromTX] at hmo
  obtain ⟨p, hp, he⟩ := List.mem_map.mp hmo
  subst he
  by_cases hu : unsp p.2.script = true
  · rw [if_pos hu]; trivial
  · rw [if_neg hu]
    obtain ⟨hval, hsl⟩ := houts _ (List.snd_mem_of_mem_enum hp)
    exact ⟨hv, hh, hval, hsl⟩

/-- `CoinView.add` preserves the view invariant for a well-formed
bundle; keys only gain the bundle's hash. -/
theorem ViewWf_add {v : CoinView} {c : Coins} (hwf : ViewWf v)
    (hv : c.version < 2 ^ 64) (hh : heightOk c.height)
    (ho : ∀ o ∈ c.outputs, wfOutputU o) :
    ViewWf (CoinView.add v c) ∧
    ∀ h2, h2 ∈ (CoinView.add v c).coins.map Prod.fst →
      h2 = c.hash ∨ h2 ∈ v.coins.map Prod.fst := by
  obtain ⟨hnd, hent⟩ := hwf
  refine ⟨⟨alistSet_nodup _ _ _ hnd, ?_⟩, ?_⟩
  · intro p hp
    cases alistSet_mem _ _ _ _ hp with
    | inl he => subst he; exact ⟨rfl, hv, hh, ho⟩
    | inr hm => exact hent p hm
  · intro h2 hm2
    exact alistSet_keys_mem _ _ _ hm2

/-- `CoinView.addTX` preserves the view invariant; keys only gain the
transaction's hash. -/
theorem ViewWf_addTX (unsp : Script → Bool) {v : CoinView} {tx : TX}
    (hwf : ViewWf v) (h : okTX tx) :
    ViewWf (CoinView.addTX unsp v tx) ∧
    ∀ h2, h2 ∈ (CoinView.addTX unsp v tx).coins.map Prod.fst →
      h2 = tx.hash ∨ h2 ∈ v.coins.map Prod.fst := by
  obtain ⟨hv, hh, ho⟩ := fromTX_parts unsp h
  exact ViewWf_add hwf hv hh ho

/-- `CoinView.addCoin` preserves the view invariant for a well-formed
coin; keys only gain the coin's hash. -/
theorem ViewWf_addCoin (unsp : Script → Bool) {v : CoinView} {co : Coin}
    (hwf : ViewWf v) (hco : wfUndoCoin co) :
    ViewWf (CoinView.addCoin unsp v co) ∧
    ∀ h2, h2 ∈ (CoinView.addCoin unsp v co).coins.map Prod.fst →
      h2 = co.hash ∨ h2 ∈ v.coins.map Prod.fst := by
  obtain ⟨hnd, hent⟩ := hwf
  obtain ⟨hcv, hch, hcval, hcs⟩ := hco
  cases hg : alistGet v.coins co.hash with
  | none =>
    have hparts : (⟨1, 0, -1, true, []⟩ : Coins).version < 2 ^ 64 ∧
        heightOk (⟨1, 0, -1, true, []⟩ : Coins).height ∧
        (∀ o ∈ (⟨1, 0, -1, true, []⟩ : Coins).outputs, wfOutputU o) ∧
        ((⟨1, 0, -1, true, []⟩ : Coins).outputs.length = 0 ∨
          (⟨1, 0, -1, true, []⟩ : Coins).hash = co.hash) := by
      refine ⟨by norm_num, Or.inl rfl, ?_, Or.inl rfl⟩
      intro o hmo
      cases hmo
    obtain ⟨hbv, hbh, hbo, hbk⟩ := hparts
    simp only [CoinView.addCoin, hg]
    refine ⟨⟨alistSet_nodup _ _ _ hnd, ?_⟩, ?_⟩
    · intro p hp
      cases alistSet_mem _ _ _ _ hp with
      | inl he =>
        subst he
        obtain ⟨hev, heh, hek⟩ := Coins_add_header unsp ⟨1, 0, -1, true, []⟩ co
        refine ⟨?_, ?_, ?_, ?_⟩
        · rw [hek]; simp
        · rw [hev]
          split_ifs <;> assumption
        · rw [heh]
          split_ifs <;> assumption
        · intro o hmo
          rcases Coins_add_mem unsp _ co o hmo with hm2 | he2 | he2
          · exact hbo _ hm2
          · subst he2; trivial
          · subst he2; exact ⟨hcv, hch, hcval, hcs⟩
      | inr hm => exact hent p hm
    · intro h2 hm2
      exact alistSet_keys_mem _ _ _ hm2
  | some cs0 =>
    obtain ⟨hk, hv0, hh0, ho0⟩ := hent _ (alistGet_mem hg)
    simp only [CoinView.addCoin, hg]
    refine ⟨⟨alistSet_nodup _ _ _ hnd, ?_⟩, ?_⟩
    · intro p hp
      cases alistSet_mem _ _ _ _ hp with
      | inl he =>
        subst he
        obtain ⟨hev, heh, hek⟩ := Coins_add_header unsp cs0 co
        refine ⟨?_, ?_, ?_, ?_⟩
        · rw [hek]
          split_ifs
          · rfl
          · exact hk
        · rw [hev]
          split_ifs <;> assumption
        · rw [heh]
          split_ifs <;> assumption
        · intro o hmo
          rcases Coins_add_mem unsp cs0 co o hmo with hm2 | he2 | he2
          · exact ho0 _ hm2
          · subst he2; trivial
          · subst he2; exact ⟨hcv, hch, hcval, hcs⟩
      | inr hm => exact hent p hm
    · intro h2 hm2
      exact alistSet_keys_mem _ _ _ hm2

/-- `CoinView.spend` preserves the view invariant and the key list. -/
theorem ViewWf_spend (h : Hash) (i : Nat) {v : CoinView} (hwf : ViewWf v) :
    ViewWf (CoinView.spend v h i).2 ∧
    (CoinView.spend v h i).2.coins.map Prod.fst = v.coins.map Prod.fst := by
  obtain ⟨hnd, hent⟩ := hwf
  cases hg : alistGet v.coins h with
  | none =>
    simp only [CoinView.spend, hg]
    exact ⟨⟨hnd, hent⟩, by trivial⟩
  | some cs =>
    obtain ⟨hk, hv0, hh0, ho0⟩ := hent _ (alistGet_mem hg)
    simp only [CoinView.spend, Coins.spend, hg]
    constructor
    · constructor
      · exact alistSet_nodup _ _ _ hnd
      · intro p hp
        cases alistSet_mem _ _ _ _ hp with
        | inl he =>
          subst he
          refine ⟨hk, hv0, hh0, ?_⟩
          intro o hmo
          cases List.mem_or_eq_of_mem_set hmo with
          | inl hm2 => exact ho0 _ hm2
          | inr he2 => subst he2; trivial
        | inr hm => exact hent p hm
    · exact alistSet_keys_of_get_some _ _ _ _ hg

end Bcoin

namespace Bcoin

/-! ## ChainDB lemmas (towards C1): transaction connection -/

/-- A successful fill preserves the view invariant and keys, resolves
every input's prevout among the keys, and attaches well-formed coins
while keeping the input prevouts. -/
theorem fillCoinsGo_conn :
    ∀ (ins : List TXIn) (v : CoinView), (fillCoinsGo v ins).2.2 = true → ViewWf v →
      ViewWf (fillCoinsGo v ins).1 ∧
      (fillCoinsGo v ins).1.coins.map Prod.fst = v.coins.map Prod.fst ∧
      (∀ inp ∈ ins, inp.prevout.1 ∈ v.coins.map Prod.fst) ∧
      (fillCoinsGo v ins).2.1.map (fun i => i.prevout) =
        ins.map (fun i => i.prevout) ∧
      ∀ inp ∈ (fillCoinsGo v ins).2.1, ∃ c, inp.coin = some c ∧ wfUndoCoin c := by
  intro ins
  induction ins with
  | nil =>
    intro v _ hwf
    refine ⟨hwf, rfl, ?_, rfl, ?_⟩
    · intro inp hm; cases hm
    · intro inp hm; cases hm
  | cons inp rest ih =>
    intro v htrue hwf
    simp only [fillCoinsGo] at htrue ⊢
    cases hp1 : (CoinView.spend v inp.prevout.1 inp.prevout.2).1 with
    | none =>
      simp [hp1] at htrue
    | some c =>
      simp only [hp1] at htrue ⊢
      obtain ⟨hwf2, hkeys2⟩ := ViewWf_spend inp.prevout.1 inp.prevout.2 hwf
      obtain ⟨ihwf, ihkeys, ihprev, ihmap, ihcoins⟩ :=
        ih (CoinView.spend v inp.prevout.1 inp.prevout.2).2 htrue hwf2
      have hcwf : wfUndoCoin c ∧ inp.prevout.1 ∈ v.coins.map Prod.fst := by
        unfold CoinView.spend at hp1
        cases hg : alistGet v.coins inp.prevout.1 with
        | none => rw [hg] at hp1; cases hp1
        | some cs =>
          rw [hg] at hp1
          dsimp only [Coins.spend] at hp1
          obtain ⟨hk, hv0, hh0, ho0⟩ := hwf.2 _ (alistGet_mem hg)
          exact ⟨Coins_get_wfU hv0 hh0 ho0 hp1, alistGet_isSome_mem hg⟩
      refine ⟨ihwf, ?_, ?_, ?_, ?_⟩
      · rw [ihkeys, hkeys2]
      · intro inp2 hm
        cases List.mem_cons.mp hm with
        | inl he => subst he; exact hcwf.2
        | inr hm2 =>
          have h3 := ihprev inp2 hm2
          rwa [hkeys2] at h3
      · simp only [List.map_cons]
        rw [ihmap]
      · intro inp2 hm
        cases List.mem_cons.mp hm with
        | inl he => subst he; exact ⟨c, rfl, hcwf.1⟩
        | inr hm2 => exact ihcoins inp2 hm2

/-- Inputs carrying well-formed coins collect into a well-formed undo
segment of the same length. -/
theorem collectCoins_spec :
    ∀ (ins : List TXIn),
      (∀ inp ∈ ins, ∃ c, inp.coin = some c ∧ wfUndoCoin c) →
      ∃ l, collectCoins ins = some l ∧ l.length = ins.length ∧
        ∀ co ∈ l, wfUndoCoin co := by
  intro ins
  induction ins with
  | nil => intro _; exact ⟨[], rfl, rfl, fun co hm => absurd hm (List.not_mem_nil _)⟩
  | cons inp rest ih =>
    intro hall
    obtain ⟨c, hc, hcwf⟩ := hall inp (List.mem_cons_self _ _)
    obtain ⟨l, hl, hlen, hlwf⟩ := ih (fun i hm => hall i (List.mem_cons_of_mem _ hm))
    refine ⟨c :: l, ?_, by simp [hlen], ?_⟩
    · simp only [collectCoins, hc, hl]
    · intro co hm
      cases List.mem_cons.mp hm with
      | inl he => subst he; exact hcwf
      | inr hm2 => exact hlwf co hm2

/-- Replacing the inputs by ones with the same prevouts does not change
`isCoinbase`. -/
theorem isCoinbase_prevouts {tx : TX} {ins2 : List TXIn}
    (h : ins2.map (fun i => i.prevout) = tx.inputs.map (fun i => i.prevout)) :
    ({ tx with inputs := ins2 } : TX).isCoinbase = tx.isCoinbase := by
  unfold TX.isCoinbase
  dsimp only
  cases ins2 with
  | nil =>
    cases htx : tx.inputs with
    | nil => rfl
    | cons a t => rw [htx] at h; cases h
  | cons a2 t2 =>
    cases htx : tx.inputs with
    | nil => rw [htx] at h; cases h
    | cons a t =>
      rw [htx] at h
      simp only [List.map_cons, List.cons.injEq] at h
      obtain ⟨hpv, hrest⟩ := h
      cases t2 with
      | nil =>
        cases t with
        | nil => simp [hpv]
        | cons b u => cases hrest
      | cons b2 u2 =>
        cases t with
        | nil => cases hrest
        | cons b u => rfl

/-- The connection loop, characterized: the view invariant is
preserved, new keys come from the block's transactions, every
non-coinbase prevout resolves among the initial keys or the block's
transactions, and the undo coins collect well-formed with one coin per
non-coinbase input. -/
theorem connectTXs_spec (unsp : Script → Bool) :
    ∀ (txs : List TX) (v v2 : CoinView) (txs2 : List TX),
      connectTXs unsp v txs = some (v2, txs2) → ViewWf v →
      (∀ tx ∈ txs, okTX tx) →
      ViewWf v2 ∧
      (∀ h2, h2 ∈ v2.coins.map Prod.fst →
        h2 ∈ v.coins.map Prod.fst ∨ h2 ∈ txs.map TX.hash) ∧
      (∀ tx ∈ txs, tx.isCoinbase = false → ∀ inp ∈ tx.inputs,
        inp.prevout.1 ∈ v.coins.map Prod.fst ∨ inp.prevout.1 ∈ txs.map TX.hash) ∧
      ∃ u, collectUndo txs2 = some u ∧ (∀ co ∈ u, wfUndoCoin co) ∧
        u.length = (txs.map fun tx =>
          if tx.isCoinbase then 0 else tx.inputs.length).sum := by
  intro txs
  induction txs with
  | nil =>
    intro v v2 txs2 hc hwf _
    simp only [connectTXs] at hc
    cases hc
    refine ⟨hwf, fun h2 hm => Or.inl hm, ?_, [], rfl, ?_, rfl⟩
    · intro tx hm; cases hm
    · intro co hm; cases hm
  | cons tx rest ih =>
    intro v v2 txs2 hc hwf hok
    have hoktx : okTX tx := hok tx (List.mem_cons_self _ _)
    have hokr : ∀ t ∈ rest, okTX t := fun t hm => hok t (List.mem_cons_of_mem _ hm)
    simp only [connectTXs] at hc
    by_cases hcb : tx.isCoinbase = true
    · rw [if_pos hcb] at hc
      obtain ⟨hwfa, hkeysa⟩ := ViewWf_addTX unsp hwf hoktx
      cases hrec : connectTXs unsp (CoinView.addTX unsp v tx) rest with
      | none =>
        try rw [hrec] at hc
        cases hc
      | some p =>
        obtain ⟨v2x, txs2x⟩ := p
        try rw [hrec] at hc
        cases hc
        obtain ⟨ihwf, ihkeys, ihprev, u, hu, huwf, hulen⟩ :=
          ih _ _ _ hrec hwfa hokr
        refine ⟨ihwf, ?_, ?_, u, ?_, huwf, ?_⟩
        · intro h2 hm
          cases ihkeys h2 hm with
          | inl hm2 =>
            cases hkeysa h2 hm2 with
            | inl he => exact Or.inr (by simp [he])
            | inr hm3 => exact Or.inl hm3
          | inr hm2 => exact Or.inr (List.mem_cons_of_mem _ hm2)
        · intro t hm hncb inp hmi
          cases List.mem_cons.mp hm with
          | inl he => subst he; rw [hcb] at hncb; cases hncb
          | inr hm2 =>
            cases ihprev t hm2 hncb inp hmi with
            | inl hm3 =>
              cases hkeysa _ hm3 with
              | inl he => exact Or.inr (by simp [he])
              | inr hm4 => exact Or.inl hm4
            | inr hm3 => exact Or.inr (List.mem_cons_of_mem _ hm3)
        · simp [collectUndo, hcb, hu]
        · rw [hulen]
          simp [hcb]
    · rw [if_neg hcb] at hc
      rw [Bool.not_eq_true] at hcb
      unfold CoinView.fillCoins at hc
      by_cases hfb : (fillCoinsGo v tx.inputs).2.2 = true
      · rw [if_pos hfb] at hc
        obtain ⟨fwf, fkeys, fprev, fmap, fcoins⟩ :=
          fillCoinsGo_conn tx.inputs v hfb hwf
        have hoktx2 : okTX { tx with inputs := (fillCoinsGo v tx.inputs).2.1 } :=
          hoktx
        obtain ⟨hwfa, hkeysa⟩ := ViewWf_addTX unsp fwf hoktx2
        cases hrec : connectTXs unsp
            (CoinView.addTX unsp (fillCoinsGo v tx.inputs).1
              { tx with inputs := (fillCoinsGo v tx.inputs).2.1 }) rest with
        | none =>
          try rw [hrec] at hc
          cases hc
        | some p =>
          obtain ⟨v2x, txs2x⟩ := p
          try rw [hrec] at hc
          cases hc
          obtain ⟨ihwf, ihkeys, ihprev, u, hu, huwf, hulen⟩ :=
            ih _ _ _ hrec hwfa hokr
          refine ⟨ihwf, ?_, ?_, ?_⟩
          · intro h2 hm
            cases ihkeys h2 hm with
            | inl hm2 =>
              cases hkeysa h2 hm2 with
              | inl he => exact Or.inr (by simp [he])
              | inr hm3 =>
                rw [fkeys] at hm3
                exact Or.inl hm3
            | inr hm2 => exact Or.inr (List.mem_cons_of_mem _ hm2)
          · intro t hm hncb inp hmi
            cases List.mem_cons.mp hm with
            | inl he =>
              subst he
              exact Or.inl (fprev inp hmi)
            | inr hm2 =>
              cases ihprev t hm2 hncb inp hmi with
              | inl hm3 =>
                cases hkeysa _ hm3 with
                | inl he => exact Or.inr (by simp [he])
                | inr hm4 =>
                  rw [fkeys] at hm4
                  exact Or.inl hm4
              | inr hm3 => exact Or.inr (List.mem_cons_of_mem _ hm3)
          · obtain ⟨l, hl, hllen, hlwf⟩ := collectCoins_spec _ fcoins
            have hcb2 : ({ tx with inputs := (fillCoinsGo v tx.inputs).2.1 } : TX).isCoinbase
                = false := by
              rw [isCoinbase_prevouts fmap, hcb]
            refine ⟨l ++ u, ?_, ?_, ?_⟩
            · simp [collectUndo, hcb2, hl, hu]
            · intro co hm
              cases List.mem_append.mp hm with
              | inl hm2 => exact hlwf co hm2
              | inr hm2 => exact huwf co hm2
            · simp only [List.length_append, List.map_cons, List.sum_cons, hulen,
                if_neg (by simp [hcb] : ¬tx.isCoinbase = true)]
              rw [hllen]
              have hlen2 : (fillCoinsGo v tx.inputs).2.1.length = tx.inputs.length := by
                have h2 := congrArg List.length fmap
                simpa using h2
              rw [hlen2]
      · rw [if_neg hfb] at hc
        cases hc

end Bcoin

namespace Bcoin

/-! ## ChainDB lemmas (towards C1): loading and saving -/

/-- Header and slots of a loaded (deferredified) bundle. -/
theorem deferredify_parts {c : Coins} (hv : c.version < 2 ^ 64)
    (hh : heightOk c.height) (ho : ∀ o ∈ c.outputs, wfOutputU o) (h2 : Hash) :
    (Coins.deferredify c h2).version < 2 ^ 64 ∧
    heightOk (Coins.deferredify c h2).height ∧
    (∀ o ∈ (Coins.deferredify c h2).outputs, wfOutputU o) ∧
    (Coins.deferredify c h2).hash = h2 := by
  refine ⟨hv, hh, ?_, rfl⟩
  intro o hmo
  simp only [Coins.deferredify] at hmo
  obtain ⟨o2, hm2, he⟩ := List.mem_map.mp hmo
  subst he
  exact wfOutputU_deferredify (ho o2 hm2)

/-- The prevout-loading fold of `getCoinView` always succeeds on a
well-formed database, preserving the view invariant and loading only
stored keys. -/
theorem getCoinView_fold {d : DBState} (hwf : WFdb d) :
    ∀ (ps : List Hash) (v : CoinView), ViewWf v →
      (∀ h2, h2 ∈ v.coins.map Prod.fst → (alistGet d.coins h2).isSome = true) →
      ∃ v0,
        ps.foldl
          (fun acc p =>
            match acc with
            | none => none
            | some v3 =>
              match getCoinsDB d p with
              | none => none
              | some none => some v3
              | some (some cs) => some (CoinView.add v3 cs)) (some v) = some v0 ∧
        ViewWf v0 ∧
        ∀ h2, h2 ∈ v0.coins.map Prod.fst → (alistGet d.coins h2).isSome = true := by
  intro ps
  induction ps with
  | nil => intro v hv hk; exact ⟨v, rfl, hv, hk⟩
  | cons p rest ih =>
    intro v hv hk
    rw [List.foldl_cons]
    cases hg : alistGet d.coins p with
    | none =>
      have hdb : getCoinsDB d p = some none := by simp [getCoinsDB, hg]
      simp only [hdb]
      exact ih v hv hk
    | some raw =>
      obtain ⟨c, hcv, hch, hco, hraw⟩ := hwf.1 p raw hg
      have hfr : Coins.fromRaw raw p = some (Coins.deferredify c p) := by
        rw [hraw]; exact fromRaw_toRaw c (wfCoins_of_parts hcv hch hco) p
      have hdb : getCoinsDB d p = some (some (Coins.deferredify c p)) := by
        simp [getCoinsDB, hg, hfr]
      simp only [hdb]
      obtain ⟨hdv, hdh, hdo, hdk⟩ := deferredify_parts hcv hch hco p
      obtain ⟨haddwf, haddkeys⟩ := ViewWf_add hv hdv hdh hdo
      refine ih _ haddwf ?_
      intro h2 hm
      cases haddkeys h2 hm with
      | inl he =>
        rw [hdk] at he
        subst he
        rw [hg]
        rfl
      | inr hm2 => exact hk h2 hm2

/-- `getCoinView` always succeeds on a well-formed database. -/
theorem getCoinView_spec {d : DBState} (hwf : WFdb d) (b : Block) :
    ∃ v0, getCoinView d b = some v0 ∧ ViewWf v0 ∧
      ∀ h2, h2 ∈ v0.coins.map Prod.fst → (alistGet d.coins h2).isSome = true := by
  unfold getCoinView
  refine getCoinView_fold hwf _ ⟨[]⟩ ⟨by simp, ?_⟩ ?_
  · intro p hp; cases hp
  · intro h2 hm; cases hm

/-- One step of the save loop, characterized pointwise: the processed
bundle is deleted when it has no unspent outputs and written serialized
otherwise; other keys and the undo map are untouched. -/
theorem saveFold_get :
    ∀ (l : List (Hash × Coins)) (d : DBState),
      (l.map Prod.fst).Nodup → (∀ p ∈ l, p.1 = p.2.hash) →
      (l.foldl
        (fun st p =>
          if Coins.count p.2 = 0 then { st with coins := alistDel st.coins p.2.hash }
          else { st with coins := alistSet st.coins p.2.hash (Coins.toRaw p.2) })
        d).undo = d.undo ∧
      ∀ h2, alistGet (l.foldl
        (fun st p =>
          if Coins.count p.2 = 0 then { st with coins := alistDel st.coins p.2.hash }
          else { st with coins := alistSet st.coins p.2.hash (Coins.toRaw p.2) })
        d).coins h2 =
        match alistGet l h2 with
        | some cs => if Coins.count cs = 0 then none else some (Coins.toRaw cs)
        | none => alistGet d.coins h2 := by
  intro l
  induction l with
  | nil => intro d _ _; exact ⟨rfl, fun h2 => rfl⟩
  | cons q t ih =>
    intro d hnd hkey
    obtain ⟨k, cs⟩ := q
    have hk : k = cs.hash := hkey (k, cs) (List.mem_cons_self _ _)
    subst hk
    rw [List.map_cons] at hnd
    have hndt : (t.map Prod.fst).Nodup := (List.nodup_cons.mp hnd).2
    have hknot : cs.hash ∉ t.map Prod.fst := (List.nodup_cons.mp hnd).1
    rw [List.foldl_cons]
    obtain ⟨ihu, ihget⟩ :=
      ih (if Coins.count cs = 0
          then { d with coins := alistDel d.coins cs.hash }
          else { d with coins := alistSet d.coins cs.hash (Coins.toRaw cs) })
        hndt (fun p hp => hkey p (List.mem_cons_of_mem _ hp))
    constructor
    · rw [ihu]
      by_cases hc : Coins.count cs = 0 <;> simp [hc]
    · intro h2
      rw [ihget h2]
      by_cases he : cs.hash = h2
      · subst he
        have hcons : alistGet ((cs.hash, cs) :: t) cs.hash = some cs := by
          simp [alistGet]
        simp only [alistGet_eq_none_of_not_mem hknot, hcons]
        by_cases hc : Coins.count cs = 0
        · rw [if_pos hc, if_pos hc]
          exact alistDel_get_self _ _
        · rw [if_neg hc, if_neg hc]
          exact alistGet_set_self _ _ _
      · have hcons : alistGet ((cs.hash, cs) :: t) h2 = alistGet t h2 := by
          simp [alistGet, he]
        rw [hcons]
        cases hgt : alistGet t h2 with
        | none =>
          simp only [hgt]
          by_cases hc : Coins.count cs = 0
          · rw [if_pos hc]
            exact alistDel_get_ne _ _ _ (fun h3 => he h3.symm)
          · rw [if_neg hc]
            exact alistGet_set_ne _ _ _ _ he
        | some cs2 =>
          simp only [hgt]

end Bcoin

namespace Bcoin

/-! ## ChainDB lemmas (towards C1): the connect step -/

/-- Pointwise description of `saveView` on a well-formed view. -/
theorem saveView_get {v : CoinView} (hwf : ViewWf v) (d : DBState) :
    (saveView d v).undo = d.undo ∧
    ∀ h2, alistGet (saveView d v).coins h2 =
      match alistGet v.coins h2 with
      | some cs => if Coins.count cs = 0 then none else some (Coins.toRaw cs)
      | none => alistGet d.coins h2 := by
  unfold saveView
  exact saveFold_get v.coins d hwf.1 (fun p hp => (hwf.2 p hp).1)

/-- `connectBlock` (non-genesis), characterized: the database stays
well-formed, coins keys only gain the block's transaction hashes,
every non-coinbase prevout was stored or is intra-block, and the undo
map gains exactly the block's record (when any coin was spent). -/
theorem connect_step {unsp : Script → Bool} {d d1 : DBState} {b : Block}
    (hconn : connectBlock unsp false d b = some d1)
    (hwf : WFdb d) (hokb : okBlock b) :
    WFdb d1 ∧
    (∀ h2, (alistGet d1.coins h2).isSome = true →
      (alistGet d.coins h2).isSome = true ∨ h2 ∈ b.txs.map TX.hash) ∧
    (∀ tx ∈ b.txs, tx.isCoinbase = false → ∀ inp ∈ tx.inputs,
      (alistGet d.coins inp.prevout.1).isSome = true ∨
        inp.prevout.1 ∈ b.txs.map TX.hash) ∧
    ∃ u, (∀ co ∈ u, wfUndoCoin co) ∧
      u.length = (b.txs.map fun tx =>
        if tx.isCoinbase then 0 else tx.inputs.length).sum ∧
      d1.undo = (if u.length = 0 then d.undo else alistSet d.undo b.hash u) := by
  unfold connectBlock at hconn
  rw [if_neg (by simp : ¬(false = true))] at hconn
  obtain ⟨v0, hv0, hv0wf, hv0keys⟩ := getCoinView_spec hwf b
  simp only [hv0] at hconn
  cases hct : connectTXs unsp v0 b.txs with
  | none =>
    simp only [hct] at hconn
    cases hconn
  | some p =>
    obtain ⟨v, txs2⟩ := p
    simp only [hct] at hconn
    obtain ⟨hvwf, hkeys, hprev, u, hu, huwf, hulen⟩ :=
      connectTXs_spec unsp b.txs v0 v txs2 hct hv0wf hokb.2
    simp only [hu] at hconn
    have hd1 : d1 = (if u.length = 0 then saveView d v
        else { saveView d v with
          undo := alistSet (saveView d v).undo b.hash u }) := by
      by_cases hul : u.length = 0
      · rw [if_pos hul] at hconn ⊢
        exact (Option.some.inj hconn).symm
      · rw [if_neg hul] at hconn ⊢
        exact (Option.some.inj hconn).symm
    subst hd1
    obtain ⟨hsu, hsget⟩ := saveView_get hvwf d
    have hwf1 : WFdb (if u.length = 0 then saveView d v
        else { saveView d v with undo := alistSet (saveView d v).undo b.hash u }) := by
      have hcoins : ∀ h2 raw,
          alistGet (saveView d v).coins h2 = some raw →
          ∃ c, c.version < 2 ^ 64 ∧ heightOk c.height ∧
            (∀ o ∈ c.outputs, wfOutputU o) ∧ raw = Coins.toRaw c := by
        intro h2 raw hg
        rw [hsget h2] at hg
        cases hgv : alistGet v.coins h2 with
        | some cs =>
          simp only [hgv] at hg
          by_cases hc : Coins.count cs = 0
          · rw [if_pos hc] at hg; cases hg
          · rw [if_neg hc] at hg
            obtain ⟨hk2, hv2, hh2, ho2⟩ := hvwf.2 _ (alistGet_mem hgv)
            exact ⟨cs, hv2, hh2, ho2, (Option.some.inj hg).symm⟩
        | none =>
          simp only [hgv] at hg
          exact hwf.1 h2 raw hg
      have hundo : ∀ h2 l,
          alistGet (alistSet (saveView d v).undo b.hash u) h2 = some l →
          ∀ co ∈ l, wfUndoCoin co := by
        intro h2 l hg
        rw [hsu] at hg
        by_cases he : b.hash = h2
        · subst he
          rw [alistGet_set_self] at hg
          cases hg
          exact huwf
        · rw [alistGet_set_ne _ _ _ _ he] at hg
          exact hwf.2 h2 l hg
      by_cases hul : u.length = 0
      · rw [if_pos hul]
        refine ⟨hcoins, ?_⟩
        intro h2 l hg
        rw [hsu] at hg
        exact hwf.2 h2 l hg
      · rw [if_neg hul]
        exact ⟨hcoins, hundo⟩
    refine ⟨hwf1, ?_, ?_, u, huwf, hulen, ?_⟩
    · intro h2 hg
      have hg2 : (alistGet (saveView d v).coins h2).isSome = true := by
        by_cases hul : u.length = 0
        · rwa [if_pos hul] at hg
        · rwa [if_neg hul] at hg
      rw [hsget h2] at hg2
      cases hgv : alistGet v.coins h2 with
      | some cs =>
        cases hkeys h2 (alistGet_isSome_mem hgv) with
        | inl hm => exact Or.inl (hv0keys h2 hm)
        | inr hm => exact Or.inr hm
      | none =>
        simp only [hgv] at hg2
        exact Or.inl hg2
    · intro tx hm hncb inp hmi
      cases hprev tx hm hncb inp hmi with
      | inl hm2 => exact Or.inl (hv0keys _ hm2)
      | inr hm2 => exact Or.inr hm2
    · by_cases hul : u.length = 0
      · rw [if_pos hul, if_pos hul, hsu]
      · rw [if_neg hul, if_neg hul, hsu]

end Bcoin

namespace Bcoin

/-! ## ChainDB lemmas (towards C1): resurrection and the reverse loop -/

/-- The input walk of `getUndoView` succeeds whenever enough undo coins
remain, keeps the prevouts, fills every input, consumes one coin per
input, and adds only prevout-keyed coins to the view. -/
theorem resurrectIns_spec (unsp : Script → Bool) :
    ∀ (ins : List TXIn) (coins : List Coin) (v : CoinView),
      ins.length ≤ coins.length → ViewWf v →
      (∀ co ∈ coins, wfUndoCoin co) →
      ∃ ins2 coins3 v2, resurrectIns unsp ins coins v = some (ins2, coins3, v2) ∧
        ins2.map (fun i => i.prevout) = ins.map (fun i => i.prevout) ∧
        (∀ i ∈ ins2, i.coin.isSome = true) ∧
        ViewWf v2 ∧
        (∀ h2, h2 ∈ v2.coins.map Prod.fst →
          h2 ∈ v.coins.map Prod.fst ∨ h2 ∈ ins.map (fun i => i.prevout.1)) ∧
        (∀ co ∈ coins3, wfUndoCoin co) ∧
        coins3.length + ins.length = coins.length := by
  intro ins
  induction ins with
  | nil =>
    intro coins v _ hwf hcoins
    refine ⟨[], coins, v, rfl, rfl, ?_, hwf, fun h2 hm => Or.inl hm, hcoins, by simp⟩
    intro i hm; cases hm
  | cons inp rest ih =>
    intro coins v hlen hwf hcoins
    cases coins with
    | nil => simp at hlen
    | cons c coins2 =>
      have hc2wf : wfUndoCoin ({ c with hash := inp.prevout.1, index := inp.prevout.2 } : Coin) :=
        hcoins c (List.mem_cons_self _ _)
      obtain ⟨hwfa, hkeysa⟩ := ViewWf_addCoin unsp hwf hc2wf
      obtain ⟨ins2, coins3, v2, hres, hmap, hfill, hwf2, hkeys2, hco3, hlen3⟩ :=
        ih coins2 (CoinView.addCoin unsp v
          { c with hash := inp.prevout.1, index := inp.prevout.2 })
          (by simpa using Nat.le_of_succ_le_succ hlen) hwfa
          (fun co hm => hcoins co (List.mem_cons_of_mem _ hm))
      refine ⟨{ inp with coin := some { c with hash := inp.prevout.1, index := inp.prevout.2 } } :: ins2,
        coins3, v2, ?_, ?_, ?_, hwf2, ?_, hco3, ?_⟩
      · simp only [resurrectIns, hres]
      · simp only [List.map_cons, hmap]
      · intro i hm
        cases List.mem_cons.mp hm with
        | inl he => subst he; rfl
        | inr hm2 => exact hfill i hm2
      · intro h2 hm
        cases hkeys2 h2 hm with
        | inl hm2 =>
          cases hkeysa h2 hm2 with
          | inl he => exact Or.inr (by simp [he])
          | inr hm3 => exact Or.inl hm3
        | inr hm2 => exact Or.inr (List.mem_cons_of_mem _ hm2)
      · simp only [List.length_cons]
        omega

/-- The transaction walk of `getUndoView` succeeds whenever the undo
record is long enough, keeps everything except the inputs, fills every
non-coinbase input, and adds only prevout-keyed coins to the view. -/
theorem resurrectGo_spec (unsp : Script → Bool) :
    ∀ (txs : List TX) (coins : List Coin) (v : CoinView),
      (txs.map fun tx =>
        if tx.isCoinbase then 0 else tx.inputs.length).sum ≤ coins.length →
      ViewWf v → (∀ co ∈ coins, wfUndoCoin co) →
      ∃ v2 txs2, resurrectGo unsp txs coins v = some (v2, txs2) ∧
        ViewWf v2 ∧
        txs2.map (fun t => ({ t with inputs := [] } : TX)) =
          txs.map (fun t => ({ t with inputs := [] } : TX)) ∧
        (∀ t ∈ txs2, t.isCoinbase = true ∨
          ∀ i ∈ t.inputs, i.coin.isSome = true) ∧
        ∀ h2, h2 ∈ v2.coins.map Prod.fst →
          h2 ∈ v.coins.map Prod.fst ∨
          ∃ t ∈ txs, t.isCoinbase = false ∧
            h2 ∈ t.inputs.map (fun i => i.prevout.1) := by
  intro txs
  induction txs with
  | nil =>
    intro coins v _ hwf _
    refine ⟨v, [], rfl, hwf, rfl, ?_, fun h2 hm => Or.inl hm⟩
    intro t hm; cases hm
  | cons tx rest ih =>
    intro coins v hlen hwf hcoins
    rw [List.map_cons, List.sum_cons] at hlen
    by_cases hcb : tx.isCoinbase = true
    · rw [if_pos hcb] at hlen
      obtain ⟨v2, txs2, hres, hwf2, herase, hfill, hkeys2⟩ :=
        ih coins v (by omega) hwf hcoins
      refine ⟨v2, tx :: txs2, ?_, hwf2, ?_, ?_, ?_⟩
      · simp [resurrectGo, hcb, hres]
      · simp only [List.map_cons, herase]
      · intro t hm
        cases List.mem_cons.mp hm with
        | inl he => subst he; exact Or.inl hcb
        | inr hm2 => exact hfill t hm2
      · intro h2 hm
        cases hkeys2 h2 hm with
        | inl hm2 => exact Or.inl hm2
        | inr hm2 =>
          obtain ⟨t, hmt, hms⟩ := hm2
          exact Or.inr ⟨t, List.mem_cons_of_mem _ hmt, hms⟩
    · rw [if_neg hcb] at hlen
      replace hcb : tx.isCoinbase = false := by simpa using hcb
      obtain ⟨ins2, coins3, v2, hres, hmap, hfillI, hwf2, hkeys2, hco3, hlenI⟩ :=
        resurrectIns_spec unsp tx.inputs coins v (by omega) hwf hcoins
      obtain ⟨v3, txs3, hres3, hwf3, herase3, hfill3, hkeys3⟩ :=
        ih coins3 v2 (by omega) hwf2 hco3
      refine ⟨v3, { tx with inputs := ins2 } :: txs3, ?_, hwf3, ?_, ?_, ?_⟩
      · simp [resurrectGo, hcb, hres, hres3]
      · simp only [List.map_cons, herase3]
      · intro t hm
        cases List.mem_cons.mp hm with
        | inl he =>
          subst he
          exact Or.inr hfillI
        | inr hm2 => exact hfill3 t hm2
      · intro h2 hm
        cases hkeys3 h2 hm with
        | inl hm2 =>
          cases hkeys2 h2 hm2 with
          | inl hm3 => exact Or.inl hm3
          | inr hm3 =>
            exact Or.inr ⟨tx, List.mem_cons_self _ _, hcb, hm3⟩
        | inr hm2 =>
          obtain ⟨t, hmt, hms⟩ := hm2
          exact Or.inr ⟨t, List.mem_cons_of_mem _ hmt, hms⟩

end Bcoin

namespace Bcoin

/-! ## ChainDB lemmas (towards C1): the disconnect reverse loop -/

/-- Spending leaves other bundles untouched. -/
theorem spend_get_frame (v : CoinView) (h : Hash) (i : Nat) {h2 : Hash}
    (hne : h2 ≠ h) :
    alistGet (CoinView.spend v h i).2.coins h2 = alistGet v.coins h2 := by
  cases hg : alistGet v.coins h with
  | none => simp [CoinView.spend, hg]
  | some cs =>
    simp only [CoinView.spend, hg]
    exact alistGet_set_ne _ _ _ _ (fun he => hne he.symm)

/-- The output-spending fold of `disconnectTX` leaves other keys
untouched. -/
theorem spendFold_frame (unsp : Script → Bool) (k : Hash) {h2 : Hash} (hne : h2 ≠ k) :
    ∀ (E : List (Nat × TXOut)) (v : CoinView),
      alistGet (E.foldl (fun vv p =>
        if unsp p.2.script then vv else (CoinView.spend vv k p.1).2) v).coins h2 =
      alistGet v.coins h2 := by
  intro E
  induction E with
  | nil => intro v; rfl
  | cons p rest ih =>
    intro v
    rw [List.foldl_cons, ih]
    by_cases hu : unsp p.2.script = true
    · rw [if_pos hu]
    · rw [if_neg hu]
      exact spend_get_frame v k p.1 hne

/-- `disconnectTX` leaves other keys untouched. -/
theorem disconnectTX_frame (unsp : Script → Bool) (v : CoinView) (tx : TX)
    {h2 : Hash} (hne : h2 ≠ tx.hash) :
    alistGet (disconnectTX unsp v tx).coins h2 = alistGet v.coins h2 := by
  unfold disconnectTX
  rw [spendFold_frame unsp tx.hash hne]
  unfold CoinView.addTX CoinView.add
  exact alistGet_set_ne _ _ _ _ (fun he => hne he.symm)

/-- The output-spending fold preserves the invariant and the keys. -/
theorem spendFold_wf (unsp : Script → Bool) (k : Hash) :
    ∀ (E : List (Nat × TXOut)) (v : CoinView), ViewWf v →
      ViewWf (E.foldl (fun vv p =>
        if unsp p.2.script then vv else (CoinView.spend vv k p.1).2) v) ∧
      (E.foldl (fun vv p =>
        if unsp p.2.script then vv else (CoinView.spend vv k p.1).2) v).coins.map
          Prod.fst = v.coins.map Prod.fst := by
  intro E
  induction E with
  | nil => intro v hwf; exact ⟨hwf, rfl⟩
  | cons p rest ih =>
    intro v hwf
    rw [List.foldl_cons]
    by_cases hu : unsp p.2.script = true
    · rw [if_pos hu]
      exact ih v hwf
    · rw [if_neg hu]
      obtain ⟨hwf2, hkeys2⟩ := ViewWf_spend k p.1 hwf
      obtain ⟨ihwf, ihkeys⟩ := ih _ hwf2
      exact ⟨ihwf, by rw [ihkeys, hkeys2]⟩

/-- If the remaining spends cover every unspent slot of the bundle at
`k`, the fold ends with that bundle fully spent. -/
theorem spendFold_nullify (unsp : Script → Bool) (k : Hash) :
    ∀ (E : List (Nat × TXOut)) (v : CoinView) (cs : Coins),
      alistGet v.coins k = some cs →
      (∀ j, j < cs.outputs.length → ¬cs.outputs.get? j = some CoinsOutput.null →
        ∃ o, (j, o) ∈ E ∧ unsp o.script = false) →
      ∃ cs2, alistGet (E.foldl (fun vv p =>
          if unsp p.2.script then vv else (CoinView.spend vv k p.1).2) v).coins k
          = some cs2 ∧ Coins.count cs2 = 0 := by
  intro E
  induction E with
  | nil =>
    intro v cs hg hcover
    refine ⟨cs, hg, ?_⟩
    have hnull : ∀ o ∈ cs.outputs, o = CoinsOutput.null := by
      intro o hmo
      by_contra hno
      obtain ⟨j, hj⟩ := List.mem_iff_get?.mp hmo
      obtain ⟨hlt, -⟩ := List.get?_eq_some.mp hj
      have hne : ¬cs.outputs.get? j = some CoinsOutput.null := by
        rw [hj]
        intro he
        exact hno (Option.some.inj he)
      obtain ⟨o2, hmo2, -⟩ := hcover j hlt hne
      cases hmo2
    unfold Coins.count
    rw [List.length_eq_zero, List.filter_eq_nil]
    intro o hmo
    rw [hnull o hmo]
    simp
  | cons p rest ih =>
    intro v cs hg hcover
    rw [List.foldl_cons]
    by_cases hu : unsp p.2.script = true
    · rw [if_pos hu]
      refine ih v cs hg ?_
      intro j hj hnn
      obtain ⟨o, hmo, huo⟩ := hcover j hj hnn
      cases List.mem_cons.mp hmo with
      | inl he =>
        subst he
        rw [huo] at hu
        cases hu
      | inr hm2 => exact ⟨o, hm2, huo⟩
    · rw [if_neg hu]
      have hsp : alistGet (CoinView.spend v k p.1).2.coins k =
          some { cs with outputs := cs.outputs.set p.1 CoinsOutput.null } := by
        simp only [CoinView.spend, hg, Coins.spend]
        exact alistGet_set_self _ _ _
      refine ih _ _ hsp ?_
      intro j hj hnn
      have hjlen : j < cs.outputs.length := by simpa using hj
      have hjne : j ≠ p.1 := by
        intro he
        apply hnn
        show (cs.outputs.set p.1 CoinsOutput.null).get? j = some CoinsOutput.null
        rw [he, List.get?_set_eq, List.get?_eq_get (he ▸ hjlen)]
        rfl
      have hnn2 : ¬cs.outputs.get? j = some CoinsOutput.null := by
        intro he
        apply hnn
        show (cs.outputs.set p.1 CoinsOutput.null).get? j = some CoinsOutput.null
        rw [List.get?_set_ne _ _ (fun he2 => hjne he2.symm)]
        exact he
      obtain ⟨o, hmo, huo⟩ := hcover j hjlen hnn2
      cases List.mem_cons.mp hmo with
      | inl he =>
        subst he
        exact absurd rfl hjne
      | inr hm2 => exact ⟨o, hm2, huo⟩

/-- After `disconnectTX`, the transaction's bundle has no unspent
outputs. -/
theorem disconnectTX_self (unsp : Script → Bool) (v : CoinView) (tx : TX) :
    ∃ cs2, alistGet (disconnectTX unsp v tx).coins tx.hash = some cs2 ∧
      Coins.count cs2 = 0 := by
  unfold disconnectTX
  refine spendFold_nullify unsp tx.hash tx.outputs.enum (CoinView.addTX unsp v tx)
    (Coins.fromTX unsp tx) ?_ ?_
  · unfold CoinView.addTX CoinView.add
    exact alistGet_set_self _ _ _
  · intro j hj hnn
    have hjlen : j < tx.outputs.length := by
      simpa [Coins.fromTX] using hj
    have hslot : (Coins.fromTX unsp tx).outputs.get? j =
        some (if unsp (tx.outputs.get ⟨j, hjlen⟩).script then CoinsOutput.null
          else CoinsOutput.coin (Coin.ofOutput tx j (tx.outputs.get ⟨j, hjlen⟩))) := by
      show (tx.outputs.enum.map _).get? j = _
      rw [List.get?_map, List.get?_enum, List.get?_eq_get hjlen]
      rfl
    by_cases hu : unsp (tx.outputs.get ⟨j, hjlen⟩).script = true
    · rw [hslot, if_pos hu] at hnn
      exact absurd rfl hnn
    · refine ⟨tx.outputs.get ⟨j, hjlen⟩, ?_, by simpa using hu⟩
      refine List.get?_mem (n := j) ?_
      rw [List.get?_enum, List.get?_eq_get hjlen]
      rfl

/-- The reverse loop leaves keys outside the processed hashes
untouched. -/
theorem disconnectFold_frame (unsp : Script → Bool) :
    ∀ (L : List TX) (v : CoinView) (h2 : Hash),
      (∀ t ∈ L, h2 ≠ t.hash) →
      alistGet (L.foldl (disconnectTX unsp) v).coins h2 = alistGet v.coins h2 := by
  intro L
  induction L with
  | nil => intro v h2 _; rfl
  | cons t rest ih =>
    intro v h2 hne
    rw [List.foldl_cons, ih _ _ (fun t2 hm => hne t2 (List.mem_cons_of_mem _ hm)),
      disconnectTX_frame unsp v t (hne t (List.mem_cons_self _ _))]

/-- `disconnectTX` preserves the view invariant; keys only gain the
transaction's hash. -/
theorem disconnectTX_wfkeys (unsp : Script → Bool) {v : CoinView} {tx : TX}
    (hwf : ViewWf v) (hok : okTX tx) :
    ViewWf (disconnectTX unsp v tx) ∧
    ∀ h2, h2 ∈ (disconnectTX unsp v tx).coins.map Prod.fst →
      h2 = tx.hash ∨ h2 ∈ v.coins.map Prod.fst := by
  unfold disconnectTX
  obtain ⟨hwfa, hkeysa⟩ := ViewWf_addTX unsp hwf hok
  obtain ⟨hwf2, hkeys2⟩ := spendFold_wf unsp tx.hash tx.outputs.enum _ hwfa
  refine ⟨hwf2, ?_⟩
  intro h2 hm
  rw [hkeys2] at hm
  exact hkeysa h2 hm

/-- The reverse loop of `disconnectBlock`: invariant preserved, keys
only gain the processed hashes, and every processed transaction's
bundle ends with no unspent outputs. -/
theorem disconnectLoop_spec (unsp : Script → Bool) :
    ∀ (L : List TX) (v : CoinView),
      ViewWf v → (∀ t ∈ L, okTX t) → (L.map TX.hash).Nodup →
      ViewWf (L.foldl (disconnectTX unsp) v) ∧
      (∀ h2, h2 ∈ (L.foldl (disconnectTX unsp) v).coins.map Prod.fst →
        h2 ∈ v.coins.map Prod.fst ∨ h2 ∈ L.map TX.hash) ∧
      ∀ t ∈ L, ∃ cs2,
        alistGet (L.foldl (disconnectTX unsp) v).coins t.hash = some cs2 ∧
        Coins.count cs2 = 0 := by
  intro L
  induction L with
  | nil =>
    intro v hwf _ _
    refine ⟨hwf, fun h2 hm => Or.inl hm, ?_⟩
    intro t hm; cases hm
  | cons t rest ih =>
    intro v hwf hok hnd
    rw [List.map_cons] at hnd
    obtain ⟨hwfd, hkeysd⟩ :=
      disconnectTX_wfkeys unsp hwf (hok t (List.mem_cons_self _ _))
    obtain ⟨ihwf, ihkeys, ihzero⟩ := ih (disconnectTX unsp v t) hwfd
      (fun t2 hm => hok t2 (List.mem_cons_of_mem _ hm)) (List.nodup_cons.mp hnd).2
    rw [List.foldl_cons]
    refine ⟨ihwf, ?_, ?_⟩
    · intro h2 hm
      cases ihkeys h2 hm with
      | inl hm2 =>
        cases hkeysd h2 hm2 with
        | inl he => exact Or.inr (by simp [he])
        | inr hm3 => exact Or.inl hm3
      | inr hm2 => exact Or.inr (List.mem_cons_of_mem _ hm2)
    · intro t2 hm
      cases List.mem_cons.mp hm with
      | inr hm2 => exact ihzero t2 hm2
      | inl he =>
        subst he
        obtain ⟨cs2, hcs2, hc0⟩ := disconnectTX_self unsp v t2
        refine ⟨cs2, ?_, hc0⟩
        rw [disconnectFold_frame unsp rest (disconnectTX unsp v t2) t2.hash ?_, hcs2]
        intro t3 hm3 he3
        exact (List.nodup_cons.mp hnd).1 (List.mem_map.mpr ⟨t3, hm3, he3.symm⟩)

end Bcoin

namespace Bcoin

/-! ## ChainDB lemmas (towards C1): the disconnect step -/

/-- Deleting a freshly set key restores the list. -/
theorem alistDel_set_fresh {κ α : Type} [DecidableEq κ] :
    ∀ (l : List (κ × α)) (k : κ) (v : α), alistGet l k = none →
      alistDel (alistSet l k v) k = l := by
  intro l
  induction l with
  | nil => intro k v _; simp [alistSet, alistDel]
  | cons p t ih =>
    intro k v h
    obtain ⟨k2, v2⟩ := p
    simp only [alistGet] at h
    by_cases hk : k2 = k
    · rw [if_pos hk] at h; cases h
    · rw [if_neg hk] at h
      simp only [alistSet, if_neg hk, alistDel]
      rw [ih k v h]

set_option maxHeartbeats 1000000 in
/-- `disconnectBlock` run against any well-formed state whose keys come
from the connect result and whose undo map is the connect result's:
it succeeds, restores the undo map, leaves only keys that were stored
before the connect, and preserves well-formedness. -/
theorem disconnect_step {unsp : Script → Bool} {d d1 e : DBState} {b : Block}
    (hconn : connectBlock unsp false d b = some d1)
    (hwfD : WFdb d) (hwfE : WFdb e) (hokb : okBlock b)
    (hkeysE : ∀ h2, (alistGet e.coins h2).isSome = true →
      (alistGet d1.coins h2).isSome = true)
    (hundoE : e.undo = d1.undo)
    (hfresh : alistGet d.undo b.hash = none) :
    ∃ e2, disconnectBlock unsp e b = some e2 ∧
      e2.undo = d.undo ∧
      (∀ h2, (alistGet e2.coins h2).isSome = true →
        (alistGet d.coins h2).isSome = true) ∧
      WFdb e2 := by
  obtain ⟨hwf1, hkeys1, hprev1, u, huwf, hulen, hund1⟩ := connect_step hconn hwfD hokb
  obtain ⟨v0, hv0, hv0wf, hv0keys⟩ := getCoinView_spec hwfE b
  have hmain : ∃ v1 txsL, getUndoView unsp e b = some (v1, txsL) ∧
      ViewWf v1 ∧
      (∀ h2, h2 ∈ v1.coins.map Prod.fst →
        (alistGet e.coins h2).isSome = true ∨
        ∃ t ∈ b.txs, t.isCoinbase = false ∧
          h2 ∈ t.inputs.map (fun i => i.prevout.1)) ∧
      txsL.map TX.hash = b.txs.map TX.hash ∧
      (∀ t ∈ txsL, okTX t) ∧
      txsL.all (fun tx => tx.isCoinbase || tx.inputs.all
        (fun i => i.coin.isSome)) = true := by
    by_cases hul : u.length = 0
    · have hu0 : alistGet e.undo b.hash = none := by
        rw [hundoE, hund1, if_pos hul]
        exact hfresh
      refine ⟨v0, b.txs, ?_, hv0wf, ?_, rfl, hokb.2, ?_⟩
      · simp only [getUndoView, hv0, hu0]
      · intro h2 hm
        exact Or.inl (hv0keys h2 hm)
      · rw [List.all_eq_true]
        intro tx hm
        by_cases hcb : tx.isCoinbase = true
        · simp [hcb]
        · have hsum := hulen
          rw [hul] at hsum
          have h0 := (List.sum_eq_zero_iff.mp hsum.symm) _
            (List.mem_map.mpr ⟨tx, hm, rfl⟩)
          rw [if_neg hcb] at h0
          have hnil : tx.inputs = [] := List.length_eq_zero.mp h0
          simp [hnil]
    · have hu1 : alistGet e.undo b.hash = some u := by
        rw [hundoE, hund1, if_neg hul]
        exact alistGet_set_self _ _ _
      obtain ⟨v1, txs2, hres, hwf1v, herase, hfill, hkeys1v⟩ :=
        resurrectGo_spec unsp b.txs u v0 (le_of_eq hulen.symm) hv0wf huwf
      have hhashes : txs2.map TX.hash = b.txs.map TX.hash := by
        have h2 := congrArg (List.map TX.hash) herase
        rw [List.map_map, List.map_map] at h2
        exact h2
      have hoks : ∀ t ∈ txs2, okTX t := by
        intro t hm
        have hme : ({ t with inputs := [] } : TX) ∈
            b.txs.map (fun t2 => ({ t2 with inputs := [] } : TX)) := by
          rw [← herase]
          exact List.mem_map.mpr ⟨t, hm, rfl⟩
        obtain ⟨t0, hm0, he0⟩ := List.mem_map.mp hme
        obtain ⟨h1, h2v, h3⟩ := hokb.2 t0 hm0
        refine ⟨?_, ?_, ?_⟩
        · rw [show t.version = t0.version from (congrArg TX.version he0).symm]
          exact h1
        · rw [show t.height = t0.height from (congrArg TX.height he0).symm]
          exact h2v
        · rw [show t.outputs = t0.outputs from (congrArg TX.outputs he0).symm]
          exact h3
      have hguard : txs2.all (fun tx => tx.isCoinbase || tx.inputs.all
          (fun i => i.coin.isSome)) = true := by
        rw [List.all_eq_true]
        intro tx hm
        cases hfill tx hm with
        | inl hcb => simp [hcb]
        | inr hins =>
          have hall : tx.inputs.all (fun i => i.coin.isSome) = true := by
            rw [List.all_eq_true]
            exact fun i hm2 => hins i hm2
          simp [hall]
      refine ⟨v1, txs2, ?_, hwf1v, ?_, hhashes, hoks, hguard⟩
      · simp only [getUndoView, hv0, hu1, hres]
      · intro h2 hm
        cases hkeys1v h2 hm with
        | inl hm2 => exact Or.inl (hv0keys h2 hm2)
        | inr hm2 => exact Or.inr hm2
  obtain ⟨v1, txsL, hguv, hwfv1, hkeysv1, hhashL, hokL, hguard⟩ := hmain
  have hndL : (txsL.reverse.map TX.hash).Nodup := by
    rw [List.map_reverse, List.nodup_reverse, hhashL]
    exact hokb.1
  obtain ⟨hwfW, hkeysW, hzeroW⟩ := disconnectLoop_spec unsp txsL.reverse v1 hwfv1
    (fun t hm => hokL t (List.mem_reverse.mp hm)) hndL
  have hT : ∀ h3 ∈ b.txs.map TX.hash, ∃ cs2,
      alistGet (txsL.reverse.foldl (disconnectTX unsp) v1).coins h3 = some cs2 ∧
      Coins.count cs2 = 0 := by
    intro h3 hm
    obtain ⟨t0, hm0, he⟩ := List.mem_map.mp hm
    have hm2 : t0.hash ∈ txsL.map TX.hash := by
      rw [hhashL]
      exact List.mem_map.mpr ⟨t0, hm0, rfl⟩
    obtain ⟨t, hmt, het⟩ := List.mem_map.mp hm2
    obtain ⟨cs2, hcs2, hc0⟩ := hzeroW t (List.mem_reverse.mpr hmt)
    exact ⟨cs2, (he ▸ het : t.hash = h3) ▸ hcs2, hc0⟩
  obtain ⟨hsu, hsget⟩ := saveView_get hwfW e
  have hundoeq :
      alistDel (saveView e (txsL.reverse.foldl (disconnectTX unsp) v1)).undo b.hash
        = d.undo := by
    rw [hsu, hundoE, hund1]
    by_cases hul : u.length = 0
    · rw [if_pos hul]
      exact alistDel_of_get_none _ _ hfresh
    · rw [if_neg hul]
      exact alistDel_set_fresh _ _ _ hfresh
  refine ⟨{ saveView e (txsL.reverse.foldl (disconnectTX unsp) v1) with
    undo := alistDel
      (saveView e (txsL.reverse.foldl (disconnectTX unsp) v1)).undo b.hash },
    ?_, hundoeq, ?_, ?_⟩
  · unfold disconnectBlock
    rw [hguv]
    simp only [hguard, if_true]
  · intro h2 hg
    have hg2 : (alistGet (saveView e
        (txsL.reverse.foldl (disconnectTX unsp) v1)).coins h2).isSome = true := hg
    rw [hsget h2] at hg2
    cases hgv : alistGet (txsL.reverse.foldl (disconnectTX unsp) v1).coins h2 with
    | some cs =>
      simp only [hgv] at hg2
      by_cases hc : Coins.count cs = 0
      · rw [if_pos hc] at hg2
        cases hg2
      · cases hkeysW h2 (alistGet_isSome_mem hgv) with
        | inr hmT =>
          rw [List.map_reverse, List.mem_reverse, hhashL] at hmT
          obtain ⟨cs2, hcs2, h0⟩ := hT h2 hmT
          rw [hgv] at hcs2
          cases hcs2
          exact absurd h0 hc
        | inl hmV1 =>
          cases hkeysv1 h2 hmV1 with
          | inl hsomeE =>
            cases hkeys1 h2 (hkeysE h2 hsomeE) with
            | inl hd => exact hd
            | inr hmT =>
              obtain ⟨cs2, hcs2, h0⟩ := hT h2 hmT
              rw [hgv] at hcs2
              cases hcs2
              exact absurd h0 hc
          | inr hprev =>
            obtain ⟨t, hmt, hcbf, hmp⟩ := hprev
            obtain ⟨inp, hmi, hei⟩ := List.mem_map.mp hmp
            cases hprev1 t hmt hcbf inp hmi with
            | inl hd => exact hei ▸ hd
            | inr hmT =>
              obtain ⟨cs2, hcs2, h0⟩ := hT h2 (hei ▸ hmT)
              rw [hgv] at hcs2
              cases hcs2
              exact absurd h0 hc
    | none =>
      simp only [hgv] at hg2
      cases hkeys1 h2 (hkeysE h2 hg2) with
      | inl hd => exact hd
      | inr hmT =>
        obtain ⟨cs2, hcs2, h0⟩ := hT h2 hmT
        rw [hgv] at hcs2
        cases hcs2
  · constructor
    · intro h2 raw hg
      have hg2 : alistGet (saveView e
          (txsL.reverse.foldl (disconnectTX unsp) v1)).coins h2 = some raw := hg
      rw [hsget h2] at hg2
      cases hgv : alistGet (txsL.reverse.foldl (disconnectTX unsp) v1).coins h2 with
      | some cs =>
        simp only [hgv] at hg2
        by_cases hc : Coins.count cs = 0
        · rw [if_pos hc] at hg2
          cases hg2
        · rw [if_neg hc] at hg2
          obtain ⟨hk2, hv2, hh2, ho2⟩ := hwfW.2 _ (alistGet_mem hgv)
          exact ⟨cs, hv2, hh2, ho2, (Option.some.inj hg2).symm⟩
      | none =>
        simp only [hgv] at hg2
        exact hwfE.1 h2 raw hg2
    · intro h2 l hg
      have hg2 : alistGet d.undo h2 = some l := by
        rw [← hundoeq]
        exact hg
      exact hwfD.2 h2 l hg2

end Bcoin

namespace Bcoin

/-! ## ChainDB lemmas (towards C1): the full unwind -/

theorem disconnectAll_append (unsp : Script → Bool) :
    ∀ (xs ys : List Block) (d : DBState),
      disconnectAll unsp d (xs ++ ys) =
      match disconnectAll unsp d xs with
      | none => none
      | some d2 => disconnectAll unsp d2 ys := by
  intro xs
  induction xs with
  | nil => intro ys d; rfl
  | cons x xs2 ih =>
    intro ys d
    simp only [List.cons_append, disconnectAll]
    cases hx : disconnectBlock unsp d x with
    | none => simp only [hx]
    | some d2 =>
      simp only [hx]
      exact ih ys d2

/-- An association list whose every lookup fails is empty. -/
theorem alist_nil_of_lookups_none {κ α : Type} [DecidableEq κ]
    {l : List (κ × α)} (h : ∀ k, alistGet l k = none) : l = [] := by
  cases l with
  | nil => rfl
  | cons p t =>
    obtain ⟨k2, v2⟩ := p
    have h2 := h k2
    simp [alistGet] at h2

/-- Connecting any block sequence onto a well-formed state with fresh
undo keys and then disconnecting it in reverse order succeeds, restores
the undo map exactly, leaves no coins key that was not stored before,
and preserves well-formedness. -/
theorem connect_disconnect_all (unsp : Script → Bool) :
    ∀ (bs : List Block) (d dN : DBState),
      WFdb d → (∀ b ∈ bs, okBlock b) →
      (∀ b ∈ bs, alistGet d.undo b.hash = none) →
      (bs.map Block.hash).Nodup →
      connectAll unsp d bs = some dN →
      ∃ dE, disconnectAll unsp dN bs.reverse = some dE ∧
        dE.undo = d.undo ∧
        (∀ h2, (alistGet dE.coins h2).isSome = true →
          (alistGet d.coins h2).isSome = true) ∧
        WFdb dE := by
  intro bs
  induction bs with
  | nil =>
    intro d dN hwf _ _ _ hc
    simp only [connectAll] at hc
    cases hc
    exact ⟨d, rfl, rfl, fun h2 hs => hs, hwf⟩
  | cons b rest ih =>
    intro d dN hwf hok hfr hnd hc
    simp only [connectAll] at hc
    cases hcb : connectBlock unsp false d b with
    | none =>
      simp only [hcb] at hc
      cases hc
    | some d1 =>
      simp only [hcb] at hc
      obtain ⟨hwf1, hkeys1, hprev1, u, huwf, hulen, hund1⟩ :=
        connect_step hcb hwf (hok b (List.mem_cons_self _ _))
      rw [List.map_cons] at hnd
      have hfr1 : ∀ b2 ∈ rest, alistGet d1.undo b2.hash = none := by
        intro b2 hm
        rw [hund1]
        by_cases hul : u.length = 0
        · rw [if_pos hul]
          exact hfr b2 (List.mem_cons_of_mem _ hm)
        · rw [if_neg hul]
          rw [alistGet_set_ne _ _ _ _ (fun he =>
            (List.nodup_cons.mp hnd).1 (List.mem_map.mpr ⟨b2, hm, he.symm⟩))]
          exact hfr b2 (List.mem_cons_of_mem _ hm)
      obtain ⟨dE1, hdis1, hundo1, hkeysE1, hwfE1⟩ := ih d1 dN hwf1
        (fun b2 hm => hok b2 (List.mem_cons_of_mem _ hm)) hfr1
        (List.nodup_cons.mp hnd).2 hc
      obtain ⟨e2, hdis2, hundo2, hkeys2, hwfE2⟩ := disconnect_step hcb hwf hwfE1
        (hok b (List.mem_cons_self _ _)) hkeysE1 hundo1
        (hfr b (List.mem_cons_self _ _))
      refine ⟨e2, ?_, hundo2, hkeys2, hwfE2⟩
      rw [List.reverse_cons, disconnectAll_append unsp rest.reverse [b] dN, hdis1]
      simp only [disconnectAll, hdis2]

/-- **C1.** Connecting genesis writes nothing to the coins store, and
for every sequence of blocks `b1..bn` connected on top of genesis via
`connectBlock` (with undo records written), disconnecting them in
reverse order `bn..b1` via `disconnectBlock` succeeds and restores the
persisted state byte-identically to the state immediately after
genesis (the empty `c[…]`/`u[…]` store): every coin spent by a block
is resurrected from the undo record, every output created by a block
is removed, and every undo record is deleted.  Hypotheses: the blocks
carry serialization-representable transactions with per-block distinct
transaction hashes, block hashes are distinct, and every connect
succeeded. -/
theorem c1_connect_disconnect (unsp : Script → Bool) (g : Block) (bs : List Block)
    (dN : DBState)
    (hok : ∀ b ∈ bs, okBlock b) (hnd : (bs.map Block.hash).Nodup)
    (hc : connectAll unsp emptyDB bs = some dN) :
    connectBlock unsp true emptyDB g = some emptyDB ∧
    disconnectAll unsp dN bs.reverse = some emptyDB := by
  refine ⟨rfl, ?_⟩
  have hwfe : WFdb emptyDB := by
    constructor
    · intro h raw hg
      cases hg
    · intro h l hg
      cases hg
  obtain ⟨⟨dec, deu⟩, hdis, hundo, hkeys, -⟩ :=
    connect_disconnect_all unsp bs emptyDB dN hwfe hok (fun b hm => rfl) hnd hc
  have hcoins : dec = [] := by
    apply alist_nil_of_lookups_none
    intro k
    cases hg : alistGet dec k with
    | none => rfl
    | some v =>
      have h2 := hkeys k (by
        show (alistGet dec k).isSome = true
        rw [hg]
        rfl)
      cases h2
  have hundo2 : deu = [] := hundo
  subst hcoins
  subst hundo2
  exact hdis

/-- Witness for `c1_connect_disconnect` at the concrete two-block
scenario `c1bs` (a coinbase-only block, then a block spending the first
block's coinbase output). -/
theorem c1_connect_disconnect_witness :
    (∀ b ∈ c1bs, okBlock b) ∧ (c1bs.map Block.hash).Nodup ∧
    connectAll unsp0 emptyDB c1bs = some c1dN ∧
    (connectBlock unsp0 true emptyDB c1b1 = some emptyDB ∧
      disconnectAll unsp0 c1dN c1bs.reverse = some emptyDB) :=
  ⟨by decide, by decide, by decide,
    c1_connect_disconnect unsp0 c1b1 c1bs c1dN (by decide) (by decide) (by decide)⟩

end Bcoin
